import Mathlib

/-!
# Master-worker scheduler for numerical integration (advnc_sched.cpp)

A shallow embedding of the advanced scheduler: the work generator
(`IsLoopDone`, `GetNextLoop`), the chunk-slot rotation (`GetFreeChunkIndex`),
the controller (`MasterWork`) and the worker (`SlaveWork`), and of the index
partition of the static scheduler (static_sched.cpp), followed by the
properties established about them.

Conventions of the embedding.

* `long` and `int` values are integers (`Int`); the one addition of the
  generator that can leave the range of `long` is wrapped explicitly
  (`wrapLong`), and so is the increment of the controller's `int` counter
  (`wrapInt`).
* `double` arithmetic is exact: values live in an arbitrary field `α`, and the
  integrand is an arbitrary function `α → Int → α`.
* A process is a state machine driven by the messages it receives; the
  messages it hands to `MPI_Isend` are appended to the `Sent` trace of its
  state, in program order.
-/

namespace AdvncSched

/-! ## Constants of the source -/

/-- Max no of processors available in the system. -/
def MAX_PROCESSORS : Int := 32

/-- Max no of chunks of work available at the slave at any point of time. -/
def MAX_CHUNK : Nat := 3

/-- Rank of the master node. -/
def MASTER_NODE : Int := 0

/-- Tag: message from master to the slave indicating that work is available. -/
def MASTER_TO_SLAVE_WORK_AVAILABLE : Int := 1000

/-- Tag: message from master to slave indicating that the slave should terminate. -/
def MASTER_TO_SLAVE_QUIT : Int := 2000

/-- Tag: message from slave to master carrying a result and asking for work. -/
def SLAVE_TO_MASTER_REQ_WORK : Int := 3000

/-- Tag: message from slave to master indicating that the slave is terminating. -/
def SLAVE_TO_MASTER_EXITING : Int := 4000

/-! ## Machine integers -/

/-- Two's complement reduction of an integer to the range of a 64-bit `long`. -/
def wrapLong (x : Int) : Int := (x + 2 ^ 63) % 2 ^ 64 - 2 ^ 63

/-- Two's complement reduction of an integer to the range of a 32-bit `int`. -/
def wrapInt (x : Int) : Int := (x + 2 ^ 31) % 2 ^ 32 - 2 ^ 31

/-! ## Data model -/

/-- The struct `ThreadData`: problem configuration and scheduling cursor. -/
structure ThreadData (α : Type) where
  /-- starting value of the range of indices a thread is supposed to execute -/
  StartIndex : Int
  /-- stopping value of the range of indices a thread is supposed to execute -/
  StopIndex : Int
  Intensity : Int
  NoOfPoints : Int
  LowerBound : α
  UpperBound : α
  Granularity : Int
  /-- stores the max value of the index upto which the integral has been computed -/
  CompletedIndex : Int
  /-- the function to integrate: one of f1, f2, f3, f4 -/
  FuncToIntegrate : α → Int → α

/-- The struct `IndexSt`: the payload of a controller-to-worker message. -/
structure IndexSt where
  StartIndex : Int
  StopIndex : Int
  deriving DecidableEq, Repr

variable {α : Type}

/-! ## Work generator -/

/-- The function `IsLoopDone`: are all the iterations handed out? -/
def IsLoopDone (T : ThreadData α) : Bool :=
  if T.CompletedIndex = T.NoOfPoints then true else false

/-- The function `GetNextLoop`: computes the next range of iterations and
advances the cursor. (Its return value is the constant status, which no
caller reads.) -/
def GetNextLoop (T : ThreadData α) : ThreadData α :=
  let T1 := { T with StartIndex := T.CompletedIndex }
  let T2 := { T1 with StopIndex := wrapLong (T1.CompletedIndex + T1.Granularity) }
  let T3 := if T2.StopIndex ≥ T2.NoOfPoints then { T2 with StopIndex := T2.NoOfPoints } else T2
  { T3 with CompletedIndex := T3.StopIndex }

/-- The generator driven the way both loops of `MasterWork` drive it: while
`IsLoopDone` is false call `GetNextLoop`, recording the range each call leaves
in `StartIndex`/`StopIndex`. One list entry per call; `fuel` bounds the number
of calls. -/
def GenerateChunks : Nat → ThreadData α → List IndexSt × ThreadData α
  | 0, T => ([], T)
  | fuel + 1, T =>
    if IsLoopDone T then ([], T)
    else
      let T1 := GetNextLoop T
      let r := GenerateChunks fuel T1
      (⟨T1.StartIndex, T1.StopIndex⟩ :: r.1, r.2)

/-- The k-th chunk of the partition of `[0, N)` in pieces of length `G`. -/
def chunkOf (N G : Int) (k : Nat) : IndexSt :=
  ⟨(k : Int) * G, min (((k : Int) + 1) * G) N⟩

/-- Number of chunks: `ceil (N / G)`. -/
def chunkCount (N G : Int) : Nat := ((N + G - 1) / G).toNat

/-! ## Chunk slot rotation -/

/-- The function `GetFreeChunkIndex`: returns the slot to reuse for `Node` and
advances that node's rotation pointer in the table `ChunkIndex`. -/
def GetFreeChunkIndex (Node : Int) (ChunkIndex : Int → Int) : Int × (Int → Int) :=
  let IndexToBeReused := ChunkIndex Node
  if ChunkIndex Node ≥ 2 then
    (IndexToBeReused, Function.update ChunkIndex Node 0)
  else
    (IndexToBeReused, Function.update ChunkIndex Node (ChunkIndex Node + 1))

/-! ## Messages -/

/-- A message handed to `MPI_Isend` by the controller: destination rank, tag
and the `IndexSt` payload read from the slot buffer. -/
structure MasterSend where
  Dest : Int
  Tag : Int
  Index : IndexSt
  deriving DecidableEq, Repr

/-- A message handed to `MPI_Isend` by a worker; the controller receives it
with `Status.MPI_SOURCE = Source`, `Status.MPI_TAG = Tag` and the value in
`NodeIntegralOutput`. -/
structure SlaveSend (α : Type) where
  Source : Int
  Tag : Int
  Value : α
  deriving DecidableEq, Repr

/-! ## Controller -/

/-- The local variables of `MasterWork` that live across loop iterations,
the trace of its sends, and whether the `while (1)` loop was left. -/
structure MasterState (α : Type) where
  ThreadInfo : ThreadData α
  QuitCounter : Int
  index2D : Int → Int → IndexSt
  IntegralOutput : α
  ChunkIndex : Int → Int
  Sent : List MasterSend
  Done : Bool

/-- Assignment `index2D[Node][c] = v`. -/
def setIndex2D (index2D : Int → Int → IndexSt) (Node c : Int) (v : IndexSt) :
    Int → Int → IndexSt :=
  Function.update index2D Node (Function.update (index2D Node) c v)

/-- State of `MasterWork` after its declarations: zeroed tables and sums. -/
def MasterInit [Zero α] (T : ThreadData α) : MasterState α where
  ThreadInfo := T
  QuitCounter := 0
  index2D := fun _ _ => ⟨0, 0⟩
  IntegralOutput := 0
  ChunkIndex := fun _ => 0
  Sent := []
  Done := false

/-- Body of the nested `for` loops of the initial fill, for slot `i` and rank
`Node`. -/
def FillStep (i : Int) (st : MasterState α) (Node : Int) : MasterState α :=
  if !IsLoopDone st.ThreadInfo then
    let T := GetNextLoop st.ThreadInfo
    let idx := setIndex2D st.index2D Node i ⟨T.StartIndex, T.StopIndex⟩
    { st with
      ThreadInfo := T
      index2D := idx
      Sent := st.Sent ++ [⟨Node, MASTER_TO_SLAVE_WORK_AVAILABLE, idx Node i⟩] }
  else st

/-- The ranks `1, ..., CommSize - 1` visited by `for (Node=1; Node<CommSize; Node++)`. -/
def SlaveNodes (CommSize : Int) : List Int :=
  (List.range (CommSize - 1).toNat).map (fun n => (n : Int) + 1)

/-- The initial fill of `MasterWork`:
`for (i=0; i<MAX_CHUNK; i++) for (Node=1; Node<CommSize; Node++) ...`. -/
def InitialFill (CommSize : Int) (st : MasterState α) : MasterState α :=
  (List.range MAX_CHUNK).foldl
    (fun st i => (SlaveNodes CommSize).foldl (FillStep (i : Int)) st) st

/-- One iteration of the `while (1)` loop of `MasterWork`, for the message
`m` delivered by `MPI_Recv`. -/
def MasterRecv [Add α] (CommSize : Int) (st : MasterState α) (m : SlaveSend α) :
    MasterState α :=
  let st1 :=
    if m.Tag = SLAVE_TO_MASTER_EXITING then
      { st with QuitCounter := wrapInt (st.QuitCounter + 1) }
    else st
  if m.Tag = SLAVE_TO_MASTER_EXITING ∧ st1.QuitCounter = CommSize - 1 then
    { st1 with Done := true }
  else
    let st2 := { st1 with IntegralOutput := st1.IntegralOutput + m.Value }
    let Node := m.Source
    let r := GetFreeChunkIndex Node st2.ChunkIndex
    let CurChunk := r.1
    let st3 := { st2 with
      ChunkIndex := r.2
      index2D := setIndex2D st2.index2D Node CurChunk
        ⟨st2.ThreadInfo.StartIndex, st2.ThreadInfo.StopIndex⟩ }
    if !IsLoopDone st3.ThreadInfo then
      { st3 with
        ThreadInfo := GetNextLoop st3.ThreadInfo
        Sent := st3.Sent ++
          [⟨Node, MASTER_TO_SLAVE_WORK_AVAILABLE, st3.index2D Node CurChunk⟩] }
    else
      { st3 with
        Sent := st3.Sent ++ [⟨Node, MASTER_TO_SLAVE_QUIT, st3.index2D Node CurChunk⟩] }

/-- The `while (1)` loop of `MasterWork` fed with the messages `MPI_Recv`
delivers, in order; once the loop is left no further message is received.
With no message left the loop is blocked in `MPI_Recv`. -/
def MasterLoop [Add α] (CommSize : Int) : MasterState α → List (SlaveSend α) → MasterState α
  | st, [] => st
  | st, m :: ms => if st.Done then st else MasterLoop CommSize (MasterRecv CommSize st m) ms

/-- The function `MasterWork` run on the messages it receives: initial fill,
then the receive loop. -/
def MasterWork [Add α] [Zero α] (CommSize : Int) (T : ThreadData α)
    (msgs : List (SlaveSend α)) : MasterState α :=
  MasterLoop CommSize (InitialFill CommSize (MasterInit T)) msgs

/-! ## Worker -/

/-- The local variables of `SlaveWork` that live across loop iterations, the
trace of its sends, and whether the `while (1)` loop was left. -/
structure SlaveState (α : Type) where
  NodeIntegralTemp : α
  NodeIntegralOutput : α
  QuitCounter : Int
  Sent : List (SlaveSend α)
  Done : Bool

/-- State of `SlaveWork` after its declarations. -/
def SlaveInit [Zero α] : SlaveState α where
  NodeIntegralTemp := 0
  NodeIntegralOutput := 0
  QuitCounter := 0
  Sent := []
  Done := false

/-- The loop `for (i = StartIndex; i < StopIndex; i++)` of `SlaveWork` with
`n` iterations left, loop variable `i` and running sum `acc`. -/
def IntegrateLoop [Field α] (T : ThreadData α) (y : α) : Nat → Int → α → α
  | 0, _, acc => acc
  | n + 1, i, acc =>
    let x := T.LowerBound + (((i : α) + 1 / 2) * y)
    let FuncOutput := T.FuncToIntegrate x T.Intensity
    let FuncOutput := FuncOutput * y
    IntegrateLoop T y n (i + 1) (acc + FuncOutput)

/-- One iteration of the `while (1)` loop of `SlaveWork` on rank `ProcRank`,
for the message `m` delivered by `MPI_Recv`. -/
def SlaveRecv [Field α] (T : ThreadData α) (ProcRank : Int) (st : SlaveState α)
    (m : MasterSend) : SlaveState α :=
  if m.Tag = MASTER_TO_SLAVE_WORK_AVAILABLE then
    let StartIndex := m.Index.StartIndex
    let StopIndex := m.Index.StopIndex
    let y := (T.UpperBound - T.LowerBound) / (T.NoOfPoints : α)
    let temp := IntegrateLoop T y (StopIndex - StartIndex).toNat StartIndex 0
    { st with
      NodeIntegralTemp := temp
      NodeIntegralOutput := temp
      Sent := st.Sent ++ [⟨ProcRank, SLAVE_TO_MASTER_REQ_WORK, temp⟩] }
  else if m.Tag = MASTER_TO_SLAVE_QUIT then
    let st1 := { st with QuitCounter := wrapInt (st.QuitCounter + 1) }
    if st1.QuitCounter ≥ 3 then
      { st1 with
        NodeIntegralOutput := 0
        Sent := st1.Sent ++ [⟨ProcRank, SLAVE_TO_MASTER_EXITING, 0⟩]
        Done := true }
    else st1
  else st

/-- The `while (1)` loop of `SlaveWork` fed with the messages `MPI_Recv`
delivers, in order; once the loop is left no further message is received. -/
def SlaveLoop [Field α] (T : ThreadData α) (ProcRank : Int) :
    SlaveState α → List MasterSend → SlaveState α
  | st, [] => st
  | st, m :: ms => if st.Done then st else SlaveLoop T ProcRank (SlaveRecv T ProcRank st m) ms

/-- The function `SlaveWork` run on the messages it receives. -/
def SlaveWork [Field α] (T : ThreadData α) (ProcRank : Int) (msgs : List MasterSend) :
    SlaveState α :=
  SlaveLoop T ProcRank SlaveInit msgs

/-- The single-pass midpoint sum over `[0, N)`:
`sum_{i=0}^{N-1} f(LowerBound + (i+0.5)*y, Intensity) * y`, `y = (UpperBound-LowerBound)/N`. -/
def MidpointSum [Field α] (T : ThreadData α) : α :=
  let y := (T.UpperBound - T.LowerBound) / (T.NoOfPoints : α)
  ((List.range T.NoOfPoints.toNat).map
    (fun i => T.FuncToIntegrate (T.LowerBound + (((i : α) + 1 / 2) * y)) T.Intensity * y)).sum

/-! ## The process group

The controller (rank 0) and the workers (ranks `1 .. CommSize-1`) run
concurrently. The transport keeps the order of the messages between a given
pair of processes, and the controller's `MPI_Recv` from `MPI_ANY_SOURCE`
takes the oldest undelivered message of any worker. The initial fill receives
nothing, so it is executed first. -/

/-- A scheduling event: worker `w` receives its next message from the
controller, or the controller receives the next message of worker `w`. -/
inductive Event where
  | slave (w : Int)
  | master (w : Int)
  deriving DecidableEq, Repr

/-- State of the process group: the controller, the workers, and per worker
how many messages of the controller it has received (`SlaveTaken`) and how
many of its messages the controller has received (`MasterTaken`). -/
structure System (α : Type) where
  Master : MasterState α
  Slave : Int → SlaveState α
  SlaveTaken : Int → Nat
  MasterTaken : Int → Nat

/-- The process group once every process has entered its receive loop. -/
def SystemInit [Zero α] (CommSize : Int) (T : ThreadData α) : System α where
  Master := InitialFill CommSize (MasterInit T)
  Slave := fun _ => SlaveInit
  SlaveTaken := fun _ => 0
  MasterTaken := fun _ => 0

/-- One scheduling event; `none` when the event cannot happen (the receiving
loop was left, or no message is pending on that channel). -/
def SystemStep [Field α] (CommSize : Int) (T : ThreadData α) (s : System α) :
    Event → Option (System α)
  | .slave w =>
    if 1 ≤ w ∧ w < CommSize ∧ (s.Slave w).Done = false then
      match (s.Master.Sent.filter (fun m => m.Dest = w))[s.SlaveTaken w]? with
      | none => none
      | some m =>
        some { s with
          Slave := Function.update s.Slave w (SlaveRecv T w (s.Slave w) m)
          SlaveTaken := Function.update s.SlaveTaken w (s.SlaveTaken w + 1) }
    else none
  | .master w =>
    if 1 ≤ w ∧ w < CommSize ∧ s.Master.Done = false then
      match (s.Slave w).Sent[s.MasterTaken w]? with
      | none => none
      | some m =>
        some { s with
          Master := MasterRecv CommSize s.Master m
          MasterTaken := Function.update s.MasterTaken w (s.MasterTaken w + 1) }
    else none

/-- A run of the process group along a schedule; `none` when some event of
the schedule cannot happen. -/
def SystemRun [Field α] (CommSize : Int) (T : ThreadData α) :
    System α → List Event → Option (System α)
  | s, [] => some s
  | s, e :: es =>
    match SystemStep CommSize T s e with
    | none => none
    | some s1 => SystemRun CommSize T s1 es

/-! ## Entry point -/

/-- What `main` did: its return value, and the `ThreadData` with which it
entered `MasterWork`/`SlaveWork` (`none` when it did not). -/
structure MainResult (α : Type) where
  Status : Int
  Scheduled : Option (ThreadData α)

/-- The function `main`, on the argument count and the values `atoi`, `atof`
and `atol` read from `argv[1..5]`; `f1 .. f4` are the library integrands. -/
def main (argc : Int) (FunctionID : Int) (LowerBound UpperBound : α)
    (NoOfPoints Intensity : Int) (f1 f2 f3 f4 : α → Int → α) : MainResult α :=
  if argc < 6 then ⟨-1, none⟩
  else if NoOfPoints < 1000 then ⟨0, none⟩
  else
    let Granularity : Int := if NoOfPoints < 10000 then 10 else 100
    let ThreadInfo (f : α → Int → α) : ThreadData α :=
      { StartIndex := 0, StopIndex := 0, Intensity := Intensity, NoOfPoints := NoOfPoints,
        LowerBound := LowerBound, UpperBound := UpperBound, Granularity := Granularity,
        CompletedIndex := 0, FuncToIntegrate := f }
    if FunctionID = 1 then ⟨0, some (ThreadInfo f1)⟩
    else if FunctionID = 2 then ⟨0, some (ThreadInfo f2)⟩
    else if FunctionID = 3 then ⟨0, some (ThreadInfo f3)⟩
    else if FunctionID = 4 then ⟨0, some (ThreadInfo f4)⟩
    else ⟨0, none⟩

/-! ## Drivers and sample data used in the statements -/

/-- A sequence of calls `GetFreeChunkIndex (Node, ChunkIndex)` for the given
nodes, on one table: the slots returned, in call order, and the final table. -/
def FreeChunkCalls : (Int → Int) → List Int → List Int × (Int → Int)
  | ChunkIndex, [] => ([], ChunkIndex)
  | ChunkIndex, Node :: Nodes =>
    let r := GetFreeChunkIndex Node ChunkIndex
    let rest := FreeChunkCalls r.2 Nodes
    (r.1 :: rest.1, rest.2)

/-- The midpoint term `f(LowerBound + (i+0.5)*y, Intensity) * y` with
`y = (UpperBound - LowerBound) / NoOfPoints`. -/
def MidpointTerm [Field α] (T : ThreadData α) (i : Int) : α :=
  T.FuncToIntegrate
    (T.LowerBound + (((i : α) + 1 / 2) * ((T.UpperBound - T.LowerBound) / (T.NoOfPoints : α))))
    T.Intensity * ((T.UpperBound - T.LowerBound) / (T.NoOfPoints : α))

/-- The configuration `main` builds for `advnc_sched 1 0 10 1000 1`, with the
integrand `f(x, intensity) = x`. -/
def SampleData : ThreadData ℚ :=
  { StartIndex := 0, StopIndex := 0, Intensity := 1, NoOfPoints := 1000,
    LowerBound := 0, UpperBound := 10, Granularity := 10,
    CompletedIndex := 0, FuncToIntegrate := fun x _ => x }

/-- A complete schedule of `mpirun -n 2 ./advnc_sched 1 0 10 1000 1`: the
worker answers a message, the controller receives the answer, 100 times; the
worker then receives its three quits and the controller its exit message. -/
def SampleSchedule : List Event :=
  (List.replicate 100 [Event.slave 1, Event.master 1]).flatten ++
    [Event.slave 1, Event.slave 1, Event.slave 1, Event.master 1]

/-- A schedule of `mpirun -n 3 ./advnc_sched 1 0 10 1000 1` up to the point
where worker 1 has received its three quits and sent its exit message:
workers 1 and 2 take turns answering one message, 50 times each. -/
def SampleSchedule3 : List Event :=
  (List.replicate 50 [Event.slave 1, Event.master 1, Event.slave 2, Event.master 2]).flatten ++
    [Event.slave 1, Event.slave 1, Event.slave 1]

/-! ## Notions used in the statements about complete runs -/

/-- The messages of a trace of the controller that go to rank `w`, in order. -/
def MsgsTo (w : Int) (l : List MasterSend) : List MasterSend :=
  l.filter (fun m => m.Dest = w)

/-- The work-available messages of a trace of the controller, in order. -/
def WorkMsgs (l : List MasterSend) : List MasterSend :=
  l.filter (fun m => m.Tag = MASTER_TO_SLAVE_WORK_AVAILABLE)

/-- The quit messages of a trace of the controller, in order. -/
def QuitMsgs (l : List MasterSend) : List MasterSend :=
  l.filter (fun m => m.Tag = MASTER_TO_SLAVE_QUIT)

/-- The messages of a list that come from rank `w`, in order. -/
def MsgsFrom (w : Int) (l : List (SlaveSend α)) : List (SlaveSend α) :=
  l.filter (fun m => m.Source = w)

/-- The partial-result message rank `w` sends in answer to the
work-available message `m`. -/
def WorkReply [Field α] (T : ThreadData α) (w : Int) (m : MasterSend) : SlaveSend α :=
  ⟨w, SLAVE_TO_MASTER_REQ_WORK,
    ∑ i ∈ Finset.Ico m.Index.StartIndex m.Index.StopIndex, MidpointTerm T i⟩

/-- The payload of the j-th work-available message of a run whose initial
fill sends `k` messages: the chunks `c_0 .. c_(k-1)` of the fill, then every
chunk once more from `c_(k-1)` on, one call late. -/
def PayloadAt (N G : Int) (k j : Nat) : IndexSt :=
  if j < k then chunkOf N G j else chunkOf N G (j - 1)

/-- The generator after `n` calls of `GetNextLoop` that all started below
`N`: the cursor, and the range the last call left. -/
def GenAt (N G : Int) (T : ThreadData α) (n : Nat) : Prop :=
  T.NoOfPoints = N ∧ T.Granularity = G ∧ T.CompletedIndex = min ((n : Int) * G) N ∧
    (1 ≤ n → T.StartIndex = ((n : Int) - 1) * G ∧ T.StopIndex = min ((n : Int) * G) N)

/-- The messages of one row of the initial fill: slot `s`, workers
`1 .. W`, the worker `j + 1` getting the chunk number `s * W + j`. -/
def FillRow (N G : Int) (W s : Nat) : List MasterSend :=
  (List.range W).map (fun j : Nat =>
    ⟨(j : Int) + 1, MASTER_TO_SLAVE_WORK_AVAILABLE, chunkOf N G (s * W + j)⟩)

/-- The configuration `main` builds for `advnc_sched 1 0 10 1000 <Intensity>`
when the library integrand is the constant function 1. -/
def ConstData [Field α] (Intensity : Int) : ThreadData α :=
  { StartIndex := 0, StopIndex := 0, Intensity := Intensity, NoOfPoints := 1000,
    LowerBound := 0, UpperBound := 10, Granularity := 10,
    CompletedIndex := 0, FuncToIntegrate := fun _ _ => 1 }

/-- Order of the controller's trace: all its work-available messages come
before all its quit messages, and a quit is only there once the generator is
exhausted. -/
def OrderInv (st : MasterState α) : Prop :=
  st.Sent = WorkMsgs st.Sent ++ QuitMsgs st.Sent ∧
    (QuitMsgs st.Sent ≠ [] → IsLoopDone st.ThreadInfo = true)

/-- The generator and the payloads sent so far, for an initial fill of `k`
messages: the generator has been called once per work-available message, and
the j-th such message carries `PayloadAt N G k j`. -/
def GenInv (N G : Int) (k : Nat) (st : MasterState α) : Prop :=
  GenAt N G st.ThreadInfo (WorkMsgs st.Sent).length ∧ k ≤ (WorkMsgs st.Sent).length ∧
    (((WorkMsgs st.Sent).length : Int) - 1) * G < N ∧
    (WorkMsgs st.Sent).map (fun m => m.Index) =
      (List.range (WorkMsgs st.Sent).length).map (PayloadAt N G k)

/-- Accounting per rank `w`, for a controller that has handled the messages
`h` in its receive loop: three more messages went to a worker than were
handled from it, its rotation pointer has advanced once per handled message,
and each of its slots holds the payload of the last message sent from it. -/
def SlotInv (CommSize : Int) (st : MasterState α) (h : List (SlaveSend α)) : Prop :=
  ∀ w : Int,
    (MsgsTo w st.Sent).length =
      (if 1 ≤ w ∧ w < CommSize then 3 else 0) + (MsgsFrom w h).length ∧
    st.ChunkIndex w = ((MsgsFrom w h).length : Int) % 3 ∧
    ∀ (i : Nat) (x : MasterSend), (MsgsTo w st.Sent)[i]? = some x →
      (MsgsTo w st.Sent).length ≤ i + 3 → st.index2D w ((i : Int) % 3) = x.Index

/-- Number of worker-exiting messages in a list. -/
def ExitCount (l : List (SlaveSend α)) : Nat :=
  l.countP (fun m => m.Tag = SLAVE_TO_MASTER_EXITING)

/-- The midpoint sum of the index range `x`. -/
def ChunkSum [Field α] (T : ThreadData α) (x : IndexSt) : α :=
  ∑ i ∈ Finset.Ico x.StartIndex x.StopIndex, MidpointTerm T i

/-- The relation between the processes in a state of the group reached by a
run: `h` are the messages the controller has handled in its receive loop, in
order, `fin` is the exit message on which it left the loop (empty while it is
running). Every process is what its own loop makes of the messages it has
taken, channels are emptied in order, and the controller's tables account
for `h`. -/
structure SysInv [Field α] (CommSize : Int) (T : ThreadData α) (s : System α)
    (h fin : List (SlaveSend α)) : Prop where
  fromSlave : ∀ w, MsgsFrom w (h ++ fin) = (s.Slave w).Sent.take (s.MasterTaken w)
  masterTaken : ∀ w, s.MasterTaken w ≤ (s.Slave w).Sent.length
  slave : ∀ w, s.Slave w = SlaveWork T w ((MsgsTo w s.Master.Sent).take (s.SlaveTaken w))
  slaveTaken : ∀ w, s.SlaveTaken w ≤ (MsgsTo w s.Master.Sent).length
  outside : ∀ w, ¬ (1 ≤ w ∧ w < CommSize) → s.MasterTaken w = 0
  order : OrderInv s.Master
  slots : SlotInv CommSize s.Master h
  sum : s.Master.IntegralOutput = (h.map (fun m => m.Value)).sum
  running : s.Master.Done = false →
    fin = [] ∧ s.Master.QuitCounter = (ExitCount h : Int) ∧ s.Master.QuitCounter < CommSize - 1
  finished : s.Master.Done = true →
    ∃ m, fin = [m] ∧ m.Tag = SLAVE_TO_MASTER_EXITING ∧ (ExitCount h : Int) + 1 = CommSize - 1

/-- Number of events of a run, read off the state: the messages taken by the
workers `1 .. CommSize - 1` and by the controller from them. -/
def Steps (CommSize : Int) (s : System α) : Nat :=
  ∑ w ∈ Finset.Ico (1 : Int) CommSize, (s.SlaveTaken w + s.MasterTaken w)

end AdvncSched

/-! ## Static partitioner (static_sched.cpp) -/

namespace StaticSched

/-- The value of the `float` nearest to the integer `x`, as the integer it
denotes (a `float` has 24 significant bits; round to nearest, ties to even):
the conversion `int → float` of the assignments to `StartIndex`/`StopIndex`
and of the comparison `i < StopIndex`. -/
def floatOfInt (x : Int) : Int :=
  let a := x.natAbs
  if a ≤ 2 ^ 24 then x
  else
    let ulp := 2 ^ (Nat.log2 a - 23)
    let q := a / ulp
    let r := a % ulp
    let up := decide (2 * r > ulp) || (decide (2 * r = ulp) && decide (q % 2 = 1))
    let mag := if up then (q + 1) * ulp else q * ulp
    if x < 0 then -(mag : Int) else (mag : Int)

/-- The value `main` stores in the `float` variable `StartIndex`:
`(int)floor ((ProcRank) * NoOfPoints/CommSize)`, an `int` product and an
`int` division (the `floor` of the converted quotient changes nothing). -/
def StartIndex (ProcRank NoOfPoints CommSize : Int) : Int :=
  floatOfInt (Int.tdiv (AdvncSched.wrapInt (ProcRank * NoOfPoints)) CommSize)

/-- The value `main` stores in the `float` variable `StopIndex`:
`(int)floor ((ProcRank+1) * NoOfPoints/CommSize)`. -/
def StopIndex (ProcRank NoOfPoints CommSize : Int) : Int :=
  floatOfInt (Int.tdiv (AdvncSched.wrapInt ((ProcRank + 1) * NoOfPoints)) CommSize)

/-- The loop `for (i = StartIndex; i < StopIndex; i++)` of `main` with the
`int` loop variable at `i`: the values of `i` for which the body runs, at most
`fuel` of them. -/
def IndexLoop (StopIndex : Int) : Nat → Int → List Int
  | 0, _ => []
  | fuel + 1, i =>
    if floatOfInt i < StopIndex then i :: IndexLoop StopIndex fuel (AdvncSched.wrapInt (i + 1))
    else []

/-- The indices rank `ProcRank` of `CommSize` iterates in `main`. -/
def LoopIndices (fuel : Nat) (ProcRank NoOfPoints CommSize : Int) : List Int :=
  IndexLoop (StopIndex ProcRank NoOfPoints CommSize) fuel
    (StartIndex ProcRank NoOfPoints CommSize)

end StaticSched

namespace AdvncSched

variable {α : Type}

/-! # Properties -/

/-! ## Machine integers: no wrap-around inside the range -/

theorem wrapLong_eq (x : Int) (h1 : -(2 ^ 63) ≤ x) (h2 : x < 2 ^ 63) : wrapLong x = x := by
  unfold wrapLong
  omega

theorem wrapInt_eq (x : Int) (h1 : -(2 ^ 31) ≤ x) (h2 : x < 2 ^ 31) : wrapInt x = x := by
  unfold wrapInt
  omega

/-! ## Work generator -/

theorem IsLoopDone_eq_true (T : ThreadData α) :
    IsLoopDone T = true ↔ T.CompletedIndex = T.NoOfPoints := by
  unfold IsLoopDone
  split <;> simp_all

theorem IsLoopDone_eq_false (T : ThreadData α) :
    IsLoopDone T = false ↔ T.CompletedIndex ≠ T.NoOfPoints := by
  unfold IsLoopDone
  split <;> simp_all

/-- What `GetNextLoop` computes when the addition stays in the range of `long`. -/
theorem GetNextLoop_eq (T : ThreadData α)
    (h1 : -(2 ^ 63) ≤ T.CompletedIndex + T.Granularity)
    (h2 : T.CompletedIndex + T.Granularity < 2 ^ 63) :
    GetNextLoop T =
      { T with
        StartIndex := T.CompletedIndex
        StopIndex := min (T.CompletedIndex + T.Granularity) T.NoOfPoints
        CompletedIndex := min (T.CompletedIndex + T.Granularity) T.NoOfPoints } := by
  unfold GetNextLoop
  simp only [wrapLong_eq _ h1 h2]
  by_cases h : T.CompletedIndex + T.Granularity ≥ T.NoOfPoints
  · simp [h, min_eq_right h]
  · have h3 : T.CompletedIndex + T.Granularity ≤ T.NoOfPoints := by omega
    simp [h, min_eq_left h3]

theorem chunkCount_cast (N G : Int) (hN : 0 ≤ N) (hG : 1 ≤ G) :
    (chunkCount N G : Int) = (N + G - 1) / G := by
  unfold chunkCount
  apply Int.toNat_of_nonneg
  apply Int.ediv_nonneg <;> omega

theorem lt_chunkCount_iff (N G : Int) (hN : 0 ≤ N) (hG : 1 ≤ G) (j : Nat) :
    j < chunkCount N G ↔ (j : Int) * G < N := by
  have hc := chunkCount_cast N G hN hG
  have hG0 : 0 < G := by omega
  have key : (j : Int) + 1 ≤ (N + G - 1) / G ↔ ((j : Int) + 1) * G ≤ N + G - 1 :=
    Int.le_ediv_iff_mul_le hG0
  constructor
  · intro h
    have h1 : (j : Int) + 1 ≤ (N + G - 1) / G := by omega
    have h2 := key.mp h1
    have h3 : ((j : Int) + 1) * G = (j : Int) * G + G := by ring
    omega
  · intro h
    have h3 : ((j : Int) + 1) * G = (j : Int) * G + G := by ring
    have h1 : (j : Int) + 1 ≤ (N + G - 1) / G := key.mpr (by omega)
    omega

/-- The ceiling property: `chunkCount N G` is the least `m` with `N ≤ m * G`. -/
theorem chunkCount_ceil (N G : Int) (hN : 0 ≤ N) (hG : 1 ≤ G) :
    N ≤ (chunkCount N G : Int) * G ∧ (chunkCount N G : Int) * G < N + G := by
  have h1 := (lt_chunkCount_iff N G hN hG (chunkCount N G)).not.mp (by omega)
  refine ⟨by omega, ?_⟩
  by_cases h0 : chunkCount N G = 0
  · rw [h0]; simp; omega
  · have h2 := (lt_chunkCount_iff N G hN hG (chunkCount N G - 1)).mp (by omega)
    have h3 : ((chunkCount N G - 1 : Nat) : Int) = (chunkCount N G : Int) - 1 := by omega
    rw [h3] at h2
    have h4 : ((chunkCount N G : Int) - 1) * G = (chunkCount N G : Int) * G - G := by ring
    omega

/-- The generator started at the j-th chunk boundary produces the remaining
chunks and stops with the cursor at `N`. -/
theorem GenerateChunks_from (N G : Int) (hN : 0 ≤ N) (hG : 1 ≤ G) (hov : N + G < 2 ^ 63) :
    ∀ (n j fuel : Nat) (T : ThreadData α), T.NoOfPoints = N → T.Granularity = G →
      T.CompletedIndex = min ((j : Int) * G) N → j + n = chunkCount N G → n ≤ fuel →
      (GenerateChunks fuel T).1 = (List.range' j n).map (chunkOf N G) ∧
      (GenerateChunks fuel T).2.CompletedIndex = N ∧
      (GenerateChunks fuel T).2.NoOfPoints = N := by
  intro n
  induction n with
  | zero =>
    intro j fuel T hTN hTG hC hj _
    have h1 := (lt_chunkCount_iff N G hN hG j).not.mp (by omega)
    have hCN : T.CompletedIndex = N := by rw [hC]; exact min_eq_right (by omega)
    have hdone : IsLoopDone T = true := (IsLoopDone_eq_true T).mpr (by rw [hCN, hTN])
    cases fuel with
    | zero => simp [GenerateChunks, hCN, hTN]
    | succ f => simp [GenerateChunks, hdone, hCN, hTN]
  | succ n ih =>
    intro j fuel T hTN hTG hC hj hfuel
    have h1 := (lt_chunkCount_iff N G hN hG j).mp (by omega)
    have hCj : T.CompletedIndex = (j : Int) * G := by rw [hC]; exact min_eq_left (by omega)
    have hj0 : (0 : Int) ≤ (j : Int) * G := by positivity
    have hnd : IsLoopDone T = false := (IsLoopDone_eq_false T).mpr (by rw [hCj, hTN]; omega)
    obtain ⟨f, rfl⟩ : ∃ f, fuel = f + 1 := ⟨fuel - 1, by omega⟩
    have hg := GetNextLoop_eq T (by rw [hCj, hTG]; omega) (by rw [hCj, hTG]; omega)
    have hmul : ((j : Int) + 1) * G = (j : Int) * G + G := by ring
    have ih1 := ih (j + 1) f (GetNextLoop T) (by rw [hg]; exact hTN) (by rw [hg]; exact hTG)
      (by rw [hg]; simp only []; rw [hCj, hTG, hTN]; push_cast; rw [hmul])
      (by omega) (by omega)
    simp only [GenerateChunks, hnd, Bool.false_eq_true, if_false, List.range'_succ, List.map_cons]
    refine ⟨?_, ih1.2.1, ih1.2.2⟩
    rw [ih1.1]
    congr 1
    rw [hg]
    simp only [chunkOf, hmul]
    rw [hCj, hTG, hTN]

theorem chunkOf_stop_le_start (N G : Int) (hG : 1 ≤ G) (a b : Nat) (hab : a < b) :
    (chunkOf N G a).StopIndex ≤ (chunkOf N G b).StartIndex := by
  simp only [chunkOf]
  have h1 : ((a : Int) + 1) * G ≤ (b : Int) * G :=
    mul_le_mul_of_nonneg_right (by omega) (by omega)
  exact le_trans (min_le_left _ _) h1

theorem mem_chunks_iff (N G : Int) (hN : 0 ≤ N) (hG : 1 ≤ G) (i : Int) :
    (0 ≤ i ∧ i < N) ↔
      ∃ c ∈ (List.range (chunkCount N G)).map (chunkOf N G),
        c.StartIndex ≤ i ∧ i < c.StopIndex := by
  have hG0 : 0 < G := by omega
  constructor
  · rintro ⟨h0, h1⟩
    have hq : 0 ≤ i / G := Int.ediv_nonneg h0 (by omega)
    have hk : ((i / G).toNat : Int) = i / G := Int.toNat_of_nonneg hq
    have hlo : i / G * G ≤ i := Int.ediv_mul_le i (by omega)
    have hhi : i < (i / G + 1) * G := Int.lt_ediv_add_one_mul_self i hG0
    refine ⟨chunkOf N G (i / G).toNat, ?_, ?_, ?_⟩
    · refine List.mem_map.mpr ⟨(i / G).toNat, List.mem_range.mpr ?_, rfl⟩
      exact (lt_chunkCount_iff N G hN hG _).mpr (by rw [hk]; omega)
    · simp only [chunkOf, hk]; exact hlo
    · simp only [chunkOf, hk]; exact lt_min hhi h1
  · rintro ⟨c, hc, h0, h1⟩
    obtain ⟨k, _, rfl⟩ := List.mem_map.mp hc
    simp only [chunkOf] at h0 h1
    have hk0 : (0 : Int) ≤ (k : Int) * G := by positivity
    exact ⟨by omega, lt_of_lt_of_le h1 (min_le_right _ _)⟩

/-- C3. Work generator. For every `N ≥ 0` and `G ≥ 1` with `N + G` in the
range of `long`, starting from `CompletedIndex = 0` and calling `GetNextLoop`
while `IsLoopDone` is false makes exactly `ceil (N / G)` calls (whatever fuel
at least that large is granted); the k-th call yields the chunk
`[k*G, min ((k+1)*G) N)`; the chunks are non-empty, of length `G` except
possibly the last, increasing and pairwise disjoint, and cover exactly
`[0, N)`; afterwards `CompletedIndex = N` and `IsLoopDone` is true. -/
theorem GenerateChunks_partition (T : ThreadData α) (N G : Int) (fuel : Nat)
    (hN : 0 ≤ N) (hG : 1 ≤ G) (hov : N + G < 2 ^ 63)
    (hTN : T.NoOfPoints = N) (hTG : T.Granularity = G) (hC : T.CompletedIndex = 0)
    (hfuel : chunkCount N G ≤ fuel) :
    (GenerateChunks fuel T).1.length = chunkCount N G ∧
    (N ≤ (chunkCount N G : Int) * G ∧ (chunkCount N G : Int) * G < N + G) ∧
    (∀ k, k < chunkCount N G →
      (GenerateChunks fuel T).1[k]? =
        some ⟨(k : Int) * G, min (((k : Int) + 1) * G) N⟩) ∧
    (∀ c ∈ (GenerateChunks fuel T).1, c.StartIndex < c.StopIndex ∧
      c.StopIndex - c.StartIndex ≤ G) ∧
    (∀ k c, k + 1 < chunkCount N G → (GenerateChunks fuel T).1[k]? = some c →
      c.StopIndex - c.StartIndex = G) ∧
    (GenerateChunks fuel T).1.Pairwise (fun a b => a.StopIndex ≤ b.StartIndex) ∧
    (∀ i : Int, (0 ≤ i ∧ i < N) ↔
      ∃ c ∈ (GenerateChunks fuel T).1, c.StartIndex ≤ i ∧ i < c.StopIndex) ∧
    (GenerateChunks fuel T).2.CompletedIndex = N ∧
    IsLoopDone (GenerateChunks fuel T).2 = true := by
  have hgen := GenerateChunks_from N G hN hG hov (chunkCount N G) 0 fuel T hTN hTG
    (by rw [hC]; simp [min_eq_left hN]) (by omega) hfuel
  obtain ⟨hl, hc, hn⟩ := hgen
  rw [← List.range_eq_range'] at hl
  have hget : ∀ k, k < chunkCount N G →
      ((List.range (chunkCount N G)).map (chunkOf N G))[k]? = some (chunkOf N G k) := by
    intro k hk
    simp [List.getElem?_map, List.getElem?_range hk]
  refine ⟨?_, chunkCount_ceil N G hN hG, ?_, ?_, ?_, ?_, ?_, hc, ?_⟩
  · rw [hl]; simp
  · intro k hk
    rw [hl, hget k hk]; rfl
  · intro c hcm
    rw [hl] at hcm
    obtain ⟨k, hk, rfl⟩ := List.mem_map.mp hcm
    have hk1 := (lt_chunkCount_iff N G hN hG k).mp (List.mem_range.mp hk)
    have hmul : ((k : Int) + 1) * G = (k : Int) * G + G := by ring
    simp only [chunkOf, hmul]
    constructor
    · exact lt_min (by omega) hk1
    · have := min_le_left ((k : Int) * G + G) N
      omega
  · intro k c hk hkc
    rw [hl, hget k (by omega)] at hkc
    have hk1 := (lt_chunkCount_iff N G hN hG (k + 1)).mp hk
    have hmul : ((k : Int) + 1) * G = (k : Int) * G + G := by ring
    push_cast at hk1
    rw [hmul] at hk1
    obtain rfl := Option.some.inj hkc
    simp only [chunkOf, hmul]
    rw [min_eq_left (by omega)]
    omega
  · rw [hl, List.pairwise_map]
    exact (List.pairwise_lt_range _).imp (fun hab => chunkOf_stop_le_start N G hG _ _ hab)
  · intro i
    rw [hl]
    exact mem_chunks_iff N G hN hG i
  · exact (IsLoopDone_eq_true _).mpr (by rw [hc, hn])

/-! ## Chunk slot rotation -/

theorem GetFreeChunkIndex_fst (Node : Int) (ChunkIndex : Int → Int) :
    (GetFreeChunkIndex Node ChunkIndex).1 = ChunkIndex Node := by
  unfold GetFreeChunkIndex
  split <;> rfl

theorem GetFreeChunkIndex_other (Node : Int) (ChunkIndex : Int → Int) (v : Int) (h : v ≠ Node) :
    (GetFreeChunkIndex Node ChunkIndex).2 v = ChunkIndex v := by
  unfold GetFreeChunkIndex
  split <;> simp [Function.update_noteq h]

theorem GetFreeChunkIndex_self (Node : Int) (ChunkIndex : Int → Int) :
    (GetFreeChunkIndex Node ChunkIndex).2 Node =
      if ChunkIndex Node ≥ 2 then 0 else ChunkIndex Node + 1 := by
  unfold GetFreeChunkIndex
  split <;> simp

/-- After the calls `pre`, the table holds for each node its number of calls
modulo 3; the table is then advanced accordingly by one more call. -/
theorem GetFreeChunkIndex_count (pre : List Int) (Node : Int) :
    (GetFreeChunkIndex Node (fun v => ((pre.count v : Nat) : Int) % 3)).2 =
      fun v => (((pre ++ [Node]).count v : Nat) : Int) % 3 := by
  funext v
  by_cases h : v = Node
  · subst h
    rw [GetFreeChunkIndex_self]
    simp only [List.count_append, List.count_singleton_self]
    split <;> omega
  · rw [GetFreeChunkIndex_other _ _ _ h]
    have h1 : ¬ (Node = v) := fun e => h e.symm
    simp [List.count_append, List.count_singleton, h1]

theorem FreeChunkCalls_get (calls : List Int) :
    ∀ (pre : List Int) (p : Nat) (w : Int), calls[p]? = some w →
      (FreeChunkCalls (fun v => ((pre.count v : Nat) : Int) % 3) calls).1[p]? =
        some ((((pre ++ calls.take p).count w : Nat) : Int) % 3) := by
  induction calls with
  | nil => intro pre p w h; simp at h
  | cons c cs ih =>
    intro pre p w h
    cases p with
    | zero =>
      simp only [List.getElem?_cons_zero, Option.some.injEq] at h
      subst h
      simp [FreeChunkCalls, GetFreeChunkIndex_fst]
    | succ p =>
      simp only [List.getElem?_cons_succ] at h
      have := ih (pre ++ [c]) p w h
      simp only [FreeChunkCalls, List.getElem?_cons_succ, GetFreeChunkIndex_count, this,
        List.take_succ_cons, List.append_assoc, List.singleton_append]

/-- C8. Slot rotation. Starting from the zero-initialised table, in any
sequence of calls of `GetFreeChunkIndex` (for any nodes, in particular the
nodes `[0, 32)` of the source's table), a call for `w` that was preceded by
`k` calls for `w` (however interleaved with calls for other nodes) returns
`k mod 3`; every returned slot lies in `[0, 3)`; and a call for `w` leaves the
rotation pointer of every other node unchanged. -/
theorem GetFreeChunkIndex_rotation (calls : List Int) :
    (∀ (p : Nat) (w : Int), calls[p]? = some w →
      (FreeChunkCalls (fun _ => 0) calls).1[p]? =
        some ((((calls.take p).count w : Nat) : Int) % 3)) ∧
    (∀ r ∈ (FreeChunkCalls (fun _ => 0) calls).1, 0 ≤ r ∧ r < 3) ∧
    (FreeChunkCalls (fun _ => 0) calls).1.length = calls.length ∧
    (∀ (ChunkIndex : Int → Int) (w v : Int), v ≠ w →
      (GetFreeChunkIndex w ChunkIndex).2 v = ChunkIndex v) := by
  have h0 : (fun _ => 0 : Int → Int) = fun v => ((([] : List Int).count v : Nat) : Int) % 3 := by
    funext v; simp
  have hlen : ∀ (cs : List Int) (tbl : Int → Int), (FreeChunkCalls tbl cs).1.length = cs.length := by
    intro cs
    induction cs with
    | nil => intro tbl; rfl
    | cons c cs ih => intro tbl; simp [FreeChunkCalls, ih]
  have hget : ∀ (p : Nat) (w : Int), calls[p]? = some w →
      (FreeChunkCalls (fun _ => 0) calls).1[p]? =
        some ((((calls.take p).count w : Nat) : Int) % 3) := by
    intro p w h
    rw [h0]
    simpa using FreeChunkCalls_get calls [] p w h
  refine ⟨hget, ?_, hlen _ _, fun tbl w v h => GetFreeChunkIndex_other w tbl v h⟩
  intro r hr
  obtain ⟨p, hp, hpr⟩ := List.getElem_of_mem hr
  have hp2 : p < calls.length := by rw [hlen] at hp; exact hp
  have h1 := hget p calls[p] (List.getElem?_eq_getElem hp2)
  rw [List.getElem?_eq_getElem hp] at h1
  have h2 := Option.some.inj h1
  rw [hpr] at h2
  omega

/-! ## Worker -/

theorem SlaveLoop_done [Field α] (T : ThreadData α) (r : Int) (st : SlaveState α)
    (msgs : List MasterSend) (h : st.Done = true) : SlaveLoop T r st msgs = st := by
  cases msgs <;> simp [SlaveLoop, h]

theorem SlaveLoop_append [Field α] (T : ThreadData α) (r : Int) (pre post : List MasterSend) :
    ∀ st : SlaveState α,
      SlaveLoop T r st (pre ++ post) = SlaveLoop T r (SlaveLoop T r st pre) post := by
  induction pre with
  | nil => intro st; rfl
  | cons m ms ih =>
    intro st
    by_cases h : st.Done = true
    · simp [SlaveLoop, h, SlaveLoop_done]
    · simp [SlaveLoop, h, ih]

theorem SlaveLoop_single [Field α] (T : ThreadData α) (r : Int) (st : SlaveState α)
    (m : MasterSend) (h : st.Done = false) : SlaveLoop T r st [m] = SlaveRecv T r st m := by
  simp [SlaveLoop, h]

/-- The `for` loop of the worker adds the midpoint terms of its index range
to the running sum. -/
theorem IntegrateLoop_eq [Field α] (T : ThreadData α) :
    ∀ (n : Nat) (i : Int) (acc : α),
      IntegrateLoop T ((T.UpperBound - T.LowerBound) / (T.NoOfPoints : α)) n i acc =
        acc + ∑ k ∈ Finset.Ico i (i + n), MidpointTerm T k := by
  intro n
  induction n with
  | zero => intro i acc; simp [IntegrateLoop]
  | succ n ih =>
    intro i acc
    have hset : Finset.Ico i (i + ((n + 1 : Nat) : Int)) =
        insert i (Finset.Ico (i + 1) (i + 1 + (n : Int))) := by
      ext k
      simp only [Finset.mem_Ico, Finset.mem_insert]
      omega
    have hnot : i ∉ Finset.Ico (i + 1) (i + 1 + (n : Int)) := by
      simp only [Finset.mem_Ico]
      omega
    simp only [IntegrateLoop]
    rw [ih, hset, Finset.sum_insert hnot, add_assoc]
    rfl

/-- What the worker does with a work-available message, in any state. -/
theorem SlaveRecv_work [Field α] (T : ThreadData α) (r : Int) (st : SlaveState α)
    (m : MasterSend) (hm : m.Tag = MASTER_TO_SLAVE_WORK_AVAILABLE) :
    (SlaveRecv T r st m).Sent = st.Sent ++ [⟨r, SLAVE_TO_MASTER_REQ_WORK,
      ∑ k ∈ Finset.Ico m.Index.StartIndex m.Index.StopIndex, MidpointTerm T k⟩] ∧
    (SlaveRecv T r st m).QuitCounter = st.QuitCounter ∧
    (SlaveRecv T r st m).Done = st.Done := by
  have hIco : Finset.Ico m.Index.StartIndex
      (m.Index.StartIndex + ((m.Index.StopIndex - m.Index.StartIndex).toNat : Int)) =
      Finset.Ico m.Index.StartIndex m.Index.StopIndex := by
    ext k
    simp only [Finset.mem_Ico]
    omega
  simp only [SlaveRecv, hm, if_true, IntegrateLoop_eq, zero_add, and_self, and_true, hIco]

/-- C10. Worker computation, exact arithmetic, arbitrary integrand. After any
history that leaves the worker running, a work-available message
`{StartIndex, StopIndex}` makes `SlaveWork` send exactly one message: a
partial result whose value is the sum over the integers `i` with
`StartIndex ≤ i < StopIndex` of `f(LowerBound + (i+0.5)*y, Intensity) * y`,
`y = (UpperBound - LowerBound)/NoOfPoints`. The value is a function of the
message alone (not of the history), and it is 0 when `StartIndex ≥ StopIndex`. -/
theorem SlaveWork_partial_result [Field α] (T : ThreadData α) (ProcRank : Int)
    (history : List MasterSend) (m : MasterSend)
    (hrun : (SlaveWork T ProcRank history).Done = false)
    (hm : m.Tag = MASTER_TO_SLAVE_WORK_AVAILABLE) :
    (SlaveWork T ProcRank (history ++ [m])).Sent =
      (SlaveWork T ProcRank history).Sent ++ [⟨ProcRank, SLAVE_TO_MASTER_REQ_WORK,
        ∑ i ∈ Finset.Ico m.Index.StartIndex m.Index.StopIndex,
          T.FuncToIntegrate
            (T.LowerBound +
              (((i : α) + 1 / 2) * ((T.UpperBound - T.LowerBound) / (T.NoOfPoints : α))))
            T.Intensity * ((T.UpperBound - T.LowerBound) / (T.NoOfPoints : α))⟩] ∧
    (m.Index.StartIndex ≥ m.Index.StopIndex →
      (SlaveWork T ProcRank (history ++ [m])).Sent =
        (SlaveWork T ProcRank history).Sent ++ [⟨ProcRank, SLAVE_TO_MASTER_REQ_WORK, 0⟩]) := by
  have h1 : SlaveWork T ProcRank (history ++ [m]) =
      SlaveRecv T ProcRank (SlaveWork T ProcRank history) m := by
    unfold SlaveWork at hrun ⊢
    rw [SlaveLoop_append, SlaveLoop_single _ _ _ _ hrun]
  have h2 := (SlaveRecv_work T ProcRank (SlaveWork T ProcRank history) m hm).1
  rw [h1]
  refine ⟨h2, fun hge => ?_⟩
  rw [h2, Finset.Ico_eq_empty (by omega), Finset.sum_empty]

theorem SlaveRecv_quit [Field α] (T : ThreadData α) (r : Int) (st : SlaveState α)
    (m : MasterSend) (hm : m.Tag = MASTER_TO_SLAVE_QUIT)
    (h0 : 0 ≤ st.QuitCounter) (h1 : st.QuitCounter < 3) :
    (SlaveRecv T r st m).QuitCounter = st.QuitCounter + 1 ∧
    (st.QuitCounter < 2 →
      (SlaveRecv T r st m).Sent = st.Sent ∧ (SlaveRecv T r st m).Done = st.Done) ∧
    (st.QuitCounter = 2 →
      (SlaveRecv T r st m).Sent = st.Sent ++ [⟨r, SLAVE_TO_MASTER_EXITING, 0⟩] ∧
      (SlaveRecv T r st m).Done = true) := by
  have hne : ¬ (MASTER_TO_SLAVE_QUIT = MASTER_TO_SLAVE_WORK_AVAILABLE) := by decide
  have hw : wrapInt (st.QuitCounter + 1) = st.QuitCounter + 1 := wrapInt_eq _ (by omega) (by omega)
  simp only [SlaveRecv, hm, hne, if_false, if_true, hw]
  by_cases h : st.QuitCounter + 1 ≥ 3
  · simp only [h, if_true, true_and]
    exact ⟨fun h2 => by omega, fun _ => trivial⟩
  · simp only [h, if_false, true_and]
    exact ⟨fun _ => trivial, fun h2 => by omega⟩

theorem SlaveRecv_other [Field α] (T : ThreadData α) (r : Int) (st : SlaveState α)
    (m : MasterSend) (hw : m.Tag ≠ MASTER_TO_SLAVE_WORK_AVAILABLE)
    (hq : m.Tag ≠ MASTER_TO_SLAVE_QUIT) : SlaveRecv T r st m = st := by
  simp [SlaveRecv, hw, hq]

/-- While fewer than three quits have arrived the worker keeps running, its
counter counts the quits, and it sends no worker-exiting message. -/
theorem SlaveLoop_running [Field α] (T : ThreadData α) (r : Int) (msgs : List MasterSend) :
    ∀ st : SlaveState α, st.Done = false → 0 ≤ st.QuitCounter →
      st.QuitCounter + (msgs.countP (fun m => m.Tag = MASTER_TO_SLAVE_QUIT) : Nat) < 3 →
      (SlaveLoop T r st msgs).Done = false ∧
      (SlaveLoop T r st msgs).QuitCounter =
        st.QuitCounter + (msgs.countP (fun m => m.Tag = MASTER_TO_SLAVE_QUIT) : Nat) ∧
      ∀ s ∈ (SlaveLoop T r st msgs).Sent, s ∈ st.Sent ∨ s.Tag ≠ SLAVE_TO_MASTER_EXITING := by
  induction msgs with
  | nil =>
    intro st hD _ _
    simp only [SlaveLoop, hD, List.countP_nil, Nat.cast_zero, add_zero, true_and]
    exact fun s hs => Or.inl hs
  | cons m ms ih =>
    intro st hD h0 hlt
    simp only [SlaveLoop, hD, Bool.false_eq_true, if_false]
    rw [List.countP_cons] at hlt ⊢
    by_cases hw : m.Tag = MASTER_TO_SLAVE_WORK_AVAILABLE
    · have hq : ¬ (m.Tag = MASTER_TO_SLAVE_QUIT) := by rw [hw]; decide
      obtain ⟨hS, hQ, hDn⟩ := SlaveRecv_work T r st m hw
      simp only [hq, decide_False, Bool.false_eq_true, if_false, Nat.add_zero] at hlt ⊢
      obtain ⟨i1, i2, i3⟩ := ih (SlaveRecv T r st m) (by rw [hDn, hD]) (by rw [hQ]; exact h0)
        (by rw [hQ]; exact hlt)
      refine ⟨i1, by rw [i2, hQ], fun s hs => ?_⟩
      rcases i3 s hs with h | h
      · rw [hS] at h
        rcases List.mem_append.mp h with h | h
        · exact Or.inl h
        · right
          rw [List.mem_singleton.mp h]
          show SLAVE_TO_MASTER_REQ_WORK ≠ SLAVE_TO_MASTER_EXITING
          decide
      · exact Or.inr h
    · by_cases hq : m.Tag = MASTER_TO_SLAVE_QUIT
      · simp only [hq, decide_True, if_true] at hlt ⊢
        push_cast at hlt ⊢
        obtain ⟨hQ, hlo, _⟩ := SlaveRecv_quit T r st m hq h0 (by omega)
        obtain ⟨hS, hDn⟩ := hlo (by omega)
        obtain ⟨i1, i2, i3⟩ := ih (SlaveRecv T r st m) (by rw [hDn, hD]) (by rw [hQ]; omega)
          (by rw [hQ]; omega)
        refine ⟨i1, by rw [i2, hQ]; omega, fun s hs => ?_⟩
        rcases i3 s hs with h | h
        · rw [hS] at h; exact Or.inl h
        · exact Or.inr h
      · rw [SlaveRecv_other T r st m hw hq]
        simp only [hq, decide_False, Bool.false_eq_true, if_false, Nat.add_zero] at hlt ⊢
        exact ih st hD h0 hlt

/-- C7. Worker termination handshake. For every sequence of messages
delivered to `SlaveWork`: as long as fewer than 3 quit messages have arrived
the worker keeps running, has sent no worker-exiting message, and its quit
counter equals the number of quits received (work messages do not change it);
and the third quit makes it send exactly one worker-exiting message, with
payload 0, with its counter at exactly 3, after which it leaves its loop and
processes no further message. -/
theorem SlaveWork_handshake [Field α] (T : ThreadData α) (ProcRank : Int)
    (msgs : List MasterSend) :
    (msgs.countP (fun m => m.Tag = MASTER_TO_SLAVE_QUIT) < 3 →
      (SlaveWork T ProcRank msgs).Done = false ∧
      (SlaveWork T ProcRank msgs).QuitCounter =
        (msgs.countP (fun m => m.Tag = MASTER_TO_SLAVE_QUIT) : Nat) ∧
      ∀ s ∈ (SlaveWork T ProcRank msgs).Sent, s.Tag ≠ SLAVE_TO_MASTER_EXITING) ∧
    (∀ (pre post : List MasterSend) (m : MasterSend), msgs = pre ++ m :: post →
      m.Tag = MASTER_TO_SLAVE_QUIT →
      pre.countP (fun m => m.Tag = MASTER_TO_SLAVE_QUIT) = 2 →
      (SlaveWork T ProcRank msgs).Done = true ∧
      (SlaveWork T ProcRank msgs).QuitCounter = 3 ∧
      (SlaveWork T ProcRank msgs).Sent =
        (SlaveWork T ProcRank pre).Sent ++ [⟨ProcRank, SLAVE_TO_MASTER_EXITING, 0⟩] ∧
      (∀ s ∈ (SlaveWork T ProcRank pre).Sent, s.Tag ≠ SLAVE_TO_MASTER_EXITING) ∧
      SlaveWork T ProcRank msgs = SlaveWork T ProcRank (pre ++ [m])) := by
  have hrun : ∀ l : List MasterSend, l.countP (fun m => m.Tag = MASTER_TO_SLAVE_QUIT) < 3 →
      (SlaveWork T ProcRank l).Done = false ∧
      (SlaveWork T ProcRank l).QuitCounter =
        (l.countP (fun m => m.Tag = MASTER_TO_SLAVE_QUIT) : Nat) ∧
      ∀ s ∈ (SlaveWork T ProcRank l).Sent, s.Tag ≠ SLAVE_TO_MASTER_EXITING := by
    intro l hl
    obtain ⟨i1, i2, i3⟩ := SlaveLoop_running T ProcRank l SlaveInit rfl (le_refl _)
      (by simp only [SlaveInit]; omega)
    refine ⟨i1, by rw [SlaveWork, i2]; simp [SlaveInit], fun s hs => ?_⟩
    rcases i3 s hs with h | h
    · simp [SlaveInit] at h
    · exact h
  refine ⟨hrun msgs, ?_⟩
  intro pre post m hmsgs hm hpre
  obtain ⟨p1, p2, p3⟩ := hrun pre (by omega)
  obtain ⟨hQ, _, hhi⟩ := SlaveRecv_quit T ProcRank (SlaveWork T ProcRank pre) m hm
    (by rw [p2]; omega) (by rw [p2]; omega)
  obtain ⟨hS, hDn⟩ := hhi (by rw [p2, hpre]; rfl)
  have hstep : SlaveWork T ProcRank (pre ++ [m]) =
      SlaveRecv T ProcRank (SlaveWork T ProcRank pre) m := by
    unfold SlaveWork at p1 ⊢
    rw [SlaveLoop_append, SlaveLoop_single _ _ _ _ p1]
  have hall : SlaveWork T ProcRank msgs = SlaveWork T ProcRank (pre ++ [m]) := by
    rw [hmsgs, hstep]
    have : pre ++ m :: post = (pre ++ [m]) ++ post := by simp
    rw [this]
    unfold SlaveWork at hstep hDn ⊢
    rw [SlaveLoop_append, hstep, SlaveLoop_done _ _ _ _ hDn]
  rw [hall, hstep]
  exact ⟨hDn, by rw [hQ, p2, hpre]; rfl, hS, p3, rfl⟩

/-! ## Controller -/

theorem foldl_invariant {σ β : Type} (P : σ → Prop) (f : σ → β → σ)
    (h : ∀ s b, P s → P (f s b)) : ∀ (l : List β) (s : σ), P s → P (l.foldl f s) := by
  intro l
  induction l with
  | nil => intro s hs; exact hs
  | cons b bs ih => intro s hs; exact ih _ (h s b hs)

/-- The initial fill touches neither the counter, the sum, the rotation
pointers nor the loop flag. -/
theorem InitialFill_frame (CommSize : Int) (st : MasterState α) :
    (InitialFill CommSize st).QuitCounter = st.QuitCounter ∧
    (InitialFill CommSize st).Done = st.Done ∧
    (InitialFill CommSize st).IntegralOutput = st.IntegralOutput ∧
    (InitialFill CommSize st).ChunkIndex = st.ChunkIndex := by
  unfold InitialFill
  apply foldl_invariant (fun s : MasterState α => s.QuitCounter = st.QuitCounter ∧
    s.Done = st.Done ∧ s.IntegralOutput = st.IntegralOutput ∧ s.ChunkIndex = st.ChunkIndex)
  · intro s i hs
    apply foldl_invariant (fun s : MasterState α => s.QuitCounter = st.QuitCounter ∧
      s.Done = st.Done ∧ s.IntegralOutput = st.IntegralOutput ∧ s.ChunkIndex = st.ChunkIndex)
    · intro s1 Node hs1
      unfold FillStep
      split
      · exact hs1
      · exact hs1
    · exact hs
  · exact ⟨rfl, rfl, rfl, rfl⟩

theorem MasterLoop_done [Add α] (CommSize : Int) (st : MasterState α)
    (msgs : List (SlaveSend α)) (h : st.Done = true) : MasterLoop CommSize st msgs = st := by
  cases msgs <;> simp [MasterLoop, h]

theorem MasterLoop_append [Add α] (CommSize : Int) (pre post : List (SlaveSend α)) :
    ∀ st : MasterState α,
      MasterLoop CommSize st (pre ++ post) =
        MasterLoop CommSize (MasterLoop CommSize st pre) post := by
  induction pre with
  | nil => intro st; rfl
  | cons m ms ih =>
    intro st
    by_cases h : st.Done = true
    · simp [MasterLoop, h, MasterLoop_done]
    · simp [MasterLoop, h, ih]

theorem MasterLoop_single [Add α] (CommSize : Int) (st : MasterState α) (m : SlaveSend α)
    (h : st.Done = false) : MasterLoop CommSize st [m] = MasterRecv CommSize st m := by
  simp [MasterLoop, h]

/-- The loop flag and the counter after one iteration of the receive loop. -/
theorem MasterRecv_exit [Add α] (CommSize : Int) (st : MasterState α) (m : SlaveSend α)
    (hD : st.Done = false) :
    ((MasterRecv CommSize st m).Done = true ↔
      m.Tag = SLAVE_TO_MASTER_EXITING ∧ wrapInt (st.QuitCounter + 1) = CommSize - 1) ∧
    (MasterRecv CommSize st m).QuitCounter =
      if m.Tag = SLAVE_TO_MASTER_EXITING then wrapInt (st.QuitCounter + 1) else st.QuitCounter := by
  unfold MasterRecv
  by_cases ht : m.Tag = SLAVE_TO_MASTER_EXITING
  · by_cases hq : wrapInt (st.QuitCounter + 1) = CommSize - 1
    · simp [ht, hq]
    · simp only [ht, hq, if_true, and_false, if_false, and_true, iff_false]
      split <;> simp [hD]
  · simp only [ht, if_false, false_and, iff_false]
    split <;> simp [hD]

/-- While the loop runs, its counter is the number of worker-exiting
messages received, and that number is below `CommSize - 1`. -/
theorem MasterLoop_running [Add α] (CommSize : Int) (hmax : CommSize < 2 ^ 31)
    (msgs : List (SlaveSend α)) :
    ∀ st : MasterState α, st.Done = false → 0 ≤ st.QuitCounter →
      st.QuitCounter < CommSize - 1 →
      ((MasterLoop CommSize st msgs).Done = false ↔
        st.QuitCounter + (msgs.countP (fun m => m.Tag = SLAVE_TO_MASTER_EXITING) : Nat) <
          CommSize - 1) ∧
      ((MasterLoop CommSize st msgs).Done = false →
        (MasterLoop CommSize st msgs).QuitCounter =
          st.QuitCounter + (msgs.countP (fun m => m.Tag = SLAVE_TO_MASTER_EXITING) : Nat)) := by
  induction msgs with
  | nil => intro st hD _ hlt; simp [MasterLoop, hD, hlt]
  | cons m ms ih =>
    intro st hD h0 hlt
    obtain ⟨hex, hqc⟩ := MasterRecv_exit CommSize st m hD
    have hw : wrapInt (st.QuitCounter + 1) = st.QuitCounter + 1 :=
      wrapInt_eq _ (by omega) (by omega)
    rw [hw] at hex hqc
    simp only [MasterLoop, hD, Bool.false_eq_true, if_false]
    rw [List.countP_cons]
    by_cases hdone : (MasterRecv CommSize st m).Done = true
    · obtain ⟨ht, hq⟩ := hex.mp hdone
      rw [MasterLoop_done _ _ _ hdone]
      simp only [hdone, Bool.true_eq_false, ht, decide_True, if_true, false_iff, false_implies,
        and_true]
      push_cast
      omega
    · have hrun : (MasterRecv CommSize st m).Done = false := by simpa using hdone
      by_cases ht : m.Tag = SLAVE_TO_MASTER_EXITING
      · have hq : st.QuitCounter + 1 ≠ CommSize - 1 := fun e => hdone (hex.mpr ⟨ht, e⟩)
        simp only [ht, if_true] at hqc
        obtain ⟨i1, i2⟩ := ih (MasterRecv CommSize st m) hrun (by omega) (by omega)
        rw [hqc] at i1 i2
        simp only [ht, decide_True, if_true]
        push_cast
        constructor
        · rw [i1]; omega
        · intro h; rw [i2 h]; omega
      · simp only [ht, if_false] at hqc
        obtain ⟨i1, i2⟩ := ih (MasterRecv CommSize st m) hrun (by omega) (by omega)
        rw [hqc] at i1 i2
        simp only [ht, decide_False, Bool.false_eq_true, if_false, Nat.add_zero]
        exact ⟨i1, i2⟩

/-- C6. Controller shutdown. For every group size `CommSize ≥ 2` (an `int`)
and every sequence of messages received by the receive loop of `MasterWork`:
the loop is still running after the messages `pre` exactly when fewer than
`CommSize - 1` of them are tagged worker-exiting; and, when it is, it exits
while processing the next message `m` if and only if `m` is tagged
worker-exiting and is the `(CommSize - 1)`-th such message received. So it
exits neither on a partial result nor on an earlier worker-exiting message. -/
theorem MasterWork_shutdown [Add α] [Zero α] (CommSize : Int) (T : ThreadData α)
    (pre : List (SlaveSend α)) (m : SlaveSend α)
    (h2 : 2 ≤ CommSize) (hmax : CommSize < 2 ^ 31) :
    ((MasterWork CommSize T pre).Done = false ↔
      ((pre.countP (fun m => m.Tag = SLAVE_TO_MASTER_EXITING) : Nat) : Int) < CommSize - 1) ∧
    ((MasterWork CommSize T pre).Done = false →
      ((MasterWork CommSize T (pre ++ [m])).Done = true ↔
        m.Tag = SLAVE_TO_MASTER_EXITING ∧
        (((pre ++ [m]).countP (fun m => m.Tag = SLAVE_TO_MASTER_EXITING) : Nat) : Int) =
          CommSize - 1)) := by
  obtain ⟨hQ, hD, _, _⟩ := InitialFill_frame CommSize (MasterInit T)
  have hQ0 : (InitialFill CommSize (MasterInit T)).QuitCounter = 0 := by rw [hQ]; rfl
  have hD0 : (InitialFill CommSize (MasterInit T)).Done = false := by rw [hD]; rfl
  obtain ⟨i1, i2⟩ := MasterLoop_running CommSize hmax pre _ hD0 (by rw [hQ0]) (by rw [hQ0]; omega)
  rw [hQ0] at i1 i2
  simp only [zero_add] at i1 i2
  refine ⟨i1, fun hrun => ?_⟩
  have hstep : MasterWork CommSize T (pre ++ [m]) =
      MasterRecv CommSize (MasterWork CommSize T pre) m := by
    unfold MasterWork at hrun ⊢
    rw [MasterLoop_append, MasterLoop_single _ _ _ hrun]
  obtain ⟨hex, _⟩ := MasterRecv_exit CommSize (MasterWork CommSize T pre) m hrun
  have hlt := i1.mp hrun
  have hqc : (MasterWork CommSize T pre).QuitCounter =
      ((pre.countP (fun m => m.Tag = SLAVE_TO_MASTER_EXITING) : Nat) : Int) := i2 hrun
  have hw : wrapInt ((MasterWork CommSize T pre).QuitCounter + 1) =
      (MasterWork CommSize T pre).QuitCounter + 1 := wrapInt_eq _ (by omega) (by omega)
  rw [hstep, hex, hw, hqc, List.countP_append]
  constructor
  · rintro ⟨ht, hq⟩
    refine ⟨ht, ?_⟩
    simp only [List.countP_cons, List.countP_nil, ht, decide_True, if_true]
    push_cast
    omega
  · rintro ⟨ht, hq⟩
    refine ⟨ht, ?_⟩
    simp only [List.countP_cons, List.countP_nil, ht, decide_True, if_true] at hq
    push_cast at hq
    omega

/-- C5, as stated, fails: with `CommSize = 1` and no message received the
receive loop of `MasterWork` has not been left (the claim has it finished). -/
theorem MasterWork_alone_not_finished :
    (MasterWork 1 SampleData []).Done = false := by
  have h := (InitialFill_frame 1 (MasterInit SampleData)).2.1
  simpa [MasterWork, MasterLoop] using h

/-- C5, amended. Controller-only group (`CommSize = 1`): the initial fill of
`MasterWork` issues no sends and the accumulator is 0, but the shutdown
condition is not satisfied without a message being received: the test
`QuitCounter == CommSize - 1` is made only after a received worker-exiting
message has been counted, so the loop stays in its receive (and a first
message, whatever its tag, would not end it either). -/
theorem MasterWork_alone [Add α] [Zero α] (T : ThreadData α) (m : SlaveSend α) :
    (InitialFill 1 (MasterInit T)).Sent = [] ∧
    (MasterWork 1 T []).Sent = [] ∧
    (MasterWork 1 T []).IntegralOutput = 0 ∧
    (MasterWork 1 T []).Done = false ∧
    (MasterWork 1 T [m]).Done = false := by
  have hfill : InitialFill 1 (MasterInit T) = MasterInit T := by
    simp [InitialFill, SlaveNodes, MAX_CHUNK, List.range_succ]
  have hstep := MasterRecv_exit 1 (MasterInit T) m rfl
  have hw : wrapInt ((MasterInit T).QuitCounter + 1) = 1 := by
    simp only [MasterInit]
    exact wrapInt_eq _ (by norm_num) (by norm_num)
  have hwork : MasterWork 1 T [] = MasterInit T := by
    rw [MasterWork, MasterLoop, hfill]
  have hne : ¬ ((MasterRecv 1 (MasterInit T) m).Done = true) := by
    rw [hstep.1, hw]
    rintro ⟨_, h⟩
    norm_num at h
  refine ⟨by rw [hfill]; rfl, by rw [hwork]; rfl, by rw [hwork]; rfl, by rw [hwork]; rfl, ?_⟩
  rw [MasterWork, hfill, MasterLoop_single _ _ _ rfl]
  simpa using hne

/-- C4 (evaluation of the code). With five positional arguments, `main`
returns 0 both for a point count of 999 and for the function selector 5, in
both cases without entering `MasterWork`/`SlaveWork`; only the missing
argument case returns a non-zero status (-1). -/
theorem main_exit_status (f1 f2 f3 f4 : ℚ → Int → ℚ) :
    (main 6 1 0 10 999 1 f1 f2 f3 f4).Status = 0 ∧
    (main 6 1 0 10 999 1 f1 f2 f3 f4).Scheduled.isNone = true ∧
    (main 6 5 0 10 1000 1 f1 f2 f3 f4).Status = 0 ∧
    (main 6 5 0 10 1000 1 f1 f2 f3 f4).Scheduled.isNone = true ∧
    (main 5 1 0 10 1000 1 f1 f2 f3 f4).Status = -1 := by
  simp [main]

/-- C2 (evaluation of the code). In the run `mpirun -n 2 ./advnc_sched 1 0 10
1000 1`, after the initial fill the generator is not exhausted and its cursor
is 30; the first message of the fill is the chunk `{0, 10}`, which worker 1
answers with the partial result 1/200. On that partial result the controller
stores in slot `(1, 0)` and sends, tagged work-available, the range
`{20, 30}` that the last call of the initial fill produced, while the call of
`GetNextLoop` of that step produces `{30, 40}`. -/
theorem MasterRecv_sends_stale_chunk :
    IsLoopDone (InitialFill 2 (MasterInit SampleData)).ThreadInfo = false ∧
    (InitialFill 2 (MasterInit SampleData)).ThreadInfo.CompletedIndex = 30 ∧
    (InitialFill 2 (MasterInit SampleData)).Sent.head? =
      some ⟨1, MASTER_TO_SLAVE_WORK_AVAILABLE, ⟨0, 10⟩⟩ ∧
    (SlaveWork SampleData 1 [⟨1, MASTER_TO_SLAVE_WORK_AVAILABLE, ⟨0, 10⟩⟩]).Sent =
      [⟨1, SLAVE_TO_MASTER_REQ_WORK, 1 / 200⟩] ∧
    (MasterRecv 2 (InitialFill 2 (MasterInit SampleData))
        ⟨1, SLAVE_TO_MASTER_REQ_WORK, 1 / 200⟩).Sent =
      (InitialFill 2 (MasterInit SampleData)).Sent ++
        [⟨1, MASTER_TO_SLAVE_WORK_AVAILABLE, ⟨20, 30⟩⟩] ∧
    (MasterRecv 2 (InitialFill 2 (MasterInit SampleData))
        ⟨1, SLAVE_TO_MASTER_REQ_WORK, 1 / 200⟩).index2D 1 0 = ⟨20, 30⟩ ∧
    (GetNextLoop (InitialFill 2 (MasterInit SampleData)).ThreadInfo).StartIndex = 30 ∧
    (GetNextLoop (InitialFill 2 (MasterInit SampleData)).ThreadInfo).StopIndex = 40 := by
  refine ⟨by decide!, by decide!, by decide!, by decide!, by decide!, by decide!, by decide!,
    by decide!⟩

/-- C1 (evaluation of the code). The complete run of `mpirun -n 2
./advnc_sched 1 0 10 1000 1` with the integrand `f(x, intensity) = x`: both
loops are left, the controller has sent the chunk `{20, 30}` twice and the
last chunk `{990, 1000}` never as work, and its accumulator ends at 4903/100,
whereas the single-pass midpoint sum is 50. -/
theorem MasterWork_sample_run_sum :
    (SystemRun 2 SampleData (SystemInit 2 SampleData) SampleSchedule).map
        (fun s => (s.Master.Done, (s.Slave 1).Done, s.Master.IntegralOutput,
          s.Master.Sent.count ⟨1, MASTER_TO_SLAVE_WORK_AVAILABLE, ⟨20, 30⟩⟩,
          s.Master.Sent.count ⟨1, MASTER_TO_SLAVE_WORK_AVAILABLE, ⟨990, 1000⟩⟩)) =
      some (true, true, 4903 / 100, 2, 0) ∧
    MidpointSum SampleData = 50 := by
  refine ⟨by decide!, by decide!⟩

/-- C9 (evaluation of the code). In a run of `mpirun -n 3 ./advnc_sched 1 0
10 1000 1`, worker 1 has left its loop and its exit message (payload 0) is
the next message the controller receives, with the counter at 0, the rotation
pointer of worker 1 at 2 and 106 messages sent. Receiving it, the controller
counts it (counter 1, not yet `CommSize - 1 = 2`), and then also advances the
rotation pointer of worker 1 to 0 and sends worker 1 a 107th message, a quit
carrying `{990, 1000}`. -/
theorem MasterRecv_exiting_sample_run :
    (SystemRun 3 SampleData (SystemInit 3 SampleData) SampleSchedule3).map
        (fun s => ((s.Slave 1).Sent[s.MasterTaken 1]?, (s.Slave 1).Done, s.Master.Done,
          s.Master.QuitCounter, s.Master.ChunkIndex 1, s.Master.Sent.length)) =
      some (some ⟨1, SLAVE_TO_MASTER_EXITING, 0⟩, true, false, 0, 2, 106) ∧
    (SystemRun 3 SampleData (SystemInit 3 SampleData) (SampleSchedule3 ++ [Event.master 1])).map
        (fun s => (s.Master.Done, s.Master.QuitCounter, s.Master.ChunkIndex 1,
          s.Master.Sent.length, s.Master.Sent.getLast?)) =
      some (false, 1, 0, 107, some ⟨1, MASTER_TO_SLAVE_QUIT, ⟨990, 1000⟩⟩) := by
  refine ⟨by decide!, by decide!⟩

/-! ## Instances at concrete inputs -/

/-- Instance of C3 for `N = 1000`, `G = 10` and fuel 100: exactly 100 calls,
the cursor ends at 1000. -/
theorem GenerateChunks_partition_witness :
    (0 : Int) ≤ 1000 ∧ (1 : Int) ≤ 10 ∧ chunkCount 1000 10 ≤ 100 ∧
    (GenerateChunks 100 SampleData).1.length = chunkCount 1000 10 ∧
    (GenerateChunks 100 SampleData).2.CompletedIndex = 1000 ∧
    IsLoopDone (GenerateChunks 100 SampleData).2 = true :=
  have h := GenerateChunks_partition SampleData 1000 10 100 (by decide) (by decide)
    (by norm_num) rfl rfl rfl (by decide)
  ⟨by decide, by decide, by decide, h.1, h.2.2.2.2.2.2.2.1, h.2.2.2.2.2.2.2.2⟩

/-- Instance of C10: a fresh worker of rank 1 receiving the chunk `{0, 10}`. -/
theorem SlaveWork_partial_result_witness :
    (SlaveWork SampleData 1 []).Done = false ∧
    (SlaveWork SampleData 1 ([] ++ [⟨1, MASTER_TO_SLAVE_WORK_AVAILABLE, ⟨0, 10⟩⟩])).Sent =
      (SlaveWork SampleData 1 []).Sent ++ [⟨1, SLAVE_TO_MASTER_REQ_WORK,
        ∑ i ∈ Finset.Ico (0 : Int) 10,
          SampleData.FuncToIntegrate
            (SampleData.LowerBound +
              (((i : ℚ) + 1 / 2) *
                ((SampleData.UpperBound - SampleData.LowerBound) / (SampleData.NoOfPoints : ℚ))))
            SampleData.Intensity *
              ((SampleData.UpperBound - SampleData.LowerBound) / (SampleData.NoOfPoints : ℚ))⟩] :=
  ⟨rfl, (SlaveWork_partial_result SampleData 1 []
    ⟨1, MASTER_TO_SLAVE_WORK_AVAILABLE, ⟨0, 10⟩⟩ rfl rfl).1⟩

/-- Instance of C6 for three processes: after a first worker-exiting message
the loop still runs, and a second one ends it. -/
theorem MasterWork_shutdown_witness :
    (2 : Int) ≤ 3 ∧ (3 : Int) < 2 ^ 31 ∧
    ((MasterWork 3 SampleData [⟨1, SLAVE_TO_MASTER_EXITING, 0⟩]).Done = false →
      ((MasterWork 3 SampleData
          ([⟨1, SLAVE_TO_MASTER_EXITING, 0⟩] ++ [⟨2, SLAVE_TO_MASTER_EXITING, 0⟩])).Done = true ↔
        (⟨2, SLAVE_TO_MASTER_EXITING, 0⟩ : SlaveSend ℚ).Tag = SLAVE_TO_MASTER_EXITING ∧
        (((([⟨1, SLAVE_TO_MASTER_EXITING, 0⟩] ++ [⟨2, SLAVE_TO_MASTER_EXITING, 0⟩] :
            List (SlaveSend ℚ))).countP (fun m => m.Tag = SLAVE_TO_MASTER_EXITING) : Nat) : Int) =
          3 - 1)) :=
  ⟨by decide, by norm_num,
    (MasterWork_shutdown 3 SampleData [⟨1, SLAVE_TO_MASTER_EXITING, 0⟩]
      ⟨2, SLAVE_TO_MASTER_EXITING, 0⟩ (by decide) (by norm_num)).2⟩

/-- Instance of C7: work, three quits, then one more work message; the worker
stops at the third quit with its counter at 3. -/
theorem SlaveWork_handshake_witness :
    (SlaveWork SampleData 1
      [⟨1, MASTER_TO_SLAVE_WORK_AVAILABLE, ⟨0, 10⟩⟩, ⟨1, MASTER_TO_SLAVE_QUIT, ⟨0, 0⟩⟩,
        ⟨1, MASTER_TO_SLAVE_QUIT, ⟨0, 0⟩⟩, ⟨1, MASTER_TO_SLAVE_QUIT, ⟨0, 0⟩⟩,
        ⟨1, MASTER_TO_SLAVE_WORK_AVAILABLE, ⟨10, 20⟩⟩]).Done = true ∧
    (SlaveWork SampleData 1
      [⟨1, MASTER_TO_SLAVE_WORK_AVAILABLE, ⟨0, 10⟩⟩, ⟨1, MASTER_TO_SLAVE_QUIT, ⟨0, 0⟩⟩,
        ⟨1, MASTER_TO_SLAVE_QUIT, ⟨0, 0⟩⟩, ⟨1, MASTER_TO_SLAVE_QUIT, ⟨0, 0⟩⟩,
        ⟨1, MASTER_TO_SLAVE_WORK_AVAILABLE, ⟨10, 20⟩⟩]).QuitCounter = 3 :=
  have h := (SlaveWork_handshake SampleData 1
      [⟨1, MASTER_TO_SLAVE_WORK_AVAILABLE, ⟨0, 10⟩⟩, ⟨1, MASTER_TO_SLAVE_QUIT, ⟨0, 0⟩⟩,
        ⟨1, MASTER_TO_SLAVE_QUIT, ⟨0, 0⟩⟩, ⟨1, MASTER_TO_SLAVE_QUIT, ⟨0, 0⟩⟩,
        ⟨1, MASTER_TO_SLAVE_WORK_AVAILABLE, ⟨10, 20⟩⟩]).2
    [⟨1, MASTER_TO_SLAVE_WORK_AVAILABLE, ⟨0, 10⟩⟩, ⟨1, MASTER_TO_SLAVE_QUIT, ⟨0, 0⟩⟩,
      ⟨1, MASTER_TO_SLAVE_QUIT, ⟨0, 0⟩⟩]
    [⟨1, MASTER_TO_SLAVE_WORK_AVAILABLE, ⟨10, 20⟩⟩] ⟨1, MASTER_TO_SLAVE_QUIT, ⟨0, 0⟩⟩
    rfl rfl (by decide)
  ⟨h.1, h.2.1⟩

/-! ## Initial fill -/

theorem setIndex2D_same (index2D : Int → Int → IndexSt) (Node c : Int) (v : IndexSt) :
    setIndex2D index2D Node c v Node c = v := by
  simp [setIndex2D]

theorem setIndex2D_other (index2D : Int → Int → IndexSt) (Node c : Int) (v : IndexSt)
    (w d : Int) (h : w ≠ Node ∨ d ≠ c) : setIndex2D index2D Node c v w d = index2D w d := by
  unfold setIndex2D
  by_cases hw : w = Node
  · subst hw
    have hd : d ≠ c := by
      rcases h with h | h
      · exact absurd rfl h
      · exact h
    simp [Function.update_noteq hd]
  · simp [Function.update_noteq hw]

theorem GenAt_done_iff (N G : Int) (T : ThreadData α) (n : Nat) (h : GenAt N G T n) :
    IsLoopDone T = false ↔ (n : Int) * G < N := by
  obtain ⟨hN, _, hC, _⟩ := h
  rw [IsLoopDone_eq_false, hC, hN]
  constructor
  · intro hne
    by_contra hge
    exact hne (min_eq_right (by omega))
  · intro hlt hmin
    rw [min_eq_left (by omega)] at hmin
    omega

/-- One call of `GetNextLoop` below `N` moves the generator from `n` to
`n + 1` calls and leaves the chunk number `n`. -/
theorem GetNextLoop_GenAt (N G : Int) (T : ThreadData α) (n : Nat) (h : GenAt N G T n)
    (hG : 1 ≤ G) (hlt : (n : Int) * G < N) (hov : ((n : Int) + 1) * G < 2 ^ 63) :
    GenAt N G (GetNextLoop T) (n + 1) ∧
      (⟨(GetNextLoop T).StartIndex, (GetNextLoop T).StopIndex⟩ : IndexSt) = chunkOf N G n := by
  obtain ⟨hN, hTG, hC, _⟩ := h
  have hCn : T.CompletedIndex = (n : Int) * G := by rw [hC]; exact min_eq_left (by omega)
  have hmul : ((n : Int) + 1) * G = (n : Int) * G + G := by ring
  have hn0 : (0 : Int) ≤ (n : Int) * G := by positivity
  have hg := GetNextLoop_eq T (by rw [hCn, hTG]; omega) (by rw [hCn, hTG]; omega)
  rw [hg]
  simp only [GenAt, chunkOf, hN, hTG, hCn, true_and]
  push_cast
  rw [hmul]
  refine ⟨⟨?_, fun _ => ⟨?_, ?_⟩⟩, ?_⟩ <;> first | rfl | ring

theorem FillStep_eq (i : Int) (st : MasterState α) (Node : Int)
    (h : IsLoopDone st.ThreadInfo = false) :
    FillStep i st Node =
      { st with
        ThreadInfo := GetNextLoop st.ThreadInfo
        index2D := setIndex2D st.index2D Node i
          ⟨(GetNextLoop st.ThreadInfo).StartIndex, (GetNextLoop st.ThreadInfo).StopIndex⟩
        Sent := st.Sent ++ [⟨Node, MASTER_TO_SLAVE_WORK_AVAILABLE,
          ⟨(GetNextLoop st.ThreadInfo).StartIndex, (GetNextLoop st.ThreadInfo).StopIndex⟩⟩] } := by
  simp [FillStep, h, setIndex2D_same]

/-- One row of the initial fill: slot `i`, workers `1 .. W`, started after
`n` calls of the generator, when `n + W` chunks are available below `N`. -/
theorem FillRow_fold (N G : Int) (hG : 1 ≤ G) (i : Int) (n : Nat) :
    ∀ (W : Nat) (st : MasterState α), GenAt N G st.ThreadInfo n →
      ((n : Int) + W) * G < N → ((n : Int) + W) * G < 2 ^ 63 →
      GenAt N G (((List.range W).map (fun j : Nat => (j : Int) + 1)).foldl (FillStep i)
        st).ThreadInfo (n + W) ∧
      (((List.range W).map (fun j : Nat => (j : Int) + 1)).foldl (FillStep i) st).Sent =
        st.Sent ++ (List.range W).map (fun j : Nat =>
          ⟨(j : Int) + 1, MASTER_TO_SLAVE_WORK_AVAILABLE, chunkOf N G (n + j)⟩) ∧
      (∀ j : Nat, j < W →
        (((List.range W).map (fun j : Nat => (j : Int) + 1)).foldl (FillStep i) st).index2D
          ((j : Int) + 1) i = chunkOf N G (n + j)) ∧
      (∀ w c : Int, c ≠ i →
        (((List.range W).map (fun j : Nat => (j : Int) + 1)).foldl (FillStep i) st).index2D w c =
          st.index2D w c) := by
  intro W
  induction W with
  | zero =>
    intro st h _ _
    simp only [List.range_zero, List.map_nil, List.foldl_nil, Nat.add_zero, List.append_nil]
    exact ⟨h, trivial, fun j hj => absurd hj (Nat.not_lt_zero j), fun _ _ _ => trivial⟩
  | succ W ih =>
    intro st h hlt hov
    have hG0 : (0 : Int) < G := by omega
    have hstep : ((n : Int) + W) * G + G = ((n : Int) + (W + 1 : Nat)) * G := by
      push_cast; ring
    obtain ⟨i1, i2, i3, i4⟩ := ih st h (by omega) (by omega)
    simp only [List.range_succ, List.map_append, List.map_cons, List.map_nil, List.foldl_append,
      List.foldl_cons, List.foldl_nil]
    generalize hst1 : ((List.range W).map (fun j : Nat => (j : Int) + 1)).foldl (FillStep i) st
      = st1 at i1 i2 i3 i4
    have hcast : (((n + W : Nat) : Int)) = (n : Int) + W := by push_cast; ring
    have hnd : IsLoopDone st1.ThreadInfo = false :=
      (GenAt_done_iff N G _ _ i1).mpr (by rw [hcast]; omega)
    have hstep2 : ((n : Int) + W + 1) * G = ((n : Int) + W) * G + G := by ring
    obtain ⟨g1, g2⟩ := GetNextLoop_GenAt N G st1.ThreadInfo (n + W) i1 hG
      (by rw [hcast]; omega) (by rw [hcast, hstep2]; omega)
    rw [FillStep_eq i st1 _ hnd, g2]
    refine ⟨g1, ?_, ?_, ?_⟩
    · simp only [i2, List.append_assoc]
    · intro j hj
      by_cases hjW : j = W
      · subst hjW
        exact setIndex2D_same _ _ _ _
      · have hne : ((j : Int) + 1) ≠ ((W : Int) + 1) := by omega
        simp only []
        rw [setIndex2D_other _ _ _ _ _ _ (Or.inl hne)]
        exact i3 j (by omega)
    · intro w c hc
      simp only []
      rw [setIndex2D_other _ _ _ _ _ _ (Or.inr hc)]
      exact i4 w c hc

/-- The list of naturals read as a list of integers. -/
theorem bind_cast (l : List Nat) :
    (l >>= fun a => (pure (a : Int) : List Int)) = l.map (fun a : Nat => (a : Int)) := by
  induction l with
  | nil => rfl
  | cons x xs ih =>
    simp only [List.bind_eq_flatMap, List.flatMap_cons, List.pure_def, List.singleton_append,
      List.map_cons] at ih ⊢
    rw [ih]

theorem SlaveNodes_eq (W : Nat) :
    SlaveNodes ((W : Int) + 1) = (List.range W).map (fun j : Nat => (j : Int) + 1) := by
  unfold SlaveNodes
  have : ((W : Int) + 1 - 1).toNat = W := by omega
  rw [this, bind_cast, List.map_map]
  rfl

theorem GenAt_init [Zero α] (T : ThreadData α) (N G : Int) (hN : 0 ≤ N)
    (hTN : T.NoOfPoints = N) (hTG : T.Granularity = G) (hC : T.CompletedIndex = 0) :
    GenAt N G (MasterInit T).ThreadInfo 0 := by
  refine ⟨hTN, hTG, ?_, fun h => absurd h (by omega)⟩
  show T.CompletedIndex = _
  rw [hC]
  simp [min_eq_left hN]

/-- The initial fill for `W` workers when `3 * W` chunks are available
below `N`: three rows of work messages, the slots filled accordingly, the
generator after `3 * W` calls. -/
theorem InitialFill_eq [Zero α] (T : ThreadData α) (N G : Int) (W : Nat) (hG : 1 ≤ G)
    (hTN : T.NoOfPoints = N) (hTG : T.Granularity = G) (hC : T.CompletedIndex = 0)
    (hk : (3 * W : Int) * G < N) (hov : (3 * W : Int) * G < 2 ^ 63) :
    GenAt N G (InitialFill ((W : Int) + 1) (MasterInit T)).ThreadInfo (3 * W) ∧
    (InitialFill ((W : Int) + 1) (MasterInit T)).Sent =
      FillRow N G W 0 ++ FillRow N G W 1 ++ FillRow N G W 2 ∧
    (∀ s j : Nat, s < 3 → j < W →
      (InitialFill ((W : Int) + 1) (MasterInit T)).index2D ((j : Int) + 1) s =
        chunkOf N G (s * W + j)) := by
  have hG0 : (0 : Int) < G := by omega
  have hW0 : (0 : Int) ≤ (W : Int) * G := by positivity
  have h3 : (3 * W : Int) * G = (W : Int) * G + (W : Int) * G + (W : Int) * G := by ring
  have hN : 0 ≤ N := by omega
  have g0 := GenAt_init T N G hN hTN hTG hC
  obtain ⟨a1, a2, a3, a4⟩ := FillRow_fold N G hG 0 0 W (MasterInit T) g0
    (by push_cast; ring_nf; omega) (by push_cast; ring_nf; omega)
  generalize hs1 : ((List.range W).map (fun j : Nat => (j : Int) + 1)).foldl (FillStep 0)
    (MasterInit T) = s1 at a1 a2 a3 a4
  obtain ⟨b1, b2, b3, b4⟩ := FillRow_fold N G hG 1 (0 + W) W s1 a1
    (by push_cast; ring_nf; omega) (by push_cast; ring_nf; omega)
  generalize hs2 : ((List.range W).map (fun j : Nat => (j : Int) + 1)).foldl (FillStep 1)
    s1 = s2 at b1 b2 b3 b4
  obtain ⟨c1, c2, c3, c4⟩ := FillRow_fold N G hG 2 (0 + W + W) W s2 b1
    (by push_cast; ring_nf; omega) (by push_cast; ring_nf; omega)
  generalize hs3 : ((List.range W).map (fun j : Nat => (j : Int) + 1)).foldl (FillStep 2)
    s2 = s3 at c1 c2 c3 c4
  have hfill : InitialFill ((W : Int) + 1) (MasterInit T) = s3 := by
    unfold InitialFill
    rw [bind_cast, SlaveNodes_eq]
    simp only [MAX_CHUNK, List.range_succ, List.range_zero, List.nil_append, List.cons_append,
      List.map_cons, List.map_nil, List.foldl_cons, List.foldl_nil, Nat.cast_zero, Nat.cast_one,
      Nat.cast_ofNat]
    rw [hs1, hs2, hs3]
  rw [hfill]
  refine ⟨?_, ?_, ?_⟩
  · have : 0 + W + W + W = 3 * W := by omega
    rw [← this]; exact c1
  · rw [c2, b2, a2]
    simp only [MasterInit, FillRow, List.nil_append, Nat.zero_mul, Nat.one_mul, Nat.zero_add]
    have e : ∀ j : Nat, W + W + j = 2 * W + j := fun j => by omega
    simp only [e]
  · intro s j hs hj
    have hs' : s = 0 ∨ s = 1 ∨ s = 2 := by omega
    rcases hs' with rfl | rfl | rfl
    · rw [c4 _ _ (by norm_num), b4 _ _ (by norm_num)]
      simpa using a3 j hj
    · rw [c4 _ _ (by norm_num)]
      simpa using b3 j hj
    · have := c3 j hj
      have e : 0 + W + W + j = 2 * W + j := by omega
      rw [e] at this
      simpa using this

/-- The granularity `main` selects leaves room for the three chunks of each
of at most 31 workers. -/
theorem granularity_cases (N G : Int) (hN : 1000 ≤ N)
    (hG : G = if N < 10000 then 10 else 100) : (G = 10 ∨ G = 100) ∧ 93 * G < N := by
  by_cases h : N < 10000
  · rw [if_pos h] at hG; subst hG; exact ⟨Or.inl rfl, by omega⟩
  · rw [if_neg h] at hG; subst hG; exact ⟨Or.inr rfl, by omega⟩

/-- The chunks of the initial fill have full length. -/
theorem chunkOf_full (N G : Int) (j : Nat) (h : ((j : Int) + 1) * G ≤ N) :
    chunkOf N G j = ⟨(j : Int) * G, ((j : Int) + 1) * G⟩ := by
  simp only [chunkOf, min_eq_left h]

/-- C13. Initial fill of `MasterWork`. For `N ≥ 1000` with the granularity `G`
`main` selects and a group of `2 ≤ CommSize ≤ 32` processes (`W = CommSize - 1`
workers), the initial fill sends exactly `3 * W` messages, all tagged
work-available, slot by slot (slot 0 to the workers `1 .. W`, then slot 1,
then slot 2); the message for worker `w` and slot `s` carries, and
`index2D[w][s]` holds, the chunk `[(s*W + w - 1)*G, (s*W + w)*G)`; none goes
to rank 0; afterwards `CompletedIndex = 3*W*G < N`, so the generator is not
exhausted, and every rotation pointer `ChunkIndex[w]` is still 0. -/
theorem InitialFill_chunks [Zero α] (T : ThreadData α) (N CommSize : Int)
    (hN : 1000 ≤ N) (h2 : 2 ≤ CommSize) (h32 : CommSize ≤ 32)
    (hTN : T.NoOfPoints = N) (hTG : T.Granularity = if N < 10000 then 10 else 100)
    (hC : T.CompletedIndex = 0) :
    (InitialFill CommSize (MasterInit T)).Sent =
      (List.range 3).flatMap (fun s : Nat => (SlaveNodes CommSize).map (fun w =>
        ⟨w, MASTER_TO_SLAVE_WORK_AVAILABLE,
          ⟨((s : Int) * (CommSize - 1) + w - 1) * T.Granularity,
            ((s : Int) * (CommSize - 1) + w) * T.Granularity⟩⟩)) ∧
    ((InitialFill CommSize (MasterInit T)).Sent.length : Int) = 3 * (CommSize - 1) ∧
    (∀ s w : Int, 0 ≤ s → s < 3 → 1 ≤ w → w < CommSize →
      (InitialFill CommSize (MasterInit T)).index2D w s =
        ⟨(s * (CommSize - 1) + w - 1) * T.Granularity,
          (s * (CommSize - 1) + w) * T.Granularity⟩) ∧
    (∀ m ∈ (InitialFill CommSize (MasterInit T)).Sent,
      m.Dest ≠ MASTER_NODE ∧ 1 ≤ m.Dest ∧ m.Dest < CommSize ∧
        m.Tag = MASTER_TO_SLAVE_WORK_AVAILABLE) ∧
    (InitialFill CommSize (MasterInit T)).ThreadInfo.CompletedIndex =
      3 * (CommSize - 1) * T.Granularity ∧
    3 * (CommSize - 1) * T.Granularity < N ∧
    IsLoopDone (InitialFill CommSize (MasterInit T)).ThreadInfo = false ∧
    (∀ w : Int, (InitialFill CommSize (MasterInit T)).ChunkIndex w = 0) := by
  obtain ⟨hGc, hG93⟩ := granularity_cases N T.Granularity hN hTG
  obtain ⟨W, rfl⟩ : ∃ W : Nat, CommSize = (W : Int) + 1 :=
    ⟨(CommSize - 1).toNat, by omega⟩
  generalize hGdef : T.Granularity = G at hGc hG93 ⊢
  have hW : W ≤ 31 := by omega
  have hG1 : 1 ≤ G := by omega
  have hWG : (3 * W : Int) * G ≤ 93 * G := by
    have : (3 * W : Int) ≤ 93 := by omega
    exact mul_le_mul_of_nonneg_right this (by omega)
  obtain ⟨g1, g2, g3⟩ := InitialFill_eq T N G W hG1 hTN hGdef hC (by omega)
    (by rcases hGc with rfl | rfl <;> omega)
  have hfull : ∀ s j : Nat, s < 3 → j < W →
      chunkOf N G (s * W + j) =
        ⟨((s : Int) * W + j) * G, ((s : Int) * W + j + 1) * G⟩ := by
    intro s j hs hj
    have hle : (((s * W + j : Nat) : Int) + 1) ≤ 3 * W := by push_cast; nlinarith
    have := chunkOf_full N G (s * W + j)
      (le_trans (mul_le_mul_of_nonneg_right hle (by omega)) (by omega))
    rw [this]
    push_cast
    rfl
  have hrow : ∀ s : Nat, s < 3 → FillRow N G W s =
      (SlaveNodes ((W : Int) + 1)).map (fun w =>
        ⟨w, MASTER_TO_SLAVE_WORK_AVAILABLE,
          ⟨((s : Int) * ((W : Int) + 1 - 1) + w - 1) * G,
            ((s : Int) * ((W : Int) + 1 - 1) + w) * G⟩⟩) := by
    intro s hs
    rw [SlaveNodes_eq, List.map_map]
    unfold FillRow
    apply List.map_congr_left
    intro j hj
    have hj' := List.mem_range.mp hj
    simp only [Function.comp, hfull s j hs hj', MasterSend.mk.injEq, IndexSt.mk.injEq, true_and]
    constructor <;> ring
  have hsent : (InitialFill ((W : Int) + 1) (MasterInit T)).Sent =
      FillRow N G W 0 ++ FillRow N G W 1 ++ FillRow N G W 2 := g2
  obtain ⟨hnp, _, hcomp, _⟩ := g1
  refine ⟨?_, ?_, ?_, ?_, ?_, ?_, ?_, ?_⟩
  · rw [hsent, hrow 0 (by omega), hrow 1 (by omega), hrow 2 (by omega)]
    simp [List.range_succ, List.flatMap_cons]
  · rw [hsent]
    simp only [FillRow, List.length_append, List.length_map, List.length_range]
    push_cast
    ring
  · intro s w hs0 hs3 hw1 hwC
    obtain ⟨sn, rfl⟩ : ∃ sn : Nat, s = (sn : Int) := ⟨s.toNat, by omega⟩
    obtain ⟨j, rfl⟩ : ∃ j : Nat, w = (j : Int) + 1 := ⟨(w - 1).toNat, by omega⟩
    rw [g3 sn j (by omega) (by omega), hfull sn j (by omega) (by omega)]
    simp only [IndexSt.mk.injEq]
    constructor <;> ring
  · intro m hm
    rw [hsent] at hm
    simp only [FillRow, List.mem_append, List.mem_map, List.mem_range] at hm
    have : ∃ j : Nat, j < W ∧ m.Dest = (j : Int) + 1 ∧
        m.Tag = MASTER_TO_SLAVE_WORK_AVAILABLE := by
      rcases hm with (⟨j, hj, rfl⟩ | ⟨j, hj, rfl⟩) | ⟨j, hj, rfl⟩ <;> exact ⟨j, hj, rfl, rfl⟩
    obtain ⟨j, hj, hd, ht⟩ := this
    refine ⟨?_, by omega, by omega, ht⟩
    rw [hd]
    simp only [MASTER_NODE]
    omega
  · rw [hcomp]
    push_cast
    rw [min_eq_left (by omega)]
    ring
  · have : 3 * ((W : Int) + 1 - 1) * G = (3 * W : Int) * G := by ring
    omega
  · rw [IsLoopDone_eq_false, hcomp, hnp]
    push_cast
    rw [min_eq_left (by omega)]
    omega
  · intro w
    rw [(InitialFill_frame _ (MasterInit T)).2.2.2]
    rfl

/-! ## The receive loop of the controller, one message at a time -/

/-- The last worker-exiting message: it is counted and the loop is left. -/
theorem MasterRecv_final [Add α] (CommSize : Int) (st : MasterState α) (m : SlaveSend α)
    (ht : m.Tag = SLAVE_TO_MASTER_EXITING)
    (hq : wrapInt (st.QuitCounter + 1) = CommSize - 1) :
    MasterRecv CommSize st m =
      { st with QuitCounter := wrapInt (st.QuitCounter + 1), Done := true } := by
  simp [MasterRecv, ht, hq]

/-- Every other message: the value is added, the sender's slot is rotated and
overwritten with the range the generator holds, and that range is sent, as
work if the generator is not exhausted (which then advances) and as quit if
it is. -/
theorem MasterRecv_handle [Add α] (CommSize : Int) (st : MasterState α) (m : SlaveSend α)
    (hnf : ¬ (m.Tag = SLAVE_TO_MASTER_EXITING ∧
      wrapInt (st.QuitCounter + 1) = CommSize - 1)) :
    MasterRecv CommSize st m =
      { ThreadInfo :=
          if IsLoopDone st.ThreadInfo = true then st.ThreadInfo else GetNextLoop st.ThreadInfo
        QuitCounter :=
          if m.Tag = SLAVE_TO_MASTER_EXITING then wrapInt (st.QuitCounter + 1)
          else st.QuitCounter
        index2D := setIndex2D st.index2D m.Source (st.ChunkIndex m.Source)
          ⟨st.ThreadInfo.StartIndex, st.ThreadInfo.StopIndex⟩
        IntegralOutput := st.IntegralOutput + m.Value
        ChunkIndex := (GetFreeChunkIndex m.Source st.ChunkIndex).2
        Sent := st.Sent ++ [⟨m.Source,
          if IsLoopDone st.ThreadInfo = true then MASTER_TO_SLAVE_QUIT
          else MASTER_TO_SLAVE_WORK_AVAILABLE,
          ⟨st.ThreadInfo.StartIndex, st.ThreadInfo.StopIndex⟩⟩]
        Done := st.Done } := by
  unfold MasterRecv
  by_cases ht : m.Tag = SLAVE_TO_MASTER_EXITING
  · have hq : ¬ (wrapInt (st.QuitCounter + 1) = CommSize - 1) := fun e => hnf ⟨ht, e⟩
    by_cases hd : IsLoopDone st.ThreadInfo = true
    · simp [ht, hq, hd, GetFreeChunkIndex_fst, setIndex2D_same]
    · simp [ht, hq, hd, GetFreeChunkIndex_fst, setIndex2D_same]
  · by_cases hd : IsLoopDone st.ThreadInfo = true
    · simp [ht, hd, GetFreeChunkIndex_fst, setIndex2D_same]
    · simp [ht, hd, GetFreeChunkIndex_fst, setIndex2D_same]

/-- The same, when the generator is exhausted: a quit is sent. -/
theorem MasterRecv_handle_quit [Add α] (CommSize : Int) (st : MasterState α) (m : SlaveSend α)
    (hnf : ¬ (m.Tag = SLAVE_TO_MASTER_EXITING ∧
      wrapInt (st.QuitCounter + 1) = CommSize - 1))
    (hd : IsLoopDone st.ThreadInfo = true) :
    MasterRecv CommSize st m =
      { ThreadInfo := st.ThreadInfo
        QuitCounter :=
          if m.Tag = SLAVE_TO_MASTER_EXITING then wrapInt (st.QuitCounter + 1)
          else st.QuitCounter
        index2D := setIndex2D st.index2D m.Source (st.ChunkIndex m.Source)
          ⟨st.ThreadInfo.StartIndex, st.ThreadInfo.StopIndex⟩
        IntegralOutput := st.IntegralOutput + m.Value
        ChunkIndex := (GetFreeChunkIndex m.Source st.ChunkIndex).2
        Sent := st.Sent ++ [⟨m.Source, MASTER_TO_SLAVE_QUIT,
          ⟨st.ThreadInfo.StartIndex, st.ThreadInfo.StopIndex⟩⟩]
        Done := st.Done } := by
  rw [MasterRecv_handle CommSize st m hnf]
  simp only [hd, if_true]

/-- The same, when the generator is not exhausted: work is sent and the
generator advances. -/
theorem MasterRecv_handle_work [Add α] (CommSize : Int) (st : MasterState α) (m : SlaveSend α)
    (hnf : ¬ (m.Tag = SLAVE_TO_MASTER_EXITING ∧
      wrapInt (st.QuitCounter + 1) = CommSize - 1))
    (hd : IsLoopDone st.ThreadInfo = false) :
    MasterRecv CommSize st m =
      { ThreadInfo := GetNextLoop st.ThreadInfo
        QuitCounter :=
          if m.Tag = SLAVE_TO_MASTER_EXITING then wrapInt (st.QuitCounter + 1)
          else st.QuitCounter
        index2D := setIndex2D st.index2D m.Source (st.ChunkIndex m.Source)
          ⟨st.ThreadInfo.StartIndex, st.ThreadInfo.StopIndex⟩
        IntegralOutput := st.IntegralOutput + m.Value
        ChunkIndex := (GetFreeChunkIndex m.Source st.ChunkIndex).2
        Sent := st.Sent ++ [⟨m.Source, MASTER_TO_SLAVE_WORK_AVAILABLE,
          ⟨st.ThreadInfo.StartIndex, st.ThreadInfo.StopIndex⟩⟩]
        Done := st.Done } := by
  rw [MasterRecv_handle CommSize st m hnf]
  simp only [hd, Bool.false_eq_true, if_false]

theorem WorkMsgs_append (a b : List MasterSend) : WorkMsgs (a ++ b) = WorkMsgs a ++ WorkMsgs b :=
  List.filter_append a b

theorem QuitMsgs_append (a b : List MasterSend) : QuitMsgs (a ++ b) = QuitMsgs a ++ QuitMsgs b :=
  List.filter_append a b

theorem MsgsTo_append (w : Int) (a b : List MasterSend) :
    MsgsTo w (a ++ b) = MsgsTo w a ++ MsgsTo w b :=
  List.filter_append a b

theorem MsgsFrom_append (w : Int) (a b : List (SlaveSend α)) :
    MsgsFrom w (a ++ b) = MsgsFrom w a ++ MsgsFrom w b :=
  List.filter_append a b

theorem WorkMsgs_work (d : Int) (v : IndexSt) :
    WorkMsgs [⟨d, MASTER_TO_SLAVE_WORK_AVAILABLE, v⟩] = [⟨d, MASTER_TO_SLAVE_WORK_AVAILABLE, v⟩] ∧
    QuitMsgs [⟨d, MASTER_TO_SLAVE_WORK_AVAILABLE, v⟩] = [] := by
  constructor
  · simp [WorkMsgs]
  · simp [QuitMsgs, MASTER_TO_SLAVE_WORK_AVAILABLE, MASTER_TO_SLAVE_QUIT]

theorem WorkMsgs_quit (d : Int) (v : IndexSt) :
    WorkMsgs [⟨d, MASTER_TO_SLAVE_QUIT, v⟩] = [] ∧
    QuitMsgs [⟨d, MASTER_TO_SLAVE_QUIT, v⟩] = [⟨d, MASTER_TO_SLAVE_QUIT, v⟩] := by
  constructor
  · simp [WorkMsgs, MASTER_TO_SLAVE_WORK_AVAILABLE, MASTER_TO_SLAVE_QUIT]
  · simp [QuitMsgs]

theorem OrderInv_handle [Add α] (CommSize : Int) (st : MasterState α) (m : SlaveSend α)
    (hnf : ¬ (m.Tag = SLAVE_TO_MASTER_EXITING ∧
      wrapInt (st.QuitCounter + 1) = CommSize - 1))
    (h : OrderInv st) : OrderInv (MasterRecv CommSize st m) := by
  obtain ⟨h1, h2⟩ := h
  by_cases hd : IsLoopDone st.ThreadInfo = true
  · rw [MasterRecv_handle_quit CommSize st m hnf hd]
    simp only [OrderInv, WorkMsgs_append, QuitMsgs_append, (WorkMsgs_quit _ _).1,
      (WorkMsgs_quit _ _).2, List.append_nil]
    refine ⟨?_, fun _ => hd⟩
    rw [← List.append_assoc, ← h1]
  · have hd' : IsLoopDone st.ThreadInfo = false := by simpa using hd
    have hq : QuitMsgs st.Sent = [] := by
      by_contra hne
      exact hd (h2 hne)
    rw [hq, List.append_nil] at h1
    rw [MasterRecv_handle_work CommSize st m hnf hd']
    simp only [OrderInv, WorkMsgs_append, QuitMsgs_append, (WorkMsgs_work _ _).1,
      (WorkMsgs_work _ _).2, List.append_nil, hq]
    refine ⟨by rw [← h1], fun hne => absurd rfl hne⟩

theorem PayloadAt_ge (N G : Int) (k n : Nat) (h : k ≤ n) :
    PayloadAt N G k n = chunkOf N G (n - 1) := by
  unfold PayloadAt
  rw [if_neg (by omega)]

theorem GenInv_handle [Add α] (CommSize N G : Int) (k : Nat) (st : MasterState α)
    (m : SlaveSend α) (hG : 1 ≤ G) (hk : 1 ≤ k) (hov : N + G < 2 ^ 63)
    (hnf : ¬ (m.Tag = SLAVE_TO_MASTER_EXITING ∧
      wrapInt (st.QuitCounter + 1) = CommSize - 1))
    (h : GenInv N G k st) : GenInv N G k (MasterRecv CommSize st m) := by
  obtain ⟨g, hkn, hlt, hpay⟩ := h
  by_cases hd : IsLoopDone st.ThreadInfo = true
  · rw [MasterRecv_handle_quit CommSize st m hnf hd]
    simp only [GenInv, WorkMsgs_append, (WorkMsgs_quit _ _).1, List.append_nil]
    exact ⟨g, hkn, hlt, hpay⟩
  · have hd' : IsLoopDone st.ThreadInfo = false := by simpa using hd
    have hnG := (GenAt_done_iff N G _ _ g).mp hd'
    have hmul : (((WorkMsgs st.Sent).length : Int) + 1) * G =
        ((WorkMsgs st.Sent).length : Int) * G + G := by ring
    obtain ⟨g1, _⟩ := GetNextLoop_GenAt N G st.ThreadInfo _ g hG hnG (by rw [hmul]; omega)
    obtain ⟨_, _, _, hss⟩ := g
    obtain ⟨hs1, hs2⟩ := hss (by omega)
    rw [MasterRecv_handle_work CommSize st m hnf hd']
    simp only [GenInv, WorkMsgs_append, (WorkMsgs_work _ _).1, List.length_append,
      List.length_singleton, List.map_append, List.map_cons, List.map_nil, List.range_succ]
    refine ⟨g1, by omega, by push_cast; rw [add_sub_cancel_right]; exact hnG, ?_⟩
    rw [hpay, PayloadAt_ge N G k _ hkn]
    congr 2
    simp only [chunkOf, hs1, hs2]
    have : (((WorkMsgs st.Sent).length - 1 : Nat) : Int) =
        ((WorkMsgs st.Sent).length : Int) - 1 := by omega
    rw [this]
    simp

theorem MsgsFrom_single (w : Int) (m : SlaveSend α) :
    MsgsFrom w [m] = if m.Source = w then [m] else [] := by
  by_cases h : m.Source = w <;> simp [MsgsFrom, h]

theorem MsgsTo_single (w : Int) (m : MasterSend) :
    MsgsTo w [m] = if m.Dest = w then [m] else [] := by
  by_cases h : m.Dest = w <;> simp [MsgsTo, h]

theorem SlotInv_handle [Add α] (CommSize : Int) (st : MasterState α) (m : SlaveSend α)
    (h : List (SlaveSend α))
    (hnf : ¬ (m.Tag = SLAVE_TO_MASTER_EXITING ∧
      wrapInt (st.QuitCounter + 1) = CommSize - 1))
    (hs : SlotInv CommSize st h) : SlotInv CommSize (MasterRecv CommSize st m) (h ++ [m]) := by
  intro w
  obtain ⟨a1, a2, a3⟩ := hs w
  rw [MasterRecv_handle CommSize st m hnf]
  simp only [MsgsTo_append, MsgsFrom_append, MsgsFrom_single, MsgsTo_single]
  by_cases hw : m.Source = w
  · subst hw
    simp only [if_true, List.length_append, List.length_singleton]
    refine ⟨by omega, ?_, ?_⟩
    · rw [GetFreeChunkIndex_self, a2]
      push_cast
      split <;> omega
    · intro i x hx hlen
      by_cases hi : i = (MsgsTo m.Source st.Sent).length
      · subst hi
        rw [List.getElem?_append_right (le_refl _)] at hx
        simp only [Nat.sub_self, List.getElem?_cons_zero, Option.some.injEq] at hx
        subst hx
        have hmod : (((MsgsTo m.Source st.Sent).length : Nat) : Int) % 3 =
            st.ChunkIndex m.Source := by
          rw [a2, a1]
          push_cast
          split <;> omega
        rw [hmod]
        exact setIndex2D_same _ _ _ _
      · have hlt : i < (MsgsTo m.Source st.Sent).length := by
          have := (List.getElem?_eq_some_iff.mp hx).1
          simp only [List.length_append, List.length_singleton] at this
          omega
        rw [List.getElem?_append_left hlt] at hx
        have hne : ((i : Int) % 3) ≠ st.ChunkIndex m.Source := by
          rw [a2]
          have := a1
          split at this <;> omega
        rw [setIndex2D_other _ _ _ _ _ _ (Or.inr hne)]
        exact a3 i x hx (by omega)
  · simp only [hw, if_false, List.append_nil, List.length_nil, Nat.add_zero]
    refine ⟨a1, ?_, ?_⟩
    · rw [GetFreeChunkIndex_other _ _ _ (fun e => hw e.symm)]
      exact a2
    · intro i x hx hlen
      rw [setIndex2D_other _ _ _ _ _ _ (Or.inl (fun e => hw e.symm))]
      exact a3 i x hx hlen

/-! ## The controller after the initial fill -/

theorem FillRow_tags (N G : Int) (W s : Nat) :
    WorkMsgs (FillRow N G W s) = FillRow N G W s ∧ QuitMsgs (FillRow N G W s) = [] := by
  constructor
  · apply List.filter_eq_self.mpr
    intro x hx
    obtain ⟨j, _, rfl⟩ := List.mem_map.mp hx
    simp
  · apply List.filter_eq_nil_iff.mpr
    intro x hx
    obtain ⟨j, _, rfl⟩ := List.mem_map.mp hx
    simp [MASTER_TO_SLAVE_WORK_AVAILABLE, MASTER_TO_SLAVE_QUIT]

/-- The messages of a row that go to rank `w`: one if `w` is a worker. -/
theorem MsgsTo_row (g : Nat → IndexSt) (w : Int) :
    ∀ W : Nat, MsgsTo w ((List.range W).map (fun j : Nat =>
        (⟨(j : Int) + 1, MASTER_TO_SLAVE_WORK_AVAILABLE, g j⟩ : MasterSend))) =
      if 1 ≤ w ∧ w ≤ W then [⟨w, MASTER_TO_SLAVE_WORK_AVAILABLE, g (w - 1).toNat⟩] else [] := by
  intro W
  induction W with
  | zero =>
    have : ¬ (1 ≤ w ∧ w ≤ ((0 : Nat) : Int)) := by omega
    rw [if_neg this]
    rfl
  | succ W ih =>
    rw [List.range_succ, List.map_append, MsgsTo_append, ih, List.map_cons, List.map_nil,
      MsgsTo_single]
    by_cases h1 : 1 ≤ w ∧ w ≤ (W : Int)
    · have h2 : 1 ≤ w ∧ w ≤ ((W + 1 : Nat) : Int) := by omega
      have h3 : ¬ ((W : Int) + 1 = w) := by omega
      simp only [h1, h2, h3, and_self, if_true, if_false, List.append_nil]
    · by_cases h3 : (W : Int) + 1 = w
      · subst h3
        have h2 : 1 ≤ (W : Int) + 1 ∧ (W : Int) + 1 ≤ ((W + 1 : Nat) : Int) := by omega
        have h4 : ((W : Int) + 1 - 1).toNat = W := by omega
        rw [if_neg h1, if_pos h2, if_pos rfl, h4]
        rfl
      · have h2 : ¬ (1 ≤ w ∧ w ≤ ((W + 1 : Nat) : Int)) := by omega
        simp only [h1, h2, h3, if_false, List.append_nil]

theorem MsgsTo_FillRow (N G : Int) (W s : Nat) (w : Int) :
    MsgsTo w (FillRow N G W s) =
      if 1 ≤ w ∧ w ≤ W then
        [⟨w, MASTER_TO_SLAVE_WORK_AVAILABLE, chunkOf N G (s * W + (w - 1).toNat)⟩]
      else [] :=
  MsgsTo_row (fun j => chunkOf N G (s * W + j)) w W

theorem FillRow_payloads (N G : Int) (W : Nat) :
    (FillRow N G W 0 ++ FillRow N G W 1 ++ FillRow N G W 2).map (fun m => m.Index) =
      (List.range (3 * W)).map (PayloadAt N G (3 * W)) := by
  have h3 : 3 * W = W + W + W := by omega
  have hp : ∀ j ∈ List.range (W + W + W), PayloadAt N G (W + W + W) j = chunkOf N G j := by
    intro j hj
    have := List.mem_range.mp hj
    simp [PayloadAt, this]
  have hrow : ∀ s : Nat, (FillRow N G W s).map (fun m => m.Index) =
      (List.range W).map (fun j => chunkOf N G (s * W + j)) := by
    intro s
    simp only [FillRow, List.map_map]
    rfl
  rw [h3, List.map_congr_left hp, List.range_add, List.range_add]
  simp only [List.map_append, List.map_map, hrow]
  congr 1
  · congr 1
    · apply List.map_congr_left
      intro j _
      simp
    · apply List.map_congr_left
      intro j _
      simp
  · apply List.map_congr_left
    intro j _
    simp only [Function.comp]
    congr 1
    omega

theorem OrderInv_init [Zero α] (T : ThreadData α) (N G : Int) (W : Nat) (hG : 1 ≤ G)
    (hTN : T.NoOfPoints = N) (hTG : T.Granularity = G) (hC : T.CompletedIndex = 0)
    (hk : (3 * W : Int) * G < N) (hov : (3 * W : Int) * G < 2 ^ 63) :
    OrderInv (InitialFill ((W : Int) + 1) (MasterInit T)) := by
  obtain ⟨_, g2, _⟩ := InitialFill_eq T N G W hG hTN hTG hC hk hov
  have hq : QuitMsgs (InitialFill ((W : Int) + 1) (MasterInit T)).Sent = [] := by
    rw [g2]
    simp only [QuitMsgs_append, (FillRow_tags _ _ _ _).2, List.append_nil]
  refine ⟨?_, fun hne => absurd hq hne⟩
  rw [hq, g2]
  simp only [WorkMsgs_append, (FillRow_tags _ _ _ _).1, List.append_nil]

theorem GenInv_init [Zero α] (T : ThreadData α) (N G : Int) (W : Nat) (hG : 1 ≤ G)
    (hTN : T.NoOfPoints = N) (hTG : T.Granularity = G) (hC : T.CompletedIndex = 0)
    (hk : (3 * W : Int) * G < N) (hov : (3 * W : Int) * G < 2 ^ 63) :
    GenInv N G (3 * W) (InitialFill ((W : Int) + 1) (MasterInit T)) := by
  obtain ⟨g1, g2, _⟩ := InitialFill_eq T N G W hG hTN hTG hC hk hov
  have hw : WorkMsgs (InitialFill ((W : Int) + 1) (MasterInit T)).Sent =
      FillRow N G W 0 ++ FillRow N G W 1 ++ FillRow N G W 2 := by
    rw [g2]
    simp only [WorkMsgs_append, (FillRow_tags _ _ _ _).1]
  have hlen : (FillRow N G W 0 ++ FillRow N G W 1 ++ FillRow N G W 2).length = 3 * W := by
    simp only [FillRow, List.length_append, List.length_map, List.length_range]
    omega
  unfold GenInv
  rw [hw, hlen]
  refine ⟨g1, le_refl _, ?_, FillRow_payloads N G W⟩
  have : ((3 * W : Nat) : Int) = 3 * W := by push_cast; ring
  have h2 : (3 * (W : Int) - 1) * G = 3 * W * G - G := by ring
  rw [this, h2]
  omega

theorem SlotInv_init [Zero α] (T : ThreadData α) (N G : Int) (W : Nat) (hG : 1 ≤ G)
    (hTN : T.NoOfPoints = N) (hTG : T.Granularity = G) (hC : T.CompletedIndex = 0)
    (hk : (3 * W : Int) * G < N) (hov : (3 * W : Int) * G < 2 ^ 63) :
    SlotInv ((W : Int) + 1) (InitialFill ((W : Int) + 1) (MasterInit T))
      ([] : List (SlaveSend α)) := by
  obtain ⟨_, g2, g3⟩ := InitialFill_eq T N G W hG hTN hTG hC hk hov
  intro w
  have hci : (InitialFill ((W : Int) + 1) (MasterInit T)).ChunkIndex w = 0 := by
    rw [(InitialFill_frame _ (MasterInit T)).2.2.2]; rfl
  rw [g2]
  simp only [MsgsTo_append, MsgsTo_FillRow, MsgsFrom, List.filter_nil, List.length_nil,
    Nat.add_zero, hci, Nat.cast_zero, Int.zero_emod, true_and]
  by_cases hw : 1 ≤ w ∧ w ≤ (W : Int)
  · have hw' : 1 ≤ w ∧ w < (W : Int) + 1 := by omega
    obtain ⟨j, rfl⟩ : ∃ j : Nat, w = (j : Int) + 1 := ⟨(w - 1).toNat, by omega⟩
    have hj : ((j : Int) + 1 - 1).toNat = j := by omega
    simp only [hw, hw', and_self, if_true, List.singleton_append, List.cons_append,
      List.nil_append, hj]
    refine ⟨rfl, ?_⟩
    intro i x hx _
    have hi : i = 0 ∨ i = 1 ∨ i = 2 := by
      have := (List.getElem?_eq_some_iff.mp hx).1
      simp only [List.length_cons, List.length_nil] at this
      omega
    rcases hi with rfl | rfl | rfl
    · simp only [List.getElem?_cons_zero, Option.some.injEq] at hx
      subst hx
      have := g3 0 j (by omega) (by omega)
      simpa using this
    · simp only [List.getElem?_cons_succ, List.getElem?_cons_zero, Option.some.injEq] at hx
      subst hx
      have := g3 1 j (by omega) (by omega)
      simpa using this
    · simp only [List.getElem?_cons_succ, List.getElem?_cons_zero, Option.some.injEq] at hx
      subst hx
      have := g3 2 j (by omega) (by omega)
      simpa using this
  · have hw' : ¬ (1 ≤ w ∧ w < (W : Int) + 1) := by omega
    simp only [hw, hw', if_false, List.append_nil, List.length_nil, true_and]
    intro i x hx
    simp at hx

/-! ## The worker on a trace of work messages followed by quits -/

theorem SlaveLoop_works [Field α] (T : ThreadData α) (w : Int) (ws : List MasterSend) :
    ∀ st : SlaveState α, st.Done = false →
      (∀ x ∈ ws, x.Tag = MASTER_TO_SLAVE_WORK_AVAILABLE) →
      (SlaveLoop T w st ws).Sent = st.Sent ++ ws.map (WorkReply T w) ∧
      (SlaveLoop T w st ws).Done = false ∧
      (SlaveLoop T w st ws).QuitCounter = st.QuitCounter := by
  induction ws with
  | nil => intro st hD _; simp [SlaveLoop, hD]
  | cons m ms ih =>
    intro st hD hall
    obtain ⟨hS, hQ, hDn⟩ := SlaveRecv_work T w st m (hall m (List.mem_cons_self _ _))
    obtain ⟨i1, i2, i3⟩ := ih (SlaveRecv T w st m) (by rw [hDn, hD])
      (fun x hx => hall x (List.mem_cons_of_mem _ hx))
    simp only [SlaveLoop, hD, Bool.false_eq_true, if_false]
    refine ⟨?_, i2, by rw [i3, hQ]⟩
    rw [i1, hS, List.append_assoc]
    rfl

theorem SlaveLoop_quits [Field α] (T : ThreadData α) (w : Int) (qs : List MasterSend) :
    ∀ st : SlaveState α, st.Done = false → 0 ≤ st.QuitCounter → st.QuitCounter < 3 →
      (∀ x ∈ qs, x.Tag = MASTER_TO_SLAVE_QUIT) →
      (st.QuitCounter + (qs.length : Int) < 3 →
        (SlaveLoop T w st qs).Sent = st.Sent ∧ (SlaveLoop T w st qs).Done = false) ∧
      (3 ≤ st.QuitCounter + (qs.length : Int) →
        (SlaveLoop T w st qs).Sent = st.Sent ++ [⟨w, SLAVE_TO_MASTER_EXITING, 0⟩] ∧
        (SlaveLoop T w st qs).Done = true) := by
  induction qs with
  | nil =>
    intro st hD h0 h3 _
    simp only [SlaveLoop, List.length_nil, Nat.cast_zero, add_zero]
    exact ⟨fun _ => ⟨trivial, hD⟩, fun h => by omega⟩
  | cons m ms ih =>
    intro st hD h0 h3 hall
    obtain ⟨hQ, hlo, hhi⟩ := SlaveRecv_quit T w st m (hall m (List.mem_cons_self _ _)) h0 h3
    simp only [SlaveLoop, hD, Bool.false_eq_true, if_false, List.length_cons]
    push_cast
    by_cases h2 : st.QuitCounter = 2
    · obtain ⟨hS, hDn⟩ := hhi h2
      rw [SlaveLoop_done _ _ _ _ hDn]
      exact ⟨fun h => by omega, fun _ => ⟨hS, hDn⟩⟩
    · obtain ⟨hS, hDn⟩ := hlo (by omega)
      obtain ⟨i1, i2⟩ := ih (SlaveRecv T w st m) (by rw [hDn, hD]) (by rw [hQ]; omega)
        (by rw [hQ]; omega) (fun x hx => hall x (List.mem_cons_of_mem _ hx))
      rw [hQ, hS] at i1 i2
      exact ⟨fun h => i1 (by omega), fun h => i2 (by omega)⟩

/-- What a worker has sent after work messages followed by quits: one
partial result per work message and, from the third quit on, its exit
message. -/
theorem SlaveWork_works_quits [Field α] (T : ThreadData α) (w : Int) (ws qs : List MasterSend)
    (hws : ∀ x ∈ ws, x.Tag = MASTER_TO_SLAVE_WORK_AVAILABLE)
    (hqs : ∀ x ∈ qs, x.Tag = MASTER_TO_SLAVE_QUIT) :
    (SlaveWork T w (ws ++ qs)).Sent =
      ws.map (WorkReply T w) ++
        (if 3 ≤ qs.length then [⟨w, SLAVE_TO_MASTER_EXITING, 0⟩] else []) ∧
    ((SlaveWork T w (ws ++ qs)).Done = true ↔ 3 ≤ qs.length) := by
  unfold SlaveWork
  rw [SlaveLoop_append]
  obtain ⟨a1, a2, a3⟩ := SlaveLoop_works T w ws SlaveInit rfl hws
  have hq0 : (SlaveLoop T w SlaveInit ws).QuitCounter = 0 := by rw [a3]; rfl
  obtain ⟨b1, b2⟩ := SlaveLoop_quits T w qs (SlaveLoop T w SlaveInit ws) a2
    (by rw [hq0]) (by rw [hq0]; norm_num) hqs
  rw [hq0] at b1 b2
  have hs0 : (SlaveInit : SlaveState α).Sent = [] := rfl
  by_cases h3 : 3 ≤ qs.length
  · obtain ⟨c1, c2⟩ := b2 (by omega)
    rw [c1, a1, hs0, if_pos h3, List.nil_append]
    exact ⟨rfl, by simp [c2, h3]⟩
  · obtain ⟨c1, c2⟩ := b1 (by omega)
    rw [c1, a1, hs0, if_neg h3, List.nil_append, List.append_nil]
    exact ⟨rfl, by simp [c2, h3]⟩

theorem SlaveRecv_sent [Field α] (T : ThreadData α) (w : Int) (st : SlaveState α)
    (m : MasterSend) :
    ∃ e, (SlaveRecv T w st m).Sent = st.Sent ++ e ∧ ∀ x ∈ e, x.Source = w := by
  by_cases hw : m.Tag = MASTER_TO_SLAVE_WORK_AVAILABLE
  · refine ⟨_, (SlaveRecv_work T w st m hw).1, ?_⟩
    intro x hx
    rw [List.mem_singleton.mp hx]
  · by_cases hq : m.Tag = MASTER_TO_SLAVE_QUIT
    · have hne : ¬ (MASTER_TO_SLAVE_QUIT = MASTER_TO_SLAVE_WORK_AVAILABLE) := by decide
      simp only [SlaveRecv, hq, hne, if_false, if_true]
      split
      · refine ⟨[⟨w, SLAVE_TO_MASTER_EXITING, 0⟩], rfl, ?_⟩
        intro x hx
        rw [List.mem_singleton.mp hx]
      · exact ⟨[], by simp, by simp⟩
    · rw [SlaveRecv_other T w st m hw hq]
      exact ⟨[], by simp, by simp⟩

theorem SlaveLoop_source [Field α] (T : ThreadData α) (w : Int) (msgs : List MasterSend) :
    ∀ st : SlaveState α, (∀ x ∈ st.Sent, x.Source = w) →
      ∀ x ∈ (SlaveLoop T w st msgs).Sent, x.Source = w := by
  induction msgs with
  | nil => intro st h; exact h
  | cons m ms ih =>
    intro st h
    by_cases hD : st.Done = true
    · simp only [SlaveLoop, hD, if_true]; exact h
    · simp only [SlaveLoop, hD, if_false]
      apply ih
      obtain ⟨e, he, hsrc⟩ := SlaveRecv_sent T w st m
      intro x hx
      rw [he] at hx
      rcases List.mem_append.mp hx with h1 | h1
      · exact h x h1
      · exact hsrc x h1

theorem SlaveWork_source [Field α] (T : ThreadData α) (w : Int) (msgs : List MasterSend) :
    ∀ x ∈ (SlaveWork T w msgs).Sent, x.Source = w :=
  SlaveLoop_source T w msgs SlaveInit (by intro x hx; simp [SlaveInit] at hx)

theorem MasterRecv_sent [Add α] (CommSize : Int) (st : MasterState α) (m : SlaveSend α) :
    ∃ e, (MasterRecv CommSize st m).Sent = st.Sent ++ e := by
  by_cases hf : m.Tag = SLAVE_TO_MASTER_EXITING ∧ wrapInt (st.QuitCounter + 1) = CommSize - 1
  · rw [MasterRecv_final CommSize st m hf.1 hf.2]
    exact ⟨[], by simp⟩
  · rw [MasterRecv_handle CommSize st m hf]
    exact ⟨_, rfl⟩

/-! ## Runs of the process group -/

theorem take_succ_of_get {β : Type} (l : List β) (t : Nat) (m : β)
    (h : l[t]? = some m) : l.take (t + 1) = l.take t ++ [m] := by
  rw [List.take_succ, h]
  rfl

theorem SlaveWork_snoc [Field α] (T : ThreadData α) (w : Int) (l : List MasterSend)
    (m : MasterSend) (h : (SlaveWork T w l).Done = false) :
    SlaveWork T w (l ++ [m]) = SlaveRecv T w (SlaveWork T w l) m := by
  unfold SlaveWork at h ⊢
  rw [SlaveLoop_append, SlaveLoop_single _ _ _ _ h]

theorem ExitCount_append (a b : List (SlaveSend α)) :
    ExitCount (a ++ b) = ExitCount a + ExitCount b :=
  List.countP_append _ a b

theorem ExitCount_single (m : SlaveSend α) :
    ExitCount [m] = if m.Tag = SLAVE_TO_MASTER_EXITING then 1 else 0 := by
  by_cases h : m.Tag = SLAVE_TO_MASTER_EXITING <;> simp [ExitCount, h]

/-- The invariant holds when every process enters its receive loop. -/
theorem SysInv_init [Field α] (T : ThreadData α) (N G : Int) (W : Nat) (hG : 1 ≤ G)
    (hW : 1 ≤ W)
    (hTN : T.NoOfPoints = N) (hTG : T.Granularity = G) (hC : T.CompletedIndex = 0)
    (hk : (3 * W : Int) * G < N) (hov : (3 * W : Int) * G < 2 ^ 63) :
    SysInv ((W : Int) + 1) T (SystemInit ((W : Int) + 1) T) [] [] := by
  obtain ⟨fQ, fD, fI, _⟩ := InitialFill_frame ((W : Int) + 1) (MasterInit T)
  refine
    { fromSlave := fun w => by simp [SystemInit, MsgsFrom]
      masterTaken := fun w => by simp [SystemInit]
      slave := fun w => by simp [SystemInit, SlaveWork, SlaveLoop]
      slaveTaken := fun w => by simp [SystemInit]
      outside := fun w _ => rfl
      order := OrderInv_init T N G W hG hTN hTG hC hk hov
      slots := SlotInv_init T N G W hG hTN hTG hC hk hov
      sum := by
        show (InitialFill ((W : Int) + 1) (MasterInit T)).IntegralOutput = _
        rw [fI]; rfl
      running := fun _ => ⟨rfl, ?_, ?_⟩
      finished := fun hd => ?_ }
  · show (InitialFill ((W : Int) + 1) (MasterInit T)).QuitCounter = _
    rw [fQ]; rfl
  · show (InitialFill ((W : Int) + 1) (MasterInit T)).QuitCounter < _
    rw [fQ]
    show (0 : Int) < (W : Int) + 1 - 1
    omega
  · have : (InitialFill ((W : Int) + 1) (MasterInit T)).Done = true := hd
    rw [fD] at this
    exact absurd this (by simp [MasterInit])

/-- A worker taking its next message keeps the invariant. -/
theorem SysInv_slave [Field α] (CommSize : Int) (T : ThreadData α) (s s1 : System α)
    (h fin : List (SlaveSend α)) (w : Int) (hinv : SysInv CommSize T s h fin)
    (hstep : SystemStep CommSize T s (Event.slave w) = some s1) :
    SysInv CommSize T s1 h fin ∧ s1.Master = s.Master := by
  simp only [SystemStep] at hstep
  split at hstep
  case isFalse => exact absurd hstep (by simp)
  case isTrue hg =>
    obtain ⟨_, _, hD⟩ := hg
    cases hget : (List.filter (fun m => decide (m.Dest = w)) s.Master.Sent)[s.SlaveTaken w]? with
    | none => rw [hget] at hstep; exact absurd hstep (by simp)
    | some m =>
      rw [hget] at hstep
      simp only [Option.some.injEq] at hstep
      subst hstep
      have hget' : (MsgsTo w s.Master.Sent)[s.SlaveTaken w]? = some m := hget
      have hlt : s.SlaveTaken w < (MsgsTo w s.Master.Sent).length :=
        (List.getElem?_eq_some_iff.mp hget').1
      have hsl := hinv.slave w
      have hD' : (SlaveWork T w ((MsgsTo w s.Master.Sent).take (s.SlaveTaken w))).Done = false := by
        rw [← hsl]; exact hD
      have hnew : SlaveRecv T w (s.Slave w) m =
          SlaveWork T w ((MsgsTo w s.Master.Sent).take (s.SlaveTaken w + 1)) := by
        rw [take_succ_of_get _ _ _ hget', SlaveWork_snoc _ _ _ _ hD', ← hsl]
      obtain ⟨e, he, _⟩ := SlaveRecv_sent T w (s.Slave w) m
      refine ⟨?_, rfl⟩
      refine
        { fromSlave := fun v => ?_
          masterTaken := fun v => ?_
          slave := fun v => ?_
          slaveTaken := fun v => ?_
          outside := hinv.outside
          order := hinv.order
          slots := hinv.slots
          sum := hinv.sum
          running := hinv.running
          finished := hinv.finished }
      · by_cases hv : v = w
        · subst hv
          simp only [Function.update_same]
          rw [he, List.take_append_of_le_length (hinv.masterTaken v)]
          exact hinv.fromSlave v
        · simp only [Function.update_noteq hv]
          exact hinv.fromSlave v
      · by_cases hv : v = w
        · subst hv
          simp only [Function.update_same]
          rw [he, List.length_append]
          have := hinv.masterTaken v
          omega
        · simp only [Function.update_noteq hv]
          exact hinv.masterTaken v
      · by_cases hv : v = w
        · subst hv
          simp only [Function.update_same]
          exact hnew
        · simp only [Function.update_noteq hv]
          exact hinv.slave v
      · by_cases hv : v = w
        · subst hv
          simp only [Function.update_same]
          omega
        · simp only [Function.update_noteq hv]
          exact hinv.slaveTaken v

/-- The controller receiving the next message of a worker keeps the
invariant; the message is handled, or it is the exit message that ends the
loop. -/
theorem SysInv_master [Field α] (CommSize : Int) (hC : CommSize < 2 ^ 31) (T : ThreadData α)
    (s s1 : System α) (h fin : List (SlaveSend α)) (w : Int)
    (hinv : SysInv CommSize T s h fin)
    (hstep : SystemStep CommSize T s (Event.master w) = some s1) :
    ∃ m, (s.Slave w).Sent[s.MasterTaken w]? = some m ∧ s.Master.Done = false ∧
      s1.Master = MasterRecv CommSize s.Master m ∧ (1 ≤ w ∧ w < CommSize) ∧
      ∃ h1 fin1, SysInv CommSize T s1 h1 fin1 := by
  simp only [SystemStep] at hstep
  split at hstep
  case isFalse => exact absurd hstep (by simp)
  case isTrue hg =>
    obtain ⟨hw1, hw2, hD⟩ := hg
    cases hget : (s.Slave w).Sent[s.MasterTaken w]? with
    | none => rw [hget] at hstep; exact absurd hstep (by simp)
    | some m =>
      rw [hget] at hstep
      simp only [Option.some.injEq] at hstep
      subst hstep
      refine ⟨m, rfl, hD, rfl, ⟨hw1, hw2⟩, ?_⟩
      obtain ⟨hfin, hqc, hqlt⟩ := hinv.running hD
      subst hfin
      have hlt : s.MasterTaken w < (s.Slave w).Sent.length :=
        (List.getElem?_eq_some_iff.mp hget).1
      have hsrc : m.Source = w := by
        have hm : m ∈ (s.Slave w).Sent := List.getElem?_mem hget
        rw [hinv.slave w] at hm
        exact SlaveWork_source T w _ m hm
      have hwrap : wrapInt (s.Master.QuitCounter + 1) = s.Master.QuitCounter + 1 :=
        wrapInt_eq _ (by omega) (by omega)
      have hfrom : ∀ v, MsgsFrom v (h ++ [m]) =
          ((s.Slave v).Sent).take (Function.update s.MasterTaken w (s.MasterTaken w + 1) v) := by
        intro v
        have hold := hinv.fromSlave v
        rw [List.append_nil] at hold
        rw [MsgsFrom_append, MsgsFrom_single, hold]
        by_cases hv : v = w
        · subst hv
          rw [if_pos hsrc, Function.update_same, take_succ_of_get _ _ _ hget]
        · have : ¬ (m.Source = v) := by rw [hsrc]; exact fun e => hv e.symm
          rw [if_neg this, Function.update_noteq hv, List.append_nil]
      have htaken : ∀ v, Function.update s.MasterTaken w (s.MasterTaken w + 1) v ≤
          (s.Slave v).Sent.length := by
        intro v
        by_cases hv : v = w
        · subst hv; rw [Function.update_same]; omega
        · rw [Function.update_noteq hv]; exact hinv.masterTaken v
      have hout : ∀ v, ¬ (1 ≤ v ∧ v < CommSize) →
          Function.update s.MasterTaken w (s.MasterTaken w + 1) v = 0 := by
        intro v hv
        have : v ≠ w := by rintro rfl; exact hv ⟨hw1, hw2⟩
        rw [Function.update_noteq this]
        exact hinv.outside v hv
      by_cases hf : m.Tag = SLAVE_TO_MASTER_EXITING ∧
          wrapInt (s.Master.QuitCounter + 1) = CommSize - 1
      · refine ⟨h, [m], ?_⟩
        have hM := MasterRecv_final CommSize s.Master m hf.1 hf.2
        refine
          { fromSlave := hfrom
            masterTaken := htaken
            slave := fun v => ?_
            slaveTaken := fun v => ?_
            outside := hout
            order := ?_
            slots := ?_
            sum := ?_
            running := fun hd => ?_
            finished := fun _ => ⟨m, rfl, hf.1, ?_⟩ }
        · show s.Slave v = SlaveWork T v
            ((MsgsTo v (MasterRecv CommSize s.Master m).Sent).take (s.SlaveTaken v))
          rw [hM]; exact hinv.slave v
        · show s.SlaveTaken v ≤ (MsgsTo v (MasterRecv CommSize s.Master m).Sent).length
          rw [hM]; exact hinv.slaveTaken v
        · show OrderInv (MasterRecv CommSize s.Master m)
          rw [hM]; exact hinv.order
        · show SlotInv CommSize (MasterRecv CommSize s.Master m) h
          rw [hM]; exact hinv.slots
        · show (MasterRecv CommSize s.Master m).IntegralOutput = _
          rw [hM]; exact hinv.sum
        · have : (MasterRecv CommSize s.Master m).Done = false := hd
          rw [hM] at this
          exact absurd this (by simp)
        · have := hf.2
          rw [hwrap, hqc] at this
          exact this
      · refine ⟨h ++ [m], [], ?_⟩
        have hM := MasterRecv_handle CommSize s.Master m hf
        obtain ⟨e, he⟩ := MasterRecv_sent CommSize s.Master m
        have hdone : (MasterRecv CommSize s.Master m).Done = false := by rw [hM]; exact hD
        refine
          { fromSlave := fun v => by rw [List.append_nil]; exact hfrom v
            masterTaken := htaken
            slave := fun v => ?_
            slaveTaken := fun v => ?_
            outside := hout
            order := OrderInv_handle CommSize s.Master m hf hinv.order
            slots := SlotInv_handle CommSize s.Master m h hf hinv.slots
            sum := ?_
            running := fun _ => ⟨rfl, ?_, ?_⟩
            finished := fun hd => ?_ }
        · show s.Slave v = SlaveWork T v
            ((MsgsTo v (MasterRecv CommSize s.Master m).Sent).take (s.SlaveTaken v))
          rw [he, MsgsTo_append, List.take_append_of_le_length (hinv.slaveTaken v)]
          exact hinv.slave v
        · show s.SlaveTaken v ≤ (MsgsTo v (MasterRecv CommSize s.Master m).Sent).length
          rw [he, MsgsTo_append, List.length_append]
          have := hinv.slaveTaken v
          omega
        · show (MasterRecv CommSize s.Master m).IntegralOutput = _
          rw [hM, List.map_append, List.sum_append]
          simp only [List.map_cons, List.map_nil, List.sum_cons, List.sum_nil, add_zero]
          rw [hinv.sum]
        · show (MasterRecv CommSize s.Master m).QuitCounter = _
          rw [hM, ExitCount_append, ExitCount_single]
          simp only []
          by_cases ht : m.Tag = SLAVE_TO_MASTER_EXITING
          · rw [if_pos ht, if_pos ht, hwrap, hqc]; push_cast; ring
          · rw [if_neg ht, if_neg ht, hqc]; push_cast; ring
        · show (MasterRecv CommSize s.Master m).QuitCounter < _
          rw [hM]
          simp only []
          by_cases ht : m.Tag = SLAVE_TO_MASTER_EXITING
          · rw [if_pos ht, hwrap]
            have : ¬ (s.Master.QuitCounter + 1 = CommSize - 1) := by
              intro e
              exact hf ⟨ht, by rw [hwrap]; exact e⟩
            omega
          · rw [if_neg ht]; exact hqlt
        · have : (MasterRecv CommSize s.Master m).Done = true := hd
          rw [hdone] at this
          exact absurd this (by simp)

/-- Every state reached by a run satisfies the invariant. -/
theorem SysInv_run [Field α] (CommSize : Int) (hC : CommSize < 2 ^ 31) (T : ThreadData α)
    (sched : List Event) :
    ∀ (s s1 : System α) (h fin : List (SlaveSend α)), SysInv CommSize T s h fin →
      SystemRun CommSize T s sched = some s1 → ∃ h1 fin1, SysInv CommSize T s1 h1 fin1 := by
  induction sched with
  | nil =>
    intro s s1 h fin hinv hrun
    simp only [SystemRun, Option.some.injEq] at hrun
    subst hrun
    exact ⟨h, fin, hinv⟩
  | cons e es ih =>
    intro s s1 h fin hinv hrun
    simp only [SystemRun] at hrun
    cases hstep : SystemStep CommSize T s e with
    | none => rw [hstep] at hrun; exact absurd hrun (by simp)
    | some s2 =>
      rw [hstep] at hrun
      simp only [] at hrun
      cases e with
      | slave w =>
        exact ih s2 s1 h fin (SysInv_slave CommSize T s s2 h fin w hinv hstep).1 hrun
      | master w =>
        obtain ⟨_, _, _, _, _, h2, fin2, hinv2⟩ :=
          SysInv_master CommSize hC T s s2 h fin w hinv hstep
        exact ih s2 s1 h2 fin2 hinv2 hrun

theorem GenInv_recv [Add α] (CommSize N G : Int) (k : Nat) (st : MasterState α)
    (m : SlaveSend α) (hG : 1 ≤ G) (hk : 1 ≤ k) (hov : N + G < 2 ^ 63)
    (h : GenInv N G k st) : GenInv N G k (MasterRecv CommSize st m) := by
  by_cases hf : m.Tag = SLAVE_TO_MASTER_EXITING ∧ wrapInt (st.QuitCounter + 1) = CommSize - 1
  · rw [MasterRecv_final CommSize st m hf.1 hf.2]
    exact h
  · exact GenInv_handle CommSize N G k st m hG hk hov hf h

/-- Along a run the generator stays in step with the work messages sent. -/
theorem GenInv_run [Field α] (CommSize : Int) (hC : CommSize < 2 ^ 31) (T : ThreadData α)
    (N G : Int) (k : Nat) (hG : 1 ≤ G) (hk : 1 ≤ k) (hov : N + G < 2 ^ 63)
    (sched : List Event) :
    ∀ (s s1 : System α) (h fin : List (SlaveSend α)), SysInv CommSize T s h fin →
      GenInv N G k s.Master → SystemRun CommSize T s sched = some s1 →
      GenInv N G k s1.Master := by
  induction sched with
  | nil =>
    intro s s1 h fin _ hg hrun
    simp only [SystemRun, Option.some.injEq] at hrun
    subst hrun
    exact hg
  | cons e es ih =>
    intro s s1 h fin hinv hg hrun
    simp only [SystemRun] at hrun
    cases hstep : SystemStep CommSize T s e with
    | none => rw [hstep] at hrun; exact absurd hrun (by simp)
    | some s2 =>
      rw [hstep] at hrun
      simp only [] at hrun
      cases e with
      | slave w =>
        obtain ⟨hinv2, hM⟩ := SysInv_slave CommSize T s s2 h fin w hinv hstep
        exact ih s2 s1 h fin hinv2 (by rw [hM]; exact hg) hrun
      | master w =>
        obtain ⟨m, _, _, hM, _, h2, fin2, hinv2⟩ :=
          SysInv_master CommSize hC T s s2 h fin w hinv hstep
        exact ih s2 s1 h2 fin2 hinv2
          (by rw [hM]; exact GenInv_recv CommSize N G k s.Master m hG hk hov hg) hrun

/-- The states reached from the start of the program. -/
theorem SysInv_reach [Field α] (T : ThreadData α) (N G : Int) (W : Nat) (hG : 1 ≤ G)
    (hW : 1 ≤ W) (hWmax : (W : Int) + 1 < 2 ^ 31)
    (hTN : T.NoOfPoints = N) (hTG : T.Granularity = G) (hC : T.CompletedIndex = 0)
    (hk : (3 * W : Int) * G < N) (hov : (3 * W : Int) * G < 2 ^ 63)
    (sched : List Event) (s : System α)
    (hrun : SystemRun ((W : Int) + 1) T (SystemInit ((W : Int) + 1) T) sched = some s) :
    ∃ h fin, SysInv ((W : Int) + 1) T s h fin :=
  SysInv_run _ hWmax T sched _ s [] []
    (SysInv_init T N G W hG hW hTN hTG hC hk hov) hrun

theorem GenInv_reach [Field α] (T : ThreadData α) (N G : Int) (W : Nat) (hG : 1 ≤ G)
    (hW : 1 ≤ W) (hWmax : (W : Int) + 1 < 2 ^ 31)
    (hTN : T.NoOfPoints = N) (hTG : T.Granularity = G) (hC : T.CompletedIndex = 0)
    (hk : (3 * W : Int) * G < N) (hov : N + G < 2 ^ 63)
    (sched : List Event) (s : System α)
    (hrun : SystemRun ((W : Int) + 1) T (SystemInit ((W : Int) + 1) T) sched = some s) :
    GenInv N G (3 * W) s.Master :=
  GenInv_run _ hWmax T N G (3 * W) hG (by omega) hov sched _ s [] []
    (SysInv_init T N G W hG hW hTN hTG hC hk (by omega))
    (GenInv_init T N G W hG hTN hTG hC hk (by omega)) hrun

/-! ## What a worker has sent, in a reached state -/

theorem MsgsTo_tags (w : Int) (l : List MasterSend) :
    (∀ x ∈ MsgsTo w (WorkMsgs l), x.Tag = MASTER_TO_SLAVE_WORK_AVAILABLE) ∧
    (∀ x ∈ MsgsTo w (QuitMsgs l), x.Tag = MASTER_TO_SLAVE_QUIT) := by
  constructor
  · intro x hx
    have := (List.mem_filter.mp hx).1
    simpa using (List.mem_filter.mp this).2
  · intro x hx
    have := (List.mem_filter.mp hx).1
    simpa using (List.mem_filter.mp this).2

/-- In a reached state, worker `w` has sent the partial results of the work
messages it has taken, in order, and then its exit message if it has taken
three quits; it has taken a quit only after all the work sent to it. -/
theorem Slave_sent [Field α] (CommSize : Int) (T : ThreadData α) (s : System α)
    (h fin : List (SlaveSend α)) (hinv : SysInv CommSize T s h fin) (w : Int) :
    ∃ (t : Nat) (q : Nat),
      (s.Slave w).Sent =
        ((MsgsTo w (WorkMsgs s.Master.Sent)).take t).map (WorkReply T w) ++
          (if 3 ≤ q then [⟨w, SLAVE_TO_MASTER_EXITING, 0⟩] else []) ∧
      (1 ≤ q → (MsgsTo w (WorkMsgs s.Master.Sent)).take t = MsgsTo w (WorkMsgs s.Master.Sent)) ∧
      (1 ≤ q → QuitMsgs s.Master.Sent ≠ []) ∧
      MsgsTo w s.Master.Sent =
        MsgsTo w (WorkMsgs s.Master.Sent) ++ MsgsTo w (QuitMsgs s.Master.Sent) := by
  have hsplit : MsgsTo w s.Master.Sent =
      MsgsTo w (WorkMsgs s.Master.Sent) ++ MsgsTo w (QuitMsgs s.Master.Sent) := by
    rw [← MsgsTo_append, ← hinv.order.1]
  obtain ⟨hA, hB⟩ := MsgsTo_tags w s.Master.Sent
  have hsl := hinv.slave w
  rw [hsplit, List.take_append_eq_append_take] at hsl
  obtain ⟨h1, _⟩ := SlaveWork_works_quits T w
    ((MsgsTo w (WorkMsgs s.Master.Sent)).take (s.SlaveTaken w))
    ((MsgsTo w (QuitMsgs s.Master.Sent)).take
      (s.SlaveTaken w - (MsgsTo w (WorkMsgs s.Master.Sent)).length))
    (fun x hx => hA x (List.mem_of_mem_take hx))
    (fun x hx => hB x (List.mem_of_mem_take hx))
  refine ⟨s.SlaveTaken w, ((MsgsTo w (QuitMsgs s.Master.Sent)).take
      (s.SlaveTaken w - (MsgsTo w (WorkMsgs s.Master.Sent)).length)).length, ?_, ?_, ?_, hsplit⟩
  · rw [hsl, h1]
  · intro hq
    apply List.take_of_length_le
    rw [List.length_take] at hq
    omega
  · intro hq hnil
    have : MsgsTo w (QuitMsgs s.Master.Sent) = [] := by rw [hnil]; rfl
    rw [this] at hq
    simp at hq

/-! ## Slot reuse and quit accounting -/

/-- The conditions on `N`, `G` and the group size under which the initial
fill is complete, from the ranges the claims give. -/
theorem fill_conditions (N G CommSize : Int) (hN : 1000 ≤ N) (h2 : 2 ≤ CommSize)
    (h32 : CommSize ≤ 32) (hG : G = if N < 10000 then 10 else 100) :
    ∃ W : Nat, CommSize = (W : Int) + 1 ∧ 1 ≤ W ∧ 1 ≤ G ∧ G ≤ 100 ∧
      (3 * W : Int) * G < N ∧ (3 * W : Int) * G < 2 ^ 63 := by
  obtain ⟨hGc, hG93⟩ := granularity_cases N G hN hG
  refine ⟨(CommSize - 1).toNat, by omega, by omega, by omega, by omega, ?_, ?_⟩
  · rcases hGc with rfl | rfl <;> omega
  · rcases hGc with rfl | rfl <;> omega

/-- C14. Buffer-slot reuse. In every state `s` reached by a run (for
`N ≥ 1000`, the granularity `main` selects and `2 ≤ CommSize ≤ 32`), when the
controller takes the next message `r` of worker `w`, a partial result, and `j`
messages of `w` were received before: those `j` messages are all partial
results (so `r` is the j-th partial result of `w`, counting from 0); the slot
the step reuses is `j mod 3`; `j + 3` messages have been sent to `w`; `r` is
the answer to the j-th of them, a work-available message, and slot
`(w, j mod 3)` still holds the payload of that message; and the step sends
exactly one message, to `w`, message number `j + 3` for `w`, whose payload is
what the step stores in slot `(w, j mod 3)`. With the initial fill (C13),
message number `i` to `w` is thus always sent from slot `i mod 3`, and the
message `r` answers is the last one that was sent from the slot `r` reuses. -/
theorem SystemRun_slot_reuse [Field α] (T : ThreadData α) (N CommSize : Int)
    (sched : List Event) (s s1 : System α) (w : Int) (r : SlaveSend α)
    (hN : 1000 ≤ N) (h2 : 2 ≤ CommSize) (h32 : CommSize ≤ 32)
    (hTN : T.NoOfPoints = N) (hTG : T.Granularity = if N < 10000 then 10 else 100)
    (hC : T.CompletedIndex = 0)
    (hrun : SystemRun CommSize T (SystemInit CommSize T) sched = some s)
    (hr : (s.Slave w).Sent[s.MasterTaken w]? = some r)
    (hrt : r.Tag = SLAVE_TO_MASTER_REQ_WORK)
    (hstep : SystemStep CommSize T s (Event.master w) = some s1) :
    (∀ (i : Nat) (x : SlaveSend α), i < s.MasterTaken w → (s.Slave w).Sent[i]? = some x →
      x.Tag = SLAVE_TO_MASTER_REQ_WORK) ∧
    (GetFreeChunkIndex w s.Master.ChunkIndex).1 = (s.MasterTaken w : Int) % 3 ∧
    (MsgsTo w s.Master.Sent).length = s.MasterTaken w + 3 ∧
    (∃ x : MasterSend, (MsgsTo w s.Master.Sent)[s.MasterTaken w]? = some x ∧
      x.Tag = MASTER_TO_SLAVE_WORK_AVAILABLE ∧
      r = ⟨w, SLAVE_TO_MASTER_REQ_WORK,
        ∑ i ∈ Finset.Ico x.Index.StartIndex x.Index.StopIndex, MidpointTerm T i⟩ ∧
      s.Master.index2D w ((s.MasterTaken w : Int) % 3) = x.Index) ∧
    (∃ y : MasterSend, s1.Master.Sent = s.Master.Sent ++ [y] ∧ y.Dest = w ∧
      (MsgsTo w s1.Master.Sent)[s.MasterTaken w + 3]? = some y ∧
      s1.Master.index2D w ((s.MasterTaken w : Int) % 3) = y.Index) := by
  obtain ⟨W, rfl, hW, hG1, hG100, hk, hov⟩ :=
    fill_conditions N T.Granularity CommSize hN h2 h32 hTG
  obtain ⟨h, fin, hinv⟩ := SysInv_reach T N T.Granularity W hG1 hW (by omega) hTN rfl hC
    hk hov sched s hrun
  obtain ⟨m, hm, hD, hM, ⟨hw1, hw2⟩, _⟩ :=
    SysInv_master _ (by omega) T s s1 h fin w hinv hstep
  rw [hr] at hm
  obtain rfl := Option.some.inj hm
  obtain ⟨hfin, _, _⟩ := hinv.running hD
  subst hfin
  obtain ⟨a1, a2, a3⟩ := hinv.slots w
  have hjlt : s.MasterTaken w < (s.Slave w).Sent.length := (List.getElem?_eq_some_iff.mp hr).1
  have hfrom : (MsgsFrom w h).length = s.MasterTaken w := by
    have := hinv.fromSlave w
    rw [List.append_nil] at this
    rw [this, List.length_take]
    omega
  rw [hfrom, if_pos ⟨hw1, hw2⟩] at a1
  rw [hfrom] at a2
  obtain ⟨t, q, hsent, _, _, hsplit⟩ := Slave_sent _ T s h [] hinv w
  obtain ⟨hA, _⟩ := MsgsTo_tags w s.Master.Sent
  have hne : SLAVE_TO_MASTER_EXITING ≠ SLAVE_TO_MASTER_REQ_WORK := by decide
  -- a message of `w` tagged partial-result at position `i` answers work message `i`
  have hreply : ∀ (i : Nat) (x : SlaveSend α), (s.Slave w).Sent[i]? = some x →
      x.Tag = SLAVE_TO_MASTER_REQ_WORK →
      ∃ y, (MsgsTo w (WorkMsgs s.Master.Sent))[i]? = some y ∧ x = WorkReply T w y := by
    intro i x hx hxt
    rw [hsent] at hx
    by_cases hi : i < (((MsgsTo w (WorkMsgs s.Master.Sent)).take t).map (WorkReply T w)).length
    · rw [List.getElem?_append_left hi, List.getElem?_map] at hx
      obtain ⟨y, hy, rfl⟩ := Option.map_eq_some'.mp hx
      refine ⟨y, ?_, rfl⟩
      rw [List.getElem?_take] at hy
      split at hy
      · exact hy
      · exact absurd hy (by simp)
    · rw [List.getElem?_append_right (by omega)] at hx
      have hmem := List.getElem?_mem hx
      split at hmem
      · rw [List.mem_singleton.mp hmem] at hxt
        exact absurd hxt hne
      · exact absurd hmem (by simp)
  -- positions before a partial result hold partial results
  have hbefore : ∀ (i j : Nat) (x y : SlaveSend α), i < j → (s.Slave w).Sent[i]? = some x →
      (s.Slave w).Sent[j]? = some y → y.Tag = SLAVE_TO_MASTER_REQ_WORK →
      x.Tag = SLAVE_TO_MASTER_REQ_WORK := by
    intro i j x y hij hx hy hyt
    obtain ⟨z, hz, _⟩ := hreply j y hy hyt
    have hjA : j < (MsgsTo w (WorkMsgs s.Master.Sent)).length :=
      (List.getElem?_eq_some_iff.mp hz).1
    rw [hsent] at hx hy
    by_cases hj : j < (((MsgsTo w (WorkMsgs s.Master.Sent)).take t).map (WorkReply T w)).length
    · rw [List.getElem?_append_left (by omega), List.getElem?_map] at hx
      obtain ⟨y1, _, rfl⟩ := Option.map_eq_some'.mp hx
      rfl
    · rw [List.getElem?_append_right (by omega)] at hy
      have hmem := List.getElem?_mem hy
      split at hmem
      · rw [List.mem_singleton.mp hmem] at hyt
        exact absurd hyt hne
      · exact absurd hmem (by simp)
  obtain ⟨x, hx, hrx⟩ := hreply _ r hr hrt
  have hxA : s.MasterTaken w < (MsgsTo w (WorkMsgs s.Master.Sent)).length :=
    (List.getElem?_eq_some_iff.mp hx).1
  have hxL : (MsgsTo w s.Master.Sent)[s.MasterTaken w]? = some x := by
    rw [hsplit, List.getElem?_append_left hxA]
    exact hx
  have hnf : ¬ (r.Tag = SLAVE_TO_MASTER_EXITING ∧
      wrapInt (s.Master.QuitCounter + 1) = (W : Int) + 1 - 1) := by
    rintro ⟨e, _⟩
    rw [hrt] at e
    exact hne e.symm
  have hsrc : r.Source = w := by rw [hrx]; rfl
  refine ⟨fun i y hi hy => hbefore i _ y r hi hy hr hrt, ?_, by omega,
    ⟨x, hxL, hA x (List.getElem?_mem hx), hrx, a3 _ x hxL (by omega)⟩, ?_⟩
  · rw [GetFreeChunkIndex_fst, a2]
  · rw [hM, MasterRecv_handle _ s.Master r hnf, hsrc]
    refine ⟨_, rfl, rfl, ?_, ?_⟩
    · simp only [MsgsTo_append, MsgsTo_single, if_true]
      rw [List.getElem?_append_right (by omega)]
      have : s.MasterTaken w + 3 - (MsgsTo w s.Master.Sent).length = 0 := by omega
      rw [this]
      rfl
    · simp only []
      rw [← a2]
      exact setIndex2D_same _ _ _ _

/-- The controller after any messages none of which is tagged
worker-exiting: it is still in its loop, has handled them all, and its trace
and tables are in order. -/
theorem MasterWork_handled [Field α] (T : ThreadData α) (N G : Int) (W : Nat) (hG : 1 ≤ G)
    (hTN : T.NoOfPoints = N) (hTG : T.Granularity = G) (hC : T.CompletedIndex = 0)
    (hk : (3 * W : Int) * G < N) (hov : (3 * W : Int) * G < 2 ^ 63)
    (msgs : List (SlaveSend α)) (hmsgs : ∀ m ∈ msgs, m.Tag ≠ SLAVE_TO_MASTER_EXITING) :
    (MasterWork ((W : Int) + 1) T msgs).Done = false ∧
    OrderInv (MasterWork ((W : Int) + 1) T msgs) ∧
    SlotInv ((W : Int) + 1) (MasterWork ((W : Int) + 1) T msgs) msgs := by
  induction msgs using List.reverseRecOn with
  | nil =>
    refine ⟨?_, OrderInv_init T N G W hG hTN hTG hC hk hov,
      SlotInv_init T N G W hG hTN hTG hC hk hov⟩
    show (InitialFill ((W : Int) + 1) (MasterInit T)).Done = false
    rw [(InitialFill_frame _ (MasterInit T)).2.1]
    rfl
  | append_singleton ms m ih =>
    obtain ⟨i1, i2, i3⟩ := ih (fun x hx => hmsgs x (List.mem_append_left _ hx))
    have hstep : MasterWork ((W : Int) + 1) T (ms ++ [m]) =
        MasterRecv ((W : Int) + 1) (MasterWork ((W : Int) + 1) T ms) m := by
      unfold MasterWork at i1 ⊢
      rw [MasterLoop_append, MasterLoop_single _ _ _ i1]
    have hnf : ¬ (m.Tag = SLAVE_TO_MASTER_EXITING ∧
        wrapInt ((MasterWork ((W : Int) + 1) T ms).QuitCounter + 1) = (W : Int) + 1 - 1) :=
      fun e => hmsgs m (List.mem_append_right _ (List.mem_singleton_self m)) e.1
    rw [hstep]
    refine ⟨?_, OrderInv_handle _ _ m hnf i2, SlotInv_handle _ _ m ms hnf i3⟩
    rw [MasterRecv_handle _ _ m hnf]
    exact i1

/-- In a trace whose work messages all come before its quits, what follows
a quit is a quit. -/
theorem after_quit (l : List MasterSend) (hl : l = WorkMsgs l ++ QuitMsgs l)
    (pre post : List MasterSend) (x : MasterSend) (hx : l = pre ++ x :: post)
    (hq : x.Tag = MASTER_TO_SLAVE_QUIT) : ∀ y ∈ post, y.Tag = MASTER_TO_SLAVE_QUIT := by
  have hW : ∀ y ∈ WorkMsgs l, y.Tag = MASTER_TO_SLAVE_WORK_AVAILABLE := by
    intro y hy
    simpa using (List.mem_filter.mp hy).2
  have hQ : ∀ y ∈ QuitMsgs l, y.Tag = MASTER_TO_SLAVE_QUIT := by
    intro y hy
    simpa using (List.mem_filter.mp hy).2
  have hne : MASTER_TO_SLAVE_QUIT ≠ MASTER_TO_SLAVE_WORK_AVAILABLE := by decide
  have heq : pre ++ x :: post = WorkMsgs l ++ QuitMsgs l := by rw [← hx, ← hl]
  rcases List.append_eq_append_iff.mp heq with ⟨a, ha, hb⟩ | ⟨c, hc, hd⟩
  · -- `WorkMsgs l = pre ++ a`, `x :: post = a ++ QuitMsgs l`
    cases a with
    | nil =>
      simp only [List.nil_append] at hb
      intro y hy
      exact hQ y (by rw [← hb]; exact List.mem_cons_of_mem _ hy)
    | cons a0 as =>
      simp only [List.cons_append, List.cons.injEq] at hb
      have : x ∈ WorkMsgs l := by
        rw [ha, hb.1]
        exact List.mem_append_right _ (List.mem_cons_self _ _)
      rw [hW x this] at hq
      exact absurd hq.symm hne
  · intro y hy
    exact hQ y (by rw [hd]; exact List.mem_append_right _ (List.mem_cons_of_mem _ hy))

/-- C16. Quit accounting of `MasterWork`. For `N ≥ 1000` with the granularity
`main` selects and `2 ≤ CommSize ≤ 32`, after the initial fill and any
sequence of partial-result messages `msgs`, for every worker `w`: the number
of work-available messages plus the number of quit messages sent to `w` is 3
plus the number of partial results received from `w`; in the trace of sends
every message after a quit is a quit (no later dispatch is a work message),
and a quit is only there once the generator is exhausted; hence, when as many
partial results have been received from `w` as work messages were sent to it,
exactly 3 quits have been sent to `w`. -/
theorem MasterWork_quit_accounting [Field α] (T : ThreadData α) (N CommSize : Int)
    (msgs : List (SlaveSend α))
    (hN : 1000 ≤ N) (h2 : 2 ≤ CommSize) (h32 : CommSize ≤ 32)
    (hTN : T.NoOfPoints = N) (hTG : T.Granularity = if N < 10000 then 10 else 100)
    (hC : T.CompletedIndex = 0)
    (hmsgs : ∀ m ∈ msgs, m.Tag = SLAVE_TO_MASTER_REQ_WORK) :
    (∀ w : Int, 1 ≤ w → w < CommSize →
      (MsgsTo w (WorkMsgs (MasterWork CommSize T msgs).Sent)).length +
          (MsgsTo w (QuitMsgs (MasterWork CommSize T msgs).Sent)).length =
        3 + (MsgsFrom w msgs).length) ∧
    (∀ (pre post : List MasterSend) (x : MasterSend),
      (MasterWork CommSize T msgs).Sent = pre ++ x :: post → x.Tag = MASTER_TO_SLAVE_QUIT →
      ∀ y ∈ post, y.Tag = MASTER_TO_SLAVE_QUIT) ∧
    ((∃ x ∈ (MasterWork CommSize T msgs).Sent, x.Tag = MASTER_TO_SLAVE_QUIT) →
      IsLoopDone (MasterWork CommSize T msgs).ThreadInfo = true) ∧
    (∀ x ∈ (MasterWork CommSize T msgs).Sent,
      x.Tag = MASTER_TO_SLAVE_WORK_AVAILABLE ∨ x.Tag = MASTER_TO_SLAVE_QUIT) ∧
    (∀ w : Int, 1 ≤ w → w < CommSize →
      (MsgsTo w (WorkMsgs (MasterWork CommSize T msgs).Sent)).length =
        (MsgsFrom w msgs).length →
      (MsgsTo w (QuitMsgs (MasterWork CommSize T msgs).Sent)).length = 3) := by
  obtain ⟨W, rfl, hW, hG1, hG100, hk, hov⟩ :=
    fill_conditions N T.Granularity CommSize hN h2 h32 hTG
  have hne : SLAVE_TO_MASTER_REQ_WORK ≠ SLAVE_TO_MASTER_EXITING := by decide
  obtain ⟨_, hord, hslot⟩ := MasterWork_handled T N T.Granularity W hG1 hTN rfl hC hk hov msgs
    (fun m hm => by rw [hmsgs m hm]; exact hne)
  have hcount : ∀ w : Int, 1 ≤ w → w < (W : Int) + 1 →
      (MsgsTo w (WorkMsgs (MasterWork ((W : Int) + 1) T msgs).Sent)).length +
          (MsgsTo w (QuitMsgs (MasterWork ((W : Int) + 1) T msgs).Sent)).length =
        3 + (MsgsFrom w msgs).length := by
    intro w hw1 hw2
    have h1 := (hslot w).1
    rw [if_pos ⟨hw1, hw2⟩] at h1
    rw [← h1, ← List.length_append, ← MsgsTo_append, ← hord.1]
  have hmem : ∀ x ∈ (MasterWork ((W : Int) + 1) T msgs).Sent,
      x.Tag = MASTER_TO_SLAVE_WORK_AVAILABLE ∨ x.Tag = MASTER_TO_SLAVE_QUIT := by
    intro x hx
    rw [hord.1] at hx
    rcases List.mem_append.mp hx with h | h
    · left; simpa using (List.mem_filter.mp h).2
    · right; simpa using (List.mem_filter.mp h).2
  refine ⟨hcount, fun pre post x hx hq => after_quit _ hord.1 pre post x hx hq, ?_, hmem, ?_⟩
  · rintro ⟨x, hx, hq⟩
    apply hord.2
    intro hnil
    have : x ∈ QuitMsgs (MasterWork ((W : Int) + 1) T msgs).Sent :=
      List.mem_filter.mpr ⟨hx, by simpa using hq⟩
    rw [hnil] at this
    exact absurd this (by simp)
  · intro w hw1 hw2 heq
    have := hcount w hw1 hw2
    omega

/-! ## Complete runs -/

/-- A worker-exiting message among those the controller has received was
sent by a worker that took three quits: the generator is exhausted. -/
theorem quits_of_exit [Field α] (CommSize : Int) (T : ThreadData α) (s : System α)
    (h fin : List (SlaveSend α)) (hinv : SysInv CommSize T s h fin) (x : SlaveSend α)
    (hx : x ∈ h ++ fin) (hxt : x.Tag = SLAVE_TO_MASTER_EXITING) :
    QuitMsgs s.Master.Sent ≠ [] := by
  have h1 : x ∈ MsgsFrom x.Source (h ++ fin) := List.mem_filter.mpr ⟨hx, by simp⟩
  rw [hinv.fromSlave x.Source] at h1
  have h2 : x ∈ (s.Slave x.Source).Sent := List.mem_of_mem_take h1
  obtain ⟨t, q, hsent, _, hq, _⟩ := Slave_sent CommSize T s h fin hinv x.Source
  rw [hsent] at h2
  have hne : SLAVE_TO_MASTER_REQ_WORK ≠ SLAVE_TO_MASTER_EXITING := by decide
  rcases List.mem_append.mp h2 with h3 | h3
  · obtain ⟨y, _, hy⟩ := List.mem_map.mp h3
    rw [← hy] at hxt
    exact absurd hxt hne
  · split at h3
    · exact hq (by omega)
    · exact absurd h3 (by simp)

theorem exhausted_of_done [Field α] (CommSize : Int) (T : ThreadData α) (s : System α)
    (h fin : List (SlaveSend α)) (hinv : SysInv CommSize T s h fin)
    (hd : s.Master.Done = true) : IsLoopDone s.Master.ThreadInfo = true := by
  obtain ⟨m, hfin, hmt, _⟩ := hinv.finished hd
  apply hinv.order.2
  exact quits_of_exit CommSize T s h fin hinv m (by rw [hfin]; simp) hmt

/-- Once the generator is exhausted, as many work messages have been sent as
there are chunks. -/
theorem work_count_of_exhausted (N G : Int) (k : Nat) (st : MasterState α) (hN : 0 ≤ N)
    (hG : 1 ≤ G) (hk : 1 ≤ k) (hg : GenInv N G k st)
    (hd : IsLoopDone st.ThreadInfo = true) :
    (WorkMsgs st.Sent).length = chunkCount N G := by
  obtain ⟨g, hkn, hlt, _⟩ := hg
  have h1 : ¬ ((WorkMsgs st.Sent).length < chunkCount N G) := by
    rw [lt_chunkCount_iff N G hN hG]
    intro hc
    have := (GenAt_done_iff N G _ _ g).mpr hc
    rw [hd] at this
    exact absurd this (by simp)
  have h2 : (WorkMsgs st.Sent).length - 1 < chunkCount N G := by
    rw [lt_chunkCount_iff N G hN hG]
    have : (((WorkMsgs st.Sent).length - 1 : Nat) : Int) =
        ((WorkMsgs st.Sent).length : Int) - 1 := by omega
    rw [this]
    exact hlt
  omega

theorem chunkOf_inj (N G : Int) (hG : 1 ≤ G) (a b : Nat) (h : chunkOf N G a = chunkOf N G b) :
    a = b := by
  have h1 : (a : Int) * G = (b : Int) * G := congrArg IndexSt.StartIndex h
  have h2 : (a : Int) = b := by
    have hG0 : G ≠ 0 := by omega
    exact mul_right_cancel₀ hG0 h1
  exact_mod_cast h2

theorem PayloadAt_eq (N G : Int) (k j : Nat) (hk : 1 ≤ k) :
    PayloadAt N G k j =
      if j < k then ⟨(j : Int) * G, min (((j : Int) + 1) * G) N⟩
      else ⟨((j : Int) - 1) * G, min ((j : Int) * G) N⟩ := by
  unfold PayloadAt chunkOf
  by_cases h : j < k
  · simp only [h, if_true]
  · simp only [h, if_false]
    have : ((j - 1 : Nat) : Int) = (j : Int) - 1 := by omega
    rw [this, sub_add_cancel]

/-- C15. The sequence of dispatched chunks. For `N ≥ 1000` with the
granularity `G` `main` selects (and `N + G` in the range of `long`) and
`2 ≤ CommSize ≤ 32`, with `k = 3 * (CommSize - 1)`, `m = ceil (N / G)` and
`c_j = [j*G, min ((j+1)*G) N)`: in every complete run (the controller has
left its loop) the payloads of the work-available messages are, in emission
order, `c_0, ..., c_(k-1), c_(k-1), c_k, ..., c_(m-2)`; so exactly `m` work
messages are sent, `k < m`, the chunk `c_(k-1)` is sent twice (as message
`k - 1` and as message `k`, and as no other), and the final chunk `c_(m-1)` is
never sent as work. -/
theorem SystemRun_work_payloads [Field α] (T : ThreadData α) (N CommSize : Int)
    (sched : List Event) (s : System α)
    (hN : 1000 ≤ N) (h2 : 2 ≤ CommSize) (h32 : CommSize ≤ 32)
    (hTN : T.NoOfPoints = N) (hTG : T.Granularity = if N < 10000 then 10 else 100)
    (hC : T.CompletedIndex = 0) (hov : N + T.Granularity < 2 ^ 63)
    (hrun : SystemRun CommSize T (SystemInit CommSize T) sched = some s)
    (hdone : s.Master.Done = true) :
    (WorkMsgs s.Master.Sent).map (fun x => x.Index) =
      (List.range (chunkCount N T.Granularity)).map (fun j : Nat =>
        if j < 3 * (CommSize - 1).toNat then
          (⟨(j : Int) * T.Granularity, min (((j : Int) + 1) * T.Granularity) N⟩ : IndexSt)
        else ⟨((j : Int) - 1) * T.Granularity, min ((j : Int) * T.Granularity) N⟩) ∧
    (WorkMsgs s.Master.Sent).length = chunkCount N T.Granularity ∧
    (N ≤ (chunkCount N T.Granularity : Int) * T.Granularity ∧
      (chunkCount N T.Granularity : Int) * T.Granularity < N + T.Granularity) ∧
    3 * (CommSize - 1).toNat < chunkCount N T.Granularity ∧
    (∀ (j : Nat) (x : MasterSend), (WorkMsgs s.Master.Sent)[j]? = some x →
      (x.Index = ⟨((3 * (CommSize - 1).toNat : Nat) - 1 : Int) * T.Granularity,
          ((3 * (CommSize - 1).toNat : Nat) : Int) * T.Granularity⟩ ↔
        j = 3 * (CommSize - 1).toNat - 1 ∨ j = 3 * (CommSize - 1).toNat)) ∧
    (∀ x ∈ WorkMsgs s.Master.Sent,
      x.Index ≠ ⟨((chunkCount N T.Granularity : Int) - 1) * T.Granularity, N⟩) := by
  obtain ⟨W, rfl, hW, hG1, hG100, hk, hov0⟩ :=
    fill_conditions N T.Granularity CommSize hN h2 h32 hTG
  generalize hGdef : T.Granularity = G at *
  have hWn : ((W : Int) + 1 - 1).toNat = W := by omega
  rw [hWn]
  obtain ⟨h, fin, hinv⟩ := SysInv_reach T N G W hG1 hW (by omega) hTN hGdef hC
    hk hov0 sched s hrun
  have hgen := GenInv_reach T N G W hG1 hW (by omega) hTN hGdef hC hk hov sched s hrun
  have hex := exhausted_of_done _ T s h fin hinv hdone
  have hN0 : 0 ≤ N := by omega
  have hcount := work_count_of_exhausted N G (3 * W) s.Master hN0 hG1 (by omega) hgen hex
  obtain ⟨_, _, _, hpay⟩ := hgen
  rw [hcount] at hpay
  have hkm : 3 * W < chunkCount N G := by
    rw [lt_chunkCount_iff N G hN0 hG1]
    push_cast
    exact hk
  have hceil := chunkCount_ceil N G hN0 hG1
  have hpay' : (WorkMsgs s.Master.Sent).map (fun x => x.Index) =
      (List.range (chunkCount N G)).map (fun j : Nat =>
        if j < 3 * W then (⟨(j : Int) * G, min (((j : Int) + 1) * G) N⟩ : IndexSt)
        else ⟨((j : Int) - 1) * G, min ((j : Int) * G) N⟩) := by
    rw [hpay]
    apply List.map_congr_left
    intro j _
    exact PayloadAt_eq N G (3 * W) j (by omega)
  -- the payload of the j-th work message
  have hget : ∀ (j : Nat) (x : MasterSend), (WorkMsgs s.Master.Sent)[j]? = some x →
      j < chunkCount N G ∧ x.Index = PayloadAt N G (3 * W) j := by
    intro j x hx
    have hj : j < chunkCount N G := by
      rw [← hcount]; exact (List.getElem?_eq_some_iff.mp hx).1
    have h1 : ((WorkMsgs s.Master.Sent).map (fun x => x.Index))[j]? = some x.Index := by
      rw [List.getElem?_map, hx]; rfl
    rw [hpay, List.getElem?_map, List.getElem?_range hj] at h1
    exact ⟨hj, (Option.some.inj h1).symm⟩
  have hck : chunkOf N G (3 * W - 1) =
      ⟨((3 * W : Nat) - 1 : Int) * G, ((3 * W : Nat) : Int) * G⟩ := by
    have e : ((3 * W - 1 : Nat) : Int) = ((3 * W : Nat) : Int) - 1 := by omega
    simp only [chunkOf, e, sub_add_cancel]
    rw [min_eq_left (by push_cast; omega)]
  have hclast : chunkOf N G (chunkCount N G - 1) =
      ⟨((chunkCount N G : Int) - 1) * G, N⟩ := by
    have e : ((chunkCount N G - 1 : Nat) : Int) = (chunkCount N G : Int) - 1 := by omega
    simp only [chunkOf, e, sub_add_cancel]
    rw [min_eq_right hceil.1]
  refine ⟨hpay', hcount, hceil, hkm, ?_, ?_⟩
  · intro j x hx
    obtain ⟨hj, hxi⟩ := hget j x hx
    rw [hxi, ← hck]
    unfold PayloadAt
    constructor
    · intro he
      split at he
      · have := chunkOf_inj N G hG1 _ _ he; omega
      · have := chunkOf_inj N G hG1 _ _ he; omega
    · rintro (rfl | rfl)
      · rw [if_pos (by omega)]
      · rw [if_neg (by omega)]
  · intro x hx
    obtain ⟨j, hj, hxj⟩ := List.getElem_of_mem hx
    have hx' : (WorkMsgs s.Master.Sent)[j]? = some x := by
      rw [List.getElem?_eq_getElem hj, hxj]
    obtain ⟨hjm, hxi⟩ := hget j x hx'
    rw [hxi, ← hclast]
    unfold PayloadAt
    intro he
    split at he
    · have := chunkOf_inj N G hG1 _ _ he; omega
    · have := chunkOf_inj N G hG1 _ _ he; omega

/-! ## The accumulator of a complete run -/

/-- A sum over a list, split by an integer key with values in `[1, C)`. -/
theorem sum_by_key {γ β : Type} [AddCommMonoid β] (key : γ → Int) (C : Int) (f : γ → β)
    (l : List γ) (hl : ∀ x ∈ l, 1 ≤ key x ∧ key x < C) :
    (l.map f).sum =
      ∑ w ∈ Finset.Ico (1 : Int) C, ((l.filter (fun x => key x = w)).map f).sum := by
  induction l with
  | nil => simp
  | cons x xs ih =>
    have ih1 := ih (fun y hy => hl y (List.mem_cons_of_mem _ hy))
    have hx := hl x (List.mem_cons_self _ _)
    have hterm : ∀ w : Int, (((x :: xs).filter (fun x => key x = w)).map f).sum =
        (if key x = w then f x else 0) + ((xs.filter (fun x => key x = w)).map f).sum := by
      intro w
      by_cases h : key x = w <;> simp [List.filter_cons, h]
    simp only [hterm, Finset.sum_add_distrib, Finset.sum_ite_eq, Finset.mem_Ico, hx, and_self,
      if_true, List.map_cons, List.sum_cons, ih1]

theorem ExitCount_eq_sum (l : List (SlaveSend α)) :
    ExitCount l = (l.map (fun x => if x.Tag = SLAVE_TO_MASTER_EXITING then 1 else 0)).sum := by
  induction l with
  | nil => rfl
  | cons x xs ih =>
    have : ExitCount (x :: xs) = (if x.Tag = SLAVE_TO_MASTER_EXITING then 1 else 0) +
        ExitCount xs := by
      rw [show x :: xs = [x] ++ xs from rfl, ExitCount_append, ExitCount_single]
    rw [this, ih, List.map_cons, List.sum_cons]

/-- If numbers that are at most 1 add up to the number of terms, each is 1. -/
theorem all_one_of_sum (S : Finset Int) (c : Int → Nat) (hle : ∀ w ∈ S, c w ≤ 1)
    (hsum : ∑ w ∈ S, c w = S.card) : ∀ w ∈ S, c w = 1 := by
  by_contra hne
  push_neg at hne
  obtain ⟨w0, hw0, hc⟩ := hne
  have hlt : ∑ w ∈ S, c w < ∑ _w ∈ S, 1 :=
    Finset.sum_lt_sum hle ⟨w0, hw0, by have := hle w0 hw0; omega⟩
  rw [Finset.sum_const, smul_eq_mul, mul_one] at hlt
  omega

theorem ExitCount_replies [Field α] (T : ThreadData α) (w : Int) (l : List MasterSend) :
    ExitCount (l.map (WorkReply T w)) = 0 := by
  apply List.countP_eq_zero.mpr
  intro x hx
  obtain ⟨y, _, rfl⟩ := List.mem_map.mp hx
  simp [WorkReply, SLAVE_TO_MASTER_REQ_WORK, SLAVE_TO_MASTER_EXITING]

/-- In a complete run, the controller has received from every worker all its
partial results, one per work message sent to it, and then its exit message. -/
theorem received_of_done [Field α] (T : ThreadData α) (W : Nat) (s : System α)
    (h : List (SlaveSend α)) (m0 : SlaveSend α)
    (hinv : SysInv ((W : Int) + 1) T s h [m0]) (hm0t : m0.Tag = SLAVE_TO_MASTER_EXITING)
    (hcnt : (ExitCount h : Int) + 1 = (W : Int) + 1 - 1) :
    (∀ x ∈ h ++ [m0], 1 ≤ x.Source ∧ x.Source < (W : Int) + 1) ∧
    ∀ w ∈ Finset.Ico (1 : Int) ((W : Int) + 1),
      MsgsFrom w (h ++ [m0]) =
        (MsgsTo w (WorkMsgs s.Master.Sent)).map (WorkReply T w) ++
          [⟨w, SLAVE_TO_MASTER_EXITING, 0⟩] := by
  have hsrc : ∀ x ∈ h ++ [m0], 1 ≤ x.Source ∧ x.Source < (W : Int) + 1 := by
    intro x hx
    by_contra hout
    have h1 : x ∈ MsgsFrom x.Source (h ++ [m0]) := List.mem_filter.mpr ⟨hx, by simp⟩
    rw [hinv.fromSlave x.Source, hinv.outside _ hout] at h1
    simp at h1
  have hle : ∀ w ∈ Finset.Ico (1 : Int) ((W : Int) + 1), ExitCount (MsgsFrom w (h ++ [m0])) ≤ 1 := by
    intro w _
    obtain ⟨t, q, hsent, _, _, _⟩ := Slave_sent _ T s h [m0] hinv w
    rw [hinv.fromSlave w]
    calc ExitCount ((s.Slave w).Sent.take (s.MasterTaken w))
        ≤ ExitCount (s.Slave w).Sent := List.Sublist.countP_le _ (List.take_sublist _ _)
      _ ≤ 1 := by
        rw [hsent, ExitCount_append, ExitCount_replies]
        split
        · rw [ExitCount_single]; simp
        · simp [ExitCount]
  have hsum : ∑ w ∈ Finset.Ico (1 : Int) ((W : Int) + 1), ExitCount (MsgsFrom w (h ++ [m0])) =
      (Finset.Ico (1 : Int) ((W : Int) + 1)).card := by
    have h1 := sum_by_key (fun x : SlaveSend α => x.Source) ((W : Int) + 1)
      (fun x => if x.Tag = SLAVE_TO_MASTER_EXITING then 1 else 0) (h ++ [m0]) hsrc
    rw [← ExitCount_eq_sum] at h1
    have h2 : ∀ w : Int, ExitCount (MsgsFrom w (h ++ [m0])) =
        (((h ++ [m0]).filter (fun x => x.Source = w)).map
          (fun x => if x.Tag = SLAVE_TO_MASTER_EXITING then 1 else 0)).sum :=
      fun w => ExitCount_eq_sum _
    simp only [h2]
    rw [← h1, ExitCount_append, ExitCount_single, Int.card_Ico]
    rw [if_pos hm0t]
    omega
  have hone := all_one_of_sum _ _ hle hsum
  refine ⟨hsrc, ?_⟩
  intro w hw
  obtain ⟨t, q, hsent, htake, _, _⟩ := Slave_sent _ T s h [m0] hinv w
  have h1 := hone w hw
  rw [hinv.fromSlave w] at h1 ⊢
  have hq : 3 ≤ q := by
    by_contra hq
    rw [hsent, if_neg hq, List.append_nil] at h1
    have : ExitCount (List.take (s.MasterTaken w)
        (((MsgsTo w (WorkMsgs s.Master.Sent)).take t).map (WorkReply T w))) = 0 := by
      rw [← List.map_take]
      exact ExitCount_replies T w _
    omega
  rw [if_pos hq, htake (by omega)] at hsent
  rw [hsent] at h1 ⊢
  by_cases hj : s.MasterTaken w ≤ ((MsgsTo w (WorkMsgs s.Master.Sent)).map (WorkReply T w)).length
  · rw [List.take_append_of_le_length hj, ← List.map_take, ExitCount_replies] at h1
    omega
  · apply List.take_of_length_le
    rw [List.length_append, List.length_singleton]
    omega

/-- The accumulator at the end of a complete run: the midpoint sums of the
payloads of the work messages, in the order of their emission. -/
theorem final_sum [Field α] (T : ThreadData α) (N G : Int) (W : Nat) (s : System α)
    (h fin : List (SlaveSend α)) (hN : 0 ≤ N) (hG : 1 ≤ G) (hW : 1 ≤ W)
    (hinv : SysInv ((W : Int) + 1) T s h fin) (hgen : GenInv N G (3 * W) s.Master)
    (hd : s.Master.Done = true) :
    s.Master.IntegralOutput =
      ((List.range (chunkCount N G)).map
        (fun j => ChunkSum T (PayloadAt N G (3 * W) j))).sum := by
  obtain ⟨m0, hfin, hm0t, hcnt⟩ := hinv.finished hd
  subst hfin
  obtain ⟨hsrc, hrecv⟩ := received_of_done T W s h m0 hinv hm0t hcnt
  have hex := exhausted_of_done _ T s h [m0] hinv hd
  have hcount := work_count_of_exhausted N G (3 * W) s.Master hN hG (by omega) hgen hex
  obtain ⟨_, _, _, hpay⟩ := hgen
  rw [hcount] at hpay
  -- the exit message carries 0
  have hm0v : m0.Value = 0 := by
    have hm0 : m0 ∈ h ++ [m0] := by simp
    have hw := hsrc m0 hm0
    have h1 : m0 ∈ MsgsFrom m0.Source (h ++ [m0]) := List.mem_filter.mpr ⟨hm0, by simp⟩
    rw [hrecv m0.Source (Finset.mem_Ico.mpr hw)] at h1
    have hne : SLAVE_TO_MASTER_REQ_WORK ≠ SLAVE_TO_MASTER_EXITING := by decide
    rcases List.mem_append.mp h1 with h2 | h2
    · obtain ⟨y, _, hy⟩ := List.mem_map.mp h2
      rw [← hy] at hm0t
      exact absurd hm0t hne
    · rw [List.mem_singleton.mp h2]
  -- every message of the controller goes to a worker
  have hdest : ∀ x ∈ WorkMsgs s.Master.Sent, 1 ≤ x.Dest ∧ x.Dest < (W : Int) + 1 := by
    intro x hx
    by_contra hout
    have h1 := (hinv.slots x.Dest).1
    rw [if_neg hout, Nat.zero_add] at h1
    have h2 := hinv.fromSlave x.Dest
    rw [hinv.outside _ hout, List.take_zero, MsgsFrom_append] at h2
    have h3 : MsgsFrom x.Dest h = [] := (List.append_eq_nil.mp h2).1
    rw [h3, List.length_nil] at h1
    have h4 : x ∈ MsgsTo x.Dest s.Master.Sent :=
      List.mem_filter.mpr ⟨(List.mem_filter.mp hx).1, by simp⟩
    rw [List.length_eq_zero.mp h1] at h4
    simp at h4
  have hval : ∀ w ∈ Finset.Ico (1 : Int) ((W : Int) + 1),
      (((h ++ [m0]).filter (fun x => x.Source = w)).map (fun x => x.Value)).sum =
        (((WorkMsgs s.Master.Sent).filter (fun x => x.Dest = w)).map
          (fun x => ChunkSum T x.Index)).sum := by
    intro w hw
    have := hrecv w hw
    unfold MsgsFrom at this
    rw [this, List.map_append, List.sum_append, List.map_map]
    simp only [List.map_cons, List.map_nil, List.sum_cons, List.sum_nil, add_zero]
    rfl
  have hsum1 : s.Master.IntegralOutput = ((h ++ [m0]).map (fun x => x.Value)).sum := by
    rw [hinv.sum, List.map_append, List.sum_append]
    simp [hm0v]
  rw [hsum1, sum_by_key (fun x : SlaveSend α => x.Source) ((W : Int) + 1) _ _ hsrc,
    Finset.sum_congr rfl hval,
    ← sum_by_key (fun x : MasterSend => x.Dest) ((W : Int) + 1) _ _ hdest]
  have : (WorkMsgs s.Master.Sent).map (fun x => ChunkSum T x.Index) =
      ((WorkMsgs s.Master.Sent).map (fun x => x.Index)).map (ChunkSum T) := by
    rw [List.map_map]; rfl
  rw [this, hpay, List.map_map]
  rfl

/-- The midpoint sum of a chunk of 10 points, for the constant integrand 1 on
`[0, 10]` with 1000 points. -/
theorem ChunkSum_const [Field α] [CharZero α] (Intensity : Int) (x : IndexSt)
    (hx : x.StopIndex = x.StartIndex + 10) :
    ChunkSum (ConstData Intensity : ThreadData α) x = 1 / 10 := by
  unfold ChunkSum MidpointTerm
  simp only [ConstData, one_mul, sub_zero, Finset.sum_const, Int.card_Ico, hx]
  have : (x.StartIndex + 10 - x.StartIndex).toNat = 10 := by omega
  rw [this]
  norm_num

theorem PayloadAt_length (k j : Nat) (hk : 1 ≤ k) (hj : j < 100) :
    (PayloadAt 1000 10 k j).StopIndex = (PayloadAt 1000 10 k j).StartIndex + 10 := by
  rw [PayloadAt_eq 1000 10 k j hk]
  split
  · simp only []
    rw [min_eq_left (by omega)]
    ring
  · simp only []
    rw [min_eq_left (by omega)]
    ring

/-! ## Progress: a run can always be continued until the controller is done -/

/-- A worker that has taken every message sent to it. -/
theorem Slave_all_taken [Field α] (CommSize : Int) (T : ThreadData α) (s : System α)
    (h fin : List (SlaveSend α)) (hinv : SysInv CommSize T s h fin) (w : Int)
    (hall : s.SlaveTaken w = (MsgsTo w s.Master.Sent).length) :
    (s.Slave w).Sent =
      (MsgsTo w (WorkMsgs s.Master.Sent)).map (WorkReply T w) ++
        (if 3 ≤ (MsgsTo w (QuitMsgs s.Master.Sent)).length then
          [⟨w, SLAVE_TO_MASTER_EXITING, 0⟩] else []) ∧
    ((s.Slave w).Done = true ↔ 3 ≤ (MsgsTo w (QuitMsgs s.Master.Sent)).length) ∧
    (MsgsTo w s.Master.Sent).length =
      (MsgsTo w (WorkMsgs s.Master.Sent)).length +
        (MsgsTo w (QuitMsgs s.Master.Sent)).length := by
  have hsplit : MsgsTo w s.Master.Sent =
      MsgsTo w (WorkMsgs s.Master.Sent) ++ MsgsTo w (QuitMsgs s.Master.Sent) := by
    rw [← MsgsTo_append, ← hinv.order.1]
  obtain ⟨hA, hB⟩ := MsgsTo_tags w s.Master.Sent
  have hsl := hinv.slave w
  rw [hall, List.take_length, hsplit] at hsl
  obtain ⟨h1, h2⟩ := SlaveWork_works_quits T w _ _ hA hB
  rw [← hsl] at h1 h2
  exact ⟨h1, h2, by rw [hsplit, List.length_append]⟩

/-- A worker that has left its loop has sent its exit message. -/
theorem Slave_done_sent [Field α] (CommSize : Int) (T : ThreadData α) (s : System α)
    (h fin : List (SlaveSend α)) (hinv : SysInv CommSize T s h fin) (w : Int)
    (hd : (s.Slave w).Done = true) :
    (⟨w, SLAVE_TO_MASTER_EXITING, 0⟩ : SlaveSend α) ∈ (s.Slave w).Sent := by
  have hsplit : MsgsTo w s.Master.Sent =
      MsgsTo w (WorkMsgs s.Master.Sent) ++ MsgsTo w (QuitMsgs s.Master.Sent) := by
    rw [← MsgsTo_append, ← hinv.order.1]
  obtain ⟨hA, hB⟩ := MsgsTo_tags w s.Master.Sent
  have hsl := hinv.slave w
  rw [hsplit, List.take_append_eq_append_take] at hsl
  obtain ⟨h1, h2⟩ := SlaveWork_works_quits T w
    ((MsgsTo w (WorkMsgs s.Master.Sent)).take (s.SlaveTaken w))
    ((MsgsTo w (QuitMsgs s.Master.Sent)).take
      (s.SlaveTaken w - (MsgsTo w (WorkMsgs s.Master.Sent)).length))
    (fun x hx => hA x (List.mem_of_mem_take hx))
    (fun x hx => hB x (List.mem_of_mem_take hx))
  rw [← hsl] at h1 h2
  rw [h1, if_pos (h2.mp hd)]
  exact List.mem_append_right _ (List.mem_singleton_self _)

/-- The messages the controller has taken come from workers. -/
theorem received_sources [Field α] (CommSize : Int) (T : ThreadData α) (s : System α)
    (h fin : List (SlaveSend α)) (hinv : SysInv CommSize T s h fin) :
    ∀ x ∈ h ++ fin, 1 ≤ x.Source ∧ x.Source < CommSize := by
  intro x hx
  by_contra hout
  have h1 : x ∈ MsgsFrom x.Source (h ++ fin) := List.mem_filter.mpr ⟨hx, by simp⟩
  rw [hinv.fromSlave x.Source, hinv.outside _ hout] at h1
  simp at h1

/-- Progress. In a reached state in which the controller is still in its
loop, some process has a message to take. -/
theorem SysInv_progress [Field α] (T : ThreadData α) (W : Nat) (s : System α)
    (h fin : List (SlaveSend α)) (hinv : SysInv ((W : Int) + 1) T s h fin)
    (hD : s.Master.Done = false) :
    ∃ (e : Event) (s1 : System α), SystemStep ((W : Int) + 1) T s e = some s1 := by
  obtain ⟨hfin, hqc, hqlt⟩ := hinv.running hD
  subst hfin
  by_cases hA : ∃ w : Int, 1 ≤ w ∧ w < (W : Int) + 1 ∧
      s.MasterTaken w < (s.Slave w).Sent.length
  · obtain ⟨w, h1, h2, hlt⟩ := hA
    refine ⟨Event.master w, Option.isSome_iff_exists.mp ?_⟩
    simp only [SystemStep]
    rw [if_pos ⟨h1, h2, hD⟩, List.getElem?_eq_getElem hlt]
    rfl
  · by_cases hB : ∃ w : Int, 1 ≤ w ∧ w < (W : Int) + 1 ∧ (s.Slave w).Done = false ∧
        s.SlaveTaken w < (MsgsTo w s.Master.Sent).length
    · obtain ⟨w, h1, h2, hdw, hlt⟩ := hB
      refine ⟨Event.slave w, Option.isSome_iff_exists.mp ?_⟩
      have hlt' : s.SlaveTaken w <
          (List.filter (fun m => decide (m.Dest = w)) s.Master.Sent).length := hlt
      simp only [SystemStep]
      rw [if_pos ⟨h1, h2, hdw⟩, List.getElem?_eq_getElem hlt']
      rfl
    · exfalso
      push_neg at hA hB
      have hsrc := received_sources _ T s h [] hinv
      rw [List.append_nil] at hsrc
      -- every worker has sent its exit message and the controller has taken it
      have hexit : ∀ w ∈ Finset.Ico (1 : Int) ((W : Int) + 1),
          1 ≤ ExitCount (MsgsFrom w h) := by
        intro w hw
        obtain ⟨h1, h2⟩ := Finset.mem_Ico.mp hw
        have hall : s.MasterTaken w = (s.Slave w).Sent.length :=
          le_antisymm (hinv.masterTaken w) (hA w h1 h2)
        have hfrom : MsgsFrom w h = (s.Slave w).Sent := by
          have := hinv.fromSlave w
          rw [List.append_nil, hall, List.take_length] at this
          exact this
        have hdone : (s.Slave w).Done = true := by
          by_contra hnd
          have hnd' : (s.Slave w).Done = false := by simpa using hnd
          have ht : s.SlaveTaken w = (MsgsTo w s.Master.Sent).length :=
            le_antisymm (hinv.slaveTaken w) (hB w h1 h2 hnd')
          obtain ⟨a1, a2, a3⟩ := Slave_all_taken _ T s h [] hinv w ht
          have hcount := (hinv.slots w).1
          rw [if_pos ⟨h1, h2⟩, hfrom, a1, List.length_append, List.length_map] at hcount
          have : 3 ≤ (MsgsTo w (QuitMsgs s.Master.Sent)).length := by
            split at hcount <;> simp at hcount <;> omega
          exact hnd (a2.mpr this)
        rw [hfrom]
        exact List.countP_pos_iff.mpr
          ⟨_, Slave_done_sent _ T s h [] hinv w hdone, by simp⟩
      have hsum : ExitCount h =
          ∑ w ∈ Finset.Ico (1 : Int) ((W : Int) + 1), ExitCount (MsgsFrom w h) := by
        have h1 := sum_by_key (fun x : SlaveSend α => x.Source) ((W : Int) + 1)
          (fun x => if x.Tag = SLAVE_TO_MASTER_EXITING then 1 else 0) h hsrc
        rw [← ExitCount_eq_sum] at h1
        rw [h1]
        apply Finset.sum_congr rfl
        intro w _
        exact (ExitCount_eq_sum _).symm
      have hge : (Finset.Ico (1 : Int) ((W : Int) + 1)).card ≤ ExitCount h := by
        rw [hsum, Finset.card_eq_sum_ones]
        exact Finset.sum_le_sum hexit
      rw [Int.card_Ico] at hge
      omega

/-! ## Termination: runs are bounded, and every run can be completed -/

theorem sum_update_succ (S : Finset Int) (f : Int → Nat) (w : Int) (hw : w ∈ S) :
    ∑ x ∈ S, Function.update f w (f w + 1) x = (∑ x ∈ S, f x) + 1 := by
  have hpt : ∀ x, Function.update f w (f w + 1) x = f x + (if x = w then 1 else 0) := by
    intro x
    by_cases h : x = w
    · subst h; simp
    · simp [Function.update_noteq h, h]
  simp only [hpt, Finset.sum_add_distrib, Finset.sum_ite_eq', hw, if_true]

/-- Every event adds one to the count of messages taken. -/
theorem Steps_step [Field α] (CommSize : Int) (T : ThreadData α) (s s1 : System α)
    (e : Event) (hstep : SystemStep CommSize T s e = some s1) :
    Steps CommSize s1 = Steps CommSize s + 1 := by
  cases e with
  | slave w =>
    simp only [SystemStep] at hstep
    split at hstep
    case isFalse => exact absurd hstep (by simp)
    case isTrue hg =>
      cases hget : (List.filter (fun m => decide (m.Dest = w)) s.Master.Sent)[s.SlaveTaken w]? with
      | none => rw [hget] at hstep; exact absurd hstep (by simp)
      | some m =>
        rw [hget] at hstep
        simp only [Option.some.injEq] at hstep
        subst hstep
        unfold Steps
        simp only [Finset.sum_add_distrib]
        rw [sum_update_succ _ _ _ (Finset.mem_Ico.mpr ⟨hg.1, hg.2.1⟩)]
        omega
  | master w =>
    simp only [SystemStep] at hstep
    split at hstep
    case isFalse => exact absurd hstep (by simp)
    case isTrue hg =>
      cases hget : (s.Slave w).Sent[s.MasterTaken w]? with
      | none => rw [hget] at hstep; exact absurd hstep (by simp)
      | some m =>
        rw [hget] at hstep
        simp only [Option.some.injEq] at hstep
        subst hstep
        unfold Steps
        simp only [Finset.sum_add_distrib]
        rw [sum_update_succ _ _ _ (Finset.mem_Ico.mpr ⟨hg.1, hg.2.1⟩)]
        omega

theorem Steps_run [Field α] (CommSize : Int) (T : ThreadData α) (sched : List Event) :
    ∀ (s s1 : System α), SystemRun CommSize T s sched = some s1 →
      Steps CommSize s1 = Steps CommSize s + sched.length := by
  induction sched with
  | nil =>
    intro s s1 hrun
    simp only [SystemRun, Option.some.injEq] at hrun
    subst hrun
    rfl
  | cons e es ih =>
    intro s s1 hrun
    simp only [SystemRun] at hrun
    cases hstep : SystemStep CommSize T s e with
    | none => rw [hstep] at hrun; exact absurd hrun (by simp)
    | some s2 =>
      rw [hstep] at hrun
      rw [ih s2 s1 hrun, Steps_step CommSize T s s2 e hstep, List.length_cons]
      omega

theorem Steps_init [Field α] (CommSize : Int) (T : ThreadData α) :
    Steps CommSize (SystemInit CommSize T) = 0 := by
  simp [Steps, SystemInit]

theorem SystemRun_append [Field α] (CommSize : Int) (T : ThreadData α) (a b : List Event) :
    ∀ (s s1 s2 : System α), SystemRun CommSize T s a = some s1 →
      SystemRun CommSize T s1 b = some s2 → SystemRun CommSize T s (a ++ b) = some s2 := by
  induction a with
  | nil =>
    intro s s1 s2 h1 h2
    simp only [SystemRun, Option.some.injEq] at h1
    subst h1
    exact h2
  | cons e es ih =>
    intro s s1 s2 h1 h2
    simp only [SystemRun] at h1
    cases hstep : SystemStep CommSize T s e with
    | none => rw [hstep] at h1; exact absurd h1 (by simp)
    | some s3 =>
      rw [hstep] at h1
      simp only [List.cons_append, SystemRun, hstep]
      exact ih s3 s1 s2 h1 h2

/-- The messages of a list with their key in a set are at most the list. -/
theorem sum_filter_le {γ : Type} (key : γ → Int) (S : Finset Int) (l : List γ) :
    ∑ w ∈ S, (l.filter (fun x => key x = w)).length ≤ l.length := by
  induction l with
  | nil => simp
  | cons x xs ih =>
    have hterm : ∀ w : Int, ((x :: xs).filter (fun x => key x = w)).length =
        (if key x = w then 1 else 0) + (xs.filter (fun x => key x = w)).length := by
      intro w
      by_cases h : key x = w <;> simp [List.filter_cons, h]; omega
    simp only [hterm, Finset.sum_add_distrib, Finset.sum_ite_eq, List.length_cons]
    split <;> omega

/-- No more work messages are sent than there are chunks. -/
theorem work_count_le (N G : Int) (k : Nat) (st : MasterState α) (hN : 0 ≤ N)
    (hG : 1 ≤ G) (hg : GenInv N G k st) :
    (WorkMsgs st.Sent).length ≤ chunkCount N G := by
  obtain ⟨_, _, hlt, _⟩ := hg
  by_cases h0 : (WorkMsgs st.Sent).length = 0
  · omega
  · have h2 : (WorkMsgs st.Sent).length - 1 < chunkCount N G := by
      rw [lt_chunkCount_iff N G hN hG]
      have : (((WorkMsgs st.Sent).length - 1 : Nat) : Int) =
          ((WorkMsgs st.Sent).length : Int) - 1 := by omega
      rw [this]
      exact hlt
    omega

/-- Bound on the length of a run: two events per chunk (the work message
taken by a worker, its reply taken by the controller), and at most five per
worker. -/
theorem Steps_le [Field α] (T : ThreadData α) (N G : Int) (W k : Nat) (s : System α)
    (h fin : List (SlaveSend α)) (hN : 0 ≤ N) (hG : 1 ≤ G)
    (hinv : SysInv ((W : Int) + 1) T s h fin) (hgen : GenInv N G k s.Master) :
    Steps ((W : Int) + 1) s ≤ 2 * chunkCount N G + 5 * W := by
  have hper : ∀ w ∈ Finset.Ico (1 : Int) ((W : Int) + 1),
      s.SlaveTaken w + s.MasterTaken w ≤
        5 + 2 * (MsgsTo w (WorkMsgs s.Master.Sent)).length := by
    intro w hw
    obtain ⟨h1, h2⟩ := Finset.mem_Ico.mp hw
    have ha := hinv.slaveTaken w
    have hb := (hinv.slots w).1
    rw [if_pos ⟨h1, h2⟩] at hb
    have hc : (MsgsFrom w h).length ≤ s.MasterTaken w := by
      have h3 : (MsgsFrom w h).length ≤ (MsgsFrom w (h ++ fin)).length := by
        unfold MsgsFrom
        rw [List.filter_append, List.length_append]
        omega
      rw [hinv.fromSlave w, List.length_take] at h3
      omega
    have hd := hinv.masterTaken w
    obtain ⟨t, q, hsent, _, _, _⟩ := Slave_sent _ T s h fin hinv w
    have he : (s.Slave w).Sent.length ≤ (MsgsTo w (WorkMsgs s.Master.Sent)).length + 1 := by
      rw [hsent, List.length_append, List.length_map, List.length_take]
      split <;> simp
    omega
  have hwork := work_count_le N G k s.Master hN hG hgen
  have hsum := sum_filter_le (fun m : MasterSend => m.Dest)
    (Finset.Ico (1 : Int) ((W : Int) + 1)) (WorkMsgs s.Master.Sent)
  calc Steps ((W : Int) + 1) s
      ≤ ∑ w ∈ Finset.Ico (1 : Int) ((W : Int) + 1),
          (5 + 2 * (MsgsTo w (WorkMsgs s.Master.Sent)).length) := Finset.sum_le_sum hper
    _ = 5 * W + 2 * ∑ w ∈ Finset.Ico (1 : Int) ((W : Int) + 1),
          (MsgsTo w (WorkMsgs s.Master.Sent)).length := by
        rw [Finset.sum_add_distrib, Finset.sum_const, Int.card_Ico, ← Finset.mul_sum]
        have : ((W : Int) + 1 - 1).toNat = W := by omega
        rw [this, smul_eq_mul, mul_comm]
    _ ≤ 2 * chunkCount N G + 5 * W := by
        have : ∑ w ∈ Finset.Ico (1 : Int) ((W : Int) + 1),
            (MsgsTo w (WorkMsgs s.Master.Sent)).length ≤ (WorkMsgs s.Master.Sent).length :=
          hsum
        omega

/-- One event keeps the invariants. -/
theorem SysInv_step [Field α] (CommSize : Int) (hC : CommSize < 2 ^ 31) (T : ThreadData α)
    (N G : Int) (k : Nat) (hG : 1 ≤ G) (hk : 1 ≤ k) (hov : N + G < 2 ^ 63)
    (s s1 : System α) (h fin : List (SlaveSend α)) (e : Event)
    (hinv : SysInv CommSize T s h fin) (hgen : GenInv N G k s.Master)
    (hstep : SystemStep CommSize T s e = some s1) :
    (∃ h1 fin1, SysInv CommSize T s1 h1 fin1) ∧ GenInv N G k s1.Master := by
  have hrun : SystemRun CommSize T s [e] = some s1 := by
    simp only [SystemRun, hstep]
  exact ⟨SysInv_run CommSize hC T [e] s s1 h fin hinv hrun,
    GenInv_run CommSize hC T N G k hG hk hov [e] s s1 h fin hinv hgen hrun⟩

/-- Completion. From every reached state the run can be continued, by events
that are all enabled, to a state in which the controller has left its loop;
`d` counts the events that are left at most. -/
theorem SysInv_complete [Field α] (T : ThreadData α) (N G : Int) (W k : Nat)
    (hN : 0 ≤ N) (hG : 1 ≤ G) (hk : 1 ≤ k) (hWmax : (W : Int) + 1 < 2 ^ 31)
    (hov : N + G < 2 ^ 63) :
    ∀ (d : Nat) (s : System α) (h fin : List (SlaveSend α)),
      SysInv ((W : Int) + 1) T s h fin → GenInv N G k s.Master →
      2 * chunkCount N G + 5 * W - Steps ((W : Int) + 1) s ≤ d →
      ∃ (rest : List Event) (s1 : System α),
        SystemRun ((W : Int) + 1) T s rest = some s1 ∧ s1.Master.Done = true := by
  intro d
  induction d with
  | zero =>
    intro s h fin hinv hgen hd
    cases hD : s.Master.Done with
    | true => exact ⟨[], s, rfl, hD⟩
    | false =>
      exfalso
      obtain ⟨e, s1, hstep⟩ := SysInv_progress T W s h fin hinv hD
      obtain ⟨⟨h1, fin1, hinv1⟩, hgen1⟩ :=
        SysInv_step _ hWmax T N G k hG hk hov s s1 h fin e hinv hgen hstep
      have hb := Steps_le T N G W k s1 h1 fin1 hN hG hinv1 hgen1
      have hs := Steps_step _ T s s1 e hstep
      omega
  | succ d ih =>
    intro s h fin hinv hgen hd
    cases hD : s.Master.Done with
    | true => exact ⟨[], s, rfl, hD⟩
    | false =>
      obtain ⟨e, s1, hstep⟩ := SysInv_progress T W s h fin hinv hD
      obtain ⟨⟨h1, fin1, hinv1⟩, hgen1⟩ :=
        SysInv_step _ hWmax T N G k hG hk hov s s1 h fin e hinv hgen hstep
      have hs := Steps_step _ T s s1 e hstep
      obtain ⟨rest, s2, hrun, hdone⟩ := ih s1 h1 fin1 hinv1 hgen1 (by omega)
      exact ⟨e :: rest, s2, by simp only [SystemRun, hstep]; exact hrun, hdone⟩

/-- Every run of the process group can be completed. For `N ≥ 1000`, the
granularity `G` `main` selects (`N + G` in the range of `long`) and
`2 ≤ CommSize ≤ 32`: a run has at most `2 * m + 5 * (CommSize - 1)` events,
`m = ceil (N / G)`, and from the state it has reached it can be continued to a
state in which the controller has left its loop. -/
theorem SystemRun_completes [Field α] (T : ThreadData α) (N CommSize : Int)
    (sched : List Event) (s : System α)
    (hN : 1000 ≤ N) (h2 : 2 ≤ CommSize) (h32 : CommSize ≤ 32)
    (hTN : T.NoOfPoints = N) (hTG : T.Granularity = if N < 10000 then 10 else 100)
    (hC : T.CompletedIndex = 0) (hov : N + T.Granularity < 2 ^ 63)
    (hrun : SystemRun CommSize T (SystemInit CommSize T) sched = some s) :
    sched.length ≤ 2 * chunkCount N T.Granularity + 5 * (CommSize - 1).toNat ∧
    ∃ (rest : List Event) (s1 : System α),
      SystemRun CommSize T s rest = some s1 ∧ s1.Master.Done = true ∧
      SystemRun CommSize T (SystemInit CommSize T) (sched ++ rest) = some s1 := by
  obtain ⟨W, rfl, hW, hG1, hG100, hk, hov0⟩ :=
    fill_conditions N T.Granularity CommSize hN h2 h32 hTG
  generalize hGdef : T.Granularity = G at *
  have hWn : ((W : Int) + 1 - 1).toNat = W := by omega
  rw [hWn]
  obtain ⟨h, fin, hinv⟩ := SysInv_reach T N G W hG1 hW (by omega) hTN hGdef hC
    hk hov0 sched s hrun
  have hgen := GenInv_reach T N G W hG1 hW (by omega) hTN hGdef hC hk hov sched s hrun
  have hN0 : 0 ≤ N := by omega
  constructor
  · have hb := Steps_le T N G W (3 * W) s h fin hN0 hG1 hinv hgen
    rw [Steps_run _ T sched _ s hrun, Steps_init] at hb
    omega
  · obtain ⟨rest, s1, hrest, hdone⟩ :=
      SysInv_complete T N G W (3 * W) hN0 hG1 (by omega) (by omega) hov _ s h fin hinv hgen
        (le_refl _)
    exact ⟨rest, s1, hrest, hdone, SystemRun_append _ T sched rest _ s s1 hrun hrest⟩

/-- With the constant integrand and `N = 1000`, a controller that has left its
loop holds exactly 10. -/
theorem constant_sum_of_done [Field α] [CharZero α] (CommSize Intensity : Int)
    (sched : List Event) (s : System α) (h2 : 2 ≤ CommSize) (h32 : CommSize ≤ 32)
    (hrun : SystemRun CommSize (ConstData Intensity) (SystemInit CommSize (ConstData Intensity))
      sched = some s)
    (hdone : s.Master.Done = true) :
    s.Master.IntegralOutput = 10 := by
  obtain ⟨W, rfl, hW, hG1, _, hk, hov⟩ :=
    fill_conditions 1000 10 CommSize (by norm_num) h2 h32 (by norm_num)
  have hW31 : W ≤ 31 := by omega
  obtain ⟨h, fin, hinv⟩ := SysInv_reach (ConstData Intensity : ThreadData α) 1000 10 W hG1 hW
    (by omega) rfl rfl rfl hk hov sched s hrun
  have hgen := GenInv_reach (ConstData Intensity : ThreadData α) 1000 10 W hG1 hW
    (by omega) rfl rfl rfl hk (by norm_num) sched s hrun
  rw [final_sum (ConstData Intensity) 1000 10 W s h fin (by norm_num) hG1 hW hinv hgen hdone]
  have hm : chunkCount 1000 10 = 100 := by decide
  rw [hm]
  have hterm : ∀ j ∈ List.range 100,
      ChunkSum (ConstData Intensity : ThreadData α) (PayloadAt 1000 10 (3 * W) j) = 1 / 10 := by
    intro j hj
    exact ChunkSum_const Intensity _
      (PayloadAt_length (3 * W) j (by omega) (List.mem_range.mp hj))
  rw [List.map_congr_left hterm]
  simp only [List.map_const', List.length_range, List.sum_replicate, nsmul_eq_mul]
  norm_num

/-- C11. End-to-end scenario A in exact arithmetic. With the constant
integrand `f(x, intensity) = 1`, bounds `[0, 10]`, `N = 1000` (so `G = 10`) and
any intensity, for every group size `2 ≤ CommSize ≤ 32` and every run of the
process group, in whatever order the messages are taken: when the controller
has left its loop its accumulator is exactly 10; the run has at most
`200 + 5 * (CommSize - 1)` events; and from the state it has reached it can be
continued to a state in which the controller has left its loop, with the
accumulator at 10. -/
theorem SystemRun_constant_sum [Field α] [CharZero α] (CommSize Intensity : Int)
    (sched : List Event) (s : System α) (h2 : 2 ≤ CommSize) (h32 : CommSize ≤ 32)
    (hrun : SystemRun CommSize (ConstData Intensity) (SystemInit CommSize (ConstData Intensity))
      sched = some s) :
    (s.Master.Done = true → s.Master.IntegralOutput = 10) ∧
    (sched.length : Int) ≤ 200 + 5 * (CommSize - 1) ∧
    ∃ (rest : List Event) (s1 : System α),
      SystemRun CommSize (ConstData Intensity) s rest = some s1 ∧
      s1.Master.Done = true ∧ s1.Master.IntegralOutput = 10 := by
  obtain ⟨hlen, rest, s1, hrest, hdone, hall⟩ :=
    SystemRun_completes (ConstData Intensity : ThreadData α) 1000 CommSize sched s
      (by norm_num) h2 h32 rfl rfl rfl (by norm_num [ConstData]) hrun
  refine ⟨constant_sum_of_done CommSize Intensity sched s h2 h32 hrun, ?_,
    rest, s1, hrest, hdone,
    constant_sum_of_done CommSize Intensity (sched ++ rest) s1 h2 h32 hall hdone⟩
  have hm : chunkCount 1000 (ConstData Intensity : ThreadData α).Granularity = 100 := by
    show chunkCount 1000 10 = 100
    decide
  rw [hm] at hlen
  omega

/-! ## Granularity selection -/

/-- C12. Granularity selection in `main`. For every accepted point count
`N ≥ 1000` (with the five arguments present and a selector in `1 .. 4`, so
that `main` enters the scheduler), the configuration handed to the scheduler
has `G = 10` when `N < 10000` and `G = 100` otherwise, and in both cases the
bound of the comment holds: `MAX_CHUNK * MAX_PROCESSORS * G < N`, that is
`3 * 32 * G < N`. -/
theorem main_granularity (argc FunctionID : Int) (LowerBound UpperBound : α)
    (NoOfPoints Intensity : Int) (f1 f2 f3 f4 : α → Int → α)
    (hargc : 6 ≤ argc) (hN : 1000 ≤ NoOfPoints) (hF1 : 1 ≤ FunctionID) (hF4 : FunctionID ≤ 4) :
    ∃ T : ThreadData α,
      (main argc FunctionID LowerBound UpperBound NoOfPoints Intensity f1 f2 f3 f4).Scheduled =
        some T ∧
      T.NoOfPoints = NoOfPoints ∧ T.CompletedIndex = 0 ∧
      T.Granularity = (if NoOfPoints < 10000 then 10 else 100) ∧
      (NoOfPoints < 10000 → T.Granularity = 10) ∧
      (10000 ≤ NoOfPoints → T.Granularity = 100) ∧
      (MAX_CHUNK : Int) * MAX_PROCESSORS * T.Granularity < NoOfPoints ∧
      3 * 32 * T.Granularity < NoOfPoints := by
  have ha : ¬ (argc < 6) := by omega
  have hn : ¬ (NoOfPoints < 1000) := by omega
  have hF : FunctionID = 1 ∨ FunctionID = 2 ∨ FunctionID = 3 ∨ FunctionID = 4 := by omega
  have hprop : ∀ G : Int, G = (if NoOfPoints < 10000 then 10 else 100) →
      (NoOfPoints < 10000 → G = 10) ∧ (10000 ≤ NoOfPoints → G = 100) ∧
      (MAX_CHUNK : Int) * MAX_PROCESSORS * G < NoOfPoints ∧ 3 * 32 * G < NoOfPoints := by
    intro G hG
    simp only [MAX_CHUNK, MAX_PROCESSORS]
    by_cases h : NoOfPoints < 10000
    · rw [if_pos h] at hG; subst hG
      exact ⟨fun _ => rfl, fun h' => by omega, by norm_num; omega, by omega⟩
    · rw [if_neg h] at hG; subst hG
      exact ⟨fun h' => absurd h' h, fun _ => rfl, by norm_num; omega, by omega⟩
  rcases hF with rfl | rfl | rfl | rfl
  · exact ⟨_, by simp only [main, ha, hn, if_false, if_true]; rfl, rfl, rfl, rfl, hprop _ rfl⟩
  · exact ⟨_, by simp only [main, ha, hn, if_false]; rfl, rfl, rfl, rfl, hprop _ rfl⟩
  · exact ⟨_, by simp only [main, ha, hn, if_false]; rfl, rfl, rfl, rfl, hprop _ rfl⟩
  · exact ⟨_, by simp only [main, ha, hn, if_false]; rfl, rfl, rfl, rfl, hprop _ rfl⟩

/-! ## Instances at concrete inputs, continued -/

/-- Instance of C11: the complete run of `mpirun -n 2 ./advnc_sched 1 0 10
1000 1` with the constant integrand ends with the accumulator at 10. -/
theorem SystemRun_constant_sum_witness :
    ∃ s : System ℚ,
      SystemRun 2 (ConstData 1) (SystemInit 2 (ConstData 1)) SampleSchedule = some s ∧
      s.Master.Done = true ∧ s.Master.IntegralOutput = 10 := by
  have hsome : (SystemRun 2 (ConstData 1 : ThreadData ℚ) (SystemInit 2 (ConstData 1))
      SampleSchedule).map (fun s => s.Master.Done) = some true := by decide!
  cases hrun : SystemRun 2 (ConstData 1 : ThreadData ℚ) (SystemInit 2 (ConstData 1))
      SampleSchedule with
  | none => rw [hrun] at hsome; exact absurd hsome (by simp)
  | some s =>
    rw [hrun] at hsome
    have hd : s.Master.Done = true := by simpa using hsome
    exact ⟨s, rfl, hd,
      (SystemRun_constant_sum 2 1 SampleSchedule s (by decide) (by decide) hrun).1 hd⟩

/-- Instance of C12: `advnc_sched 1 0 10 1000 1`. -/
theorem main_granularity_witness :
    (6 : Int) ≤ 6 ∧ (1000 : Int) ≤ 1000 ∧
    ∃ T : ThreadData ℚ,
      (main 6 1 0 10 1000 1 (fun x _ => x) (fun x _ => x) (fun x _ => x)
        (fun x _ => x)).Scheduled = some T ∧
      T.NoOfPoints = 1000 ∧ T.CompletedIndex = 0 ∧
      T.Granularity = (if (1000 : Int) < 10000 then 10 else 100) ∧
      ((1000 : Int) < 10000 → T.Granularity = 10) ∧
      ((10000 : Int) ≤ 1000 → T.Granularity = 100) ∧
      (MAX_CHUNK : Int) * MAX_PROCESSORS * T.Granularity < 1000 ∧
      3 * 32 * T.Granularity < 1000 :=
  ⟨by decide, by decide,
    main_granularity 6 1 0 10 1000 1 (fun x _ => x) (fun x _ => x) (fun x _ => x)
      (fun x _ => x) (by decide) (by decide) (by decide) (by decide)⟩

/-- Instance of C13: two processes, 1000 points; the fill ends with the
cursor at 30. -/
theorem InitialFill_chunks_witness :
    (1000 : Int) ≤ 1000 ∧ (2 : Int) ≤ 2 ∧ (2 : Int) ≤ 32 ∧
    (InitialFill 2 (MasterInit SampleData)).ThreadInfo.CompletedIndex =
      3 * (2 - 1) * SampleData.Granularity ∧
    3 * (2 - 1) * SampleData.Granularity < 1000 :=
  have h := InitialFill_chunks SampleData 1000 2 (by decide) (by decide) (by decide) rfl rfl rfl
  ⟨by decide, by decide, by decide, h.2.2.2.2.1, h.2.2.2.2.2.1⟩

/-- Instance of C14: in `mpirun -n 2 ./advnc_sched 1 0 10 1000 1`, worker 1
has answered its first message and the controller takes the answer: slot 0
is reused and four messages have then been sent to worker 1. -/
theorem SystemRun_slot_reuse_witness :
    ∃ (s s1 : System ℚ) (r : SlaveSend ℚ),
      SystemRun 2 SampleData (SystemInit 2 SampleData) [Event.slave 1] = some s ∧
      (s.Slave 1).Sent[s.MasterTaken 1]? = some r ∧ r.Tag = SLAVE_TO_MASTER_REQ_WORK ∧
      SystemStep 2 SampleData s (Event.master 1) = some s1 ∧
      (GetFreeChunkIndex 1 s.Master.ChunkIndex).1 = (s.MasterTaken 1 : Int) % 3 ∧
      (MsgsTo 1 s.Master.Sent).length = s.MasterTaken 1 + 3 := by
  have h1 : (SystemRun 2 SampleData (SystemInit 2 SampleData) [Event.slave 1]).map
      (fun s => ((s.Slave 1).Sent[s.MasterTaken 1]?).map (fun r => r.Tag)) =
      some (some SLAVE_TO_MASTER_REQ_WORK) := by decide!
  have h2 : ((SystemRun 2 SampleData (SystemInit 2 SampleData) [Event.slave 1]).bind
      (fun s => SystemStep 2 SampleData s (Event.master 1))).isSome = true := by decide!
  cases hrun : SystemRun 2 SampleData (SystemInit 2 SampleData) [Event.slave 1] with
  | none => rw [hrun] at h1; exact absurd h1 (by simp)
  | some s =>
    rw [hrun] at h1 h2
    simp only [Option.map_some', Option.some.injEq, Option.some_bind] at h1 h2
    obtain ⟨r, hr, hrt⟩ := Option.map_eq_some'.mp h1
    obtain ⟨s1, hs1⟩ := Option.isSome_iff_exists.mp h2
    have h := SystemRun_slot_reuse SampleData 1000 2 [Event.slave 1] s s1 1 r (by decide)
      (by decide) (by decide) rfl rfl rfl hrun hr hrt hs1
    exact ⟨s, s1, r, rfl, hr, hrt, hs1, h.2.1, h.2.2.1⟩

/-- Instance of C15: the complete run of `mpirun -n 2 ./advnc_sched 1 0 10
1000 1` sends exactly 100 work messages. -/
theorem SystemRun_work_payloads_witness :
    ∃ s : System ℚ,
      SystemRun 2 SampleData (SystemInit 2 SampleData) SampleSchedule = some s ∧
      s.Master.Done = true ∧
      (WorkMsgs s.Master.Sent).length = chunkCount 1000 SampleData.Granularity := by
  have hsome : (SystemRun 2 SampleData (SystemInit 2 SampleData) SampleSchedule).map
      (fun s => s.Master.Done) = some true := by decide!
  cases hrun : SystemRun 2 SampleData (SystemInit 2 SampleData) SampleSchedule with
  | none => rw [hrun] at hsome; exact absurd hsome (by simp)
  | some s =>
    rw [hrun] at hsome
    have hd : s.Master.Done = true := by simpa using hsome
    exact ⟨s, rfl, hd,
      (SystemRun_work_payloads SampleData 1000 2 SampleSchedule s (by decide) (by decide)
        (by decide) rfl rfl rfl (by decide!) hrun hd).2.1⟩

/-- Instance of C16: after the initial fill for one worker and one partial
result from it, four messages have been sent to it. -/
theorem MasterWork_quit_accounting_witness :
    (MsgsTo 1 (WorkMsgs (MasterWork 2 SampleData
        [⟨1, SLAVE_TO_MASTER_REQ_WORK, 1 / 200⟩]).Sent)).length +
      (MsgsTo 1 (QuitMsgs (MasterWork 2 SampleData
        [⟨1, SLAVE_TO_MASTER_REQ_WORK, 1 / 200⟩]).Sent)).length =
      3 + (MsgsFrom 1 [(⟨1, SLAVE_TO_MASTER_REQ_WORK, 1 / 200⟩ : SlaveSend ℚ)]).length :=
  (MasterWork_quit_accounting SampleData 1000 2 [⟨1, SLAVE_TO_MASTER_REQ_WORK, 1 / 200⟩]
    (by decide) (by decide) (by decide) rfl rfl rfl
    (fun m hm => by rw [List.mem_singleton.mp hm])).1 1 (by decide) (by decide)

end AdvncSched

/-! ## Static partitioner -/

namespace StaticSched

theorem floatOfInt_eq (x : Int) (h0 : 0 ≤ x) (h1 : x ≤ 2 ^ 24) : floatOfInt x = x := by
  have h : x.natAbs ≤ 2 ^ 24 := by omega
  unfold floatOfInt
  exact if_pos h

theorem mul_ediv_bounds (N C : Int) (hN : 0 ≤ N) (hC : 1 ≤ C) (r : Int) (h0 : 0 ≤ r)
    (hr : r ≤ C) : 0 ≤ r * N ∧ r * N ≤ C * N ∧ 0 ≤ r * N / C ∧ r * N / C ≤ N := by
  have h1 : 0 ≤ r * N := mul_nonneg h0 hN
  have h2 : r * N ≤ C * N := mul_le_mul_of_nonneg_right hr hN
  have h3 : 0 ≤ r * N / C := Int.ediv_nonneg h1 (by omega)
  have h4 : r * N / C ≤ C * N / C := Int.ediv_le_ediv (by omega) h2
  have h5 : C * N / C = N := by
    rw [mul_comm]; exact Int.mul_ediv_cancel N (by omega)
  exact ⟨h1, h2, h3, by omega⟩

/-- Under the size conditions the stored bound is the exact floor. -/
theorem StartIndex_eq (N C : Int) (hN : 0 ≤ N) (hC : 1 ≤ C) (hCN : C * N < 2 ^ 31)
    (hN24 : N ≤ 2 ^ 24) (r : Int) (h0 : 0 ≤ r) (hr : r ≤ C) :
    StartIndex r N C = r * N / C := by
  obtain ⟨h1, h2, h3, h4⟩ := mul_ediv_bounds N C hN hC r h0 hr
  unfold StartIndex
  rw [AdvncSched.wrapInt_eq _ (by omega) (by omega), Int.tdiv_eq_ediv h1 (by omega),
    floatOfInt_eq _ h3 (by omega)]

theorem StopIndex_eq (N C : Int) (hN : 0 ≤ N) (hC : 1 ≤ C) (hCN : C * N < 2 ^ 31)
    (hN24 : N ≤ 2 ^ 24) (r : Int) (h0 : 0 ≤ r) (hr : r < C) :
    StopIndex r N C = (r + 1) * N / C := by
  have := StartIndex_eq N C hN hC hCN hN24 (r + 1) (by omega) (by omega)
  unfold StartIndex at this
  unfold StopIndex
  exact this

theorem IndexLoop_eq (stop : Int) (hs : stop ≤ 2 ^ 24) :
    ∀ (n fuel : Nat) (i : Int), 0 ≤ i → i + n = stop → n ≤ fuel →
      IndexLoop stop fuel i = (List.range n).map (fun j : Nat => i + (j : Int)) := by
  intro n
  induction n with
  | zero =>
    intro fuel i h0 hi _
    have hf : floatOfInt i = i := floatOfInt_eq i h0 (by omega)
    cases fuel with
    | zero => simp [IndexLoop]
    | succ f =>
      have : ¬ (i < stop) := by omega
      simp [IndexLoop, hf, this]
  | succ n ih =>
    intro fuel i h0 hi hfuel
    obtain ⟨f, rfl⟩ : ∃ f, fuel = f + 1 := ⟨fuel - 1, by omega⟩
    have hf : floatOfInt i = i := floatOfInt_eq i h0 (by omega)
    have hlt : i < stop := by omega
    have hw : AdvncSched.wrapInt (i + 1) = i + 1 :=
      AdvncSched.wrapInt_eq _ (by omega) (by omega)
    have := ih f (i + 1) (by omega) (by push_cast at hi; omega) (by omega)
    simp only [IndexLoop, hf, hlt, if_true, hw, this, List.range_succ_eq_map, List.map_cons,
      List.map_map]
    simp only [Nat.cast_zero, add_zero, List.cons.injEq, true_and]
    apply List.map_congr_left
    intro j _
    simp only [Function.comp, Nat.succ_eq_add_one]
    push_cast
    ring

/-- The floors `r * N / C` are monotone in `r`. -/
theorem floor_mono (N C : Int) (hN : 0 ≤ N) (hC : 1 ≤ C) (a b : Int) (hab : a ≤ b) :
    a * N / C ≤ b * N / C :=
  Int.ediv_le_ediv (by omega) (mul_le_mul_of_nonneg_right hab hN)

/-- Every range has `N / C` or `N / C + 1` indices. -/
theorem floor_step (N C : Int) (hC : 1 ≤ C) (r : Int) :
    N / C ≤ (r + 1) * N / C - r * N / C ∧ (r + 1) * N / C - r * N / C ≤ N / C + 1 := by
  have hC0 : C ≠ 0 := by omega
  have hCp : 0 < C := by omega
  have hrem0 : 0 ≤ N % C := Int.emod_nonneg N hC0
  have hremC : N % C < C := Int.emod_lt_of_pos N hCp
  have hsplit : (r + 1) * N = (r * N + N % C) + N / C * C := by
    have := Int.emod_add_ediv N C
    have h2 : N = N % C + N / C * C := by rw [mul_comm (N / C) C]; omega
    calc (r + 1) * N = r * N + N := by ring
      _ = r * N + (N % C + N / C * C) := by rw [← h2]
      _ = (r * N + N % C) + N / C * C := by ring
  have h1 : (r + 1) * N / C = (r * N + N % C) / C + N / C := by
    rw [hsplit, Int.add_mul_ediv_right _ _ hC0]
  have h2 : r * N / C ≤ (r * N + N % C) / C := Int.ediv_le_ediv hCp (by omega)
  have h3 : (r * N + N % C) / C ≤ (r * N + 1 * C) / C := Int.ediv_le_ediv hCp (by omega)
  rw [Int.add_mul_ediv_right _ _ hC0] at h3
  omega

theorem floor_cover (N C : Int) (i : Int) (h0 : 0 ≤ i) :
    ∀ k : Nat, (k : Int) ≤ C → i < (k : Int) * N / C →
      ∃ r : Nat, r < k ∧ (r : Int) * N / C ≤ i ∧ i < ((r : Int) + 1) * N / C := by
  intro k
  induction k with
  | zero => intro _ h; simp at h; omega
  | succ k ih =>
    intro hk h
    by_cases hlt : i < (k : Int) * N / C
    · obtain ⟨r, hr, h1, h2⟩ := ih (by push_cast at hk; omega) hlt
      exact ⟨r, by omega, h1, h2⟩
    · refine ⟨k, by omega, by omega, ?_⟩
      push_cast at h
      exact h

/-- C17. Static partitioner. For `N ≥ 0` points and `C ≥ 1` processes with
`C * N < 2^31` and `N ≤ 2^24`, rank `r` in `[0, C)` iterates exactly the
indices `floor (r*N/C) ≤ i < floor ((r+1)*N/C)`, in increasing order (for any
fuel of at least `N` iterations); the first range starts at 0, each range
starts where the previous one stops, the last one stops at `N`; the ranges of
two different ranks are disjoint, their union is exactly `[0, N)`, and any
two range lengths differ by at most 1. -/
theorem LoopIndices_partition (N C : Int) (fuel : Nat) (hN : 0 ≤ N) (hC : 1 ≤ C)
    (hCN : C * N < 2 ^ 31) (hN24 : N ≤ 2 ^ 24) (hfuel : N.toNat ≤ fuel) :
    (∀ r : Nat, (r : Int) < C →
      LoopIndices fuel r N C =
        (List.range (((r : Int) + 1) * N / C - (r : Int) * N / C).toNat).map
          (fun j : Nat => (r : Int) * N / C + (j : Int))) ∧
    (∀ (r : Nat) (i : Int), (r : Int) < C →
      (i ∈ LoopIndices fuel r N C ↔ (r : Int) * N / C ≤ i ∧ i < ((r : Int) + 1) * N / C)) ∧
    (0 : Int) * N / C = 0 ∧ C * N / C = N ∧
    (∀ r : Nat, (r : Int) < C → (r : Int) * N / C ≤ ((r : Int) + 1) * N / C) ∧
    (∀ (r s : Nat) (i : Int), (r : Int) < C → (s : Int) < C → r ≠ s →
      i ∈ LoopIndices fuel r N C → i ∉ LoopIndices fuel s N C) ∧
    (∀ i : Int, (0 ≤ i ∧ i < N) ↔ ∃ r : Nat, (r : Int) < C ∧ i ∈ LoopIndices fuel r N C) ∧
    (∀ r s : Nat, (r : Int) < C → (s : Int) < C →
      (((r : Int) + 1) * N / C - (r : Int) * N / C) -
        (((s : Int) + 1) * N / C - (s : Int) * N / C) ≤ 1) := by
  have hlist : ∀ r : Nat, (r : Int) < C →
      LoopIndices fuel r N C =
        (List.range (((r : Int) + 1) * N / C - (r : Int) * N / C).toNat).map
          (fun j : Nat => (r : Int) * N / C + (j : Int)) := by
    intro r hr
    have hr0 : (0 : Int) ≤ r := by omega
    obtain ⟨_, _, a3, a4⟩ := mul_ediv_bounds N C hN hC r hr0 (by omega)
    obtain ⟨_, _, b3, b4⟩ := mul_ediv_bounds N C hN hC (r + 1) (by omega) (by omega)
    have hmono := floor_mono N C hN hC r (r + 1) (by omega)
    unfold LoopIndices
    rw [StartIndex_eq N C hN hC hCN hN24 r hr0 (by omega),
      StopIndex_eq N C hN hC hCN hN24 r hr0 hr]
    exact IndexLoop_eq _ (by omega) _ fuel _ a3 (by omega) (by omega)
  have hmem : ∀ (r : Nat) (i : Int), (r : Int) < C →
      (i ∈ LoopIndices fuel r N C ↔
        (r : Int) * N / C ≤ i ∧ i < ((r : Int) + 1) * N / C) := by
    intro r i hr
    have hmono := floor_mono N C hN hC r (r + 1) (by omega)
    rw [hlist r hr, List.mem_map]
    constructor
    · rintro ⟨j, hj, rfl⟩
      have := List.mem_range.mp hj
      omega
    · rintro ⟨h1, h2⟩
      exact ⟨(i - (r : Int) * N / C).toNat, List.mem_range.mpr (by omega), by omega⟩
  have hCC : C * N / C = N := by
    rw [mul_comm]; exact Int.mul_ediv_cancel N (by omega)
  refine ⟨hlist, hmem, by simp, hCC,
    fun r _ => floor_mono N C hN hC r (r + 1) (by omega), ?_, ?_, ?_⟩
  · intro r s i hr hs hrs hi
    rw [hmem r i hr] at hi
    rw [hmem s i hs]
    rintro ⟨h1, h2⟩
    rcases Nat.lt_or_gt_of_ne hrs with h | h
    · have := floor_mono N C hN hC ((r : Int) + 1) s (by omega)
      omega
    · have := floor_mono N C hN hC ((s : Int) + 1) r (by omega)
      omega
  · intro i
    constructor
    · rintro ⟨h0, h1⟩
      have hk : ((C.toNat : Nat) : Int) = C := Int.toNat_of_nonneg (by omega)
      obtain ⟨r, hr, h2, h3⟩ := floor_cover N C i h0 C.toNat (by omega)
        (by rw [hk, hCC]; exact h1)
      exact ⟨r, by omega, (hmem r i (by omega)).mpr ⟨h2, h3⟩⟩
    · rintro ⟨r, hr, hi⟩
      rw [hmem r i hr] at hi
      obtain ⟨_, _, a3, _⟩ := mul_ediv_bounds N C hN hC r (by omega) (by omega)
      obtain ⟨_, _, _, b4⟩ := mul_ediv_bounds N C hN hC (r + 1) (by omega) (by omega)
      omega
  · intro r s _ _
    have h1 := floor_step N C hC r
    have h2 := floor_step N C hC s
    omega

/-- Instance of C17: 10 points on 3 processes, rank 1 iterates 3, 4, 5. -/
theorem LoopIndices_partition_witness :
    (0 : Int) ≤ 10 ∧ (1 : Int) ≤ 3 ∧ (3 : Int) * 10 < 2 ^ 31 ∧ (10 : Int) ≤ 2 ^ 24 ∧
    LoopIndices 10 (1 : Nat) 10 3 =
      (List.range ((((1 : Nat) : Int) + 1) * 10 / 3 - ((1 : Nat) : Int) * 10 / 3).toNat).map
        (fun j : Nat => ((1 : Nat) : Int) * 10 / 3 + (j : Int)) :=
  ⟨by decide, by decide, by norm_num, by norm_num,
    (LoopIndices_partition 10 3 10 (by decide) (by decide) (by norm_num) (by norm_num)
      (by decide)).1 1 (by decide)⟩

end StaticSched
